import Mathlib

/-! # DB2Emu index tree (`src/src/structures/index_tree.c`)

A shallow embedding of the in-memory B+-tree of DB2Emu and the properties
established about it.

Memory model:

* A key buffer (`void *key`, `tree.key_size` bytes) is a list of bytes, held by
  value.  Every key buffer of the program is written either directly after its
  own `calloc`, or through `lower_page_entry->key`, which addresses a buffer
  owned by exactly one entry of a non-leaf page; no write is visible through
  an alias, so value semantics is exact.
* Pages live in a heap that only grows (`calloc`, never `free`); a page
  pointer is the index of the page in the heap, `NULL` is `none`.
* `void *data` is `Data`: `NULL`, the address of a `RecordID_t`, or the address
  of a page.
* An array slot is `Option IndexPageEntry`: `none` stands for bytes of
  indeterminate value.  Reading a slot outside its array (lines 182, 216, 334)
  yields `none`; copying such a slot is harmless, inspecting one of its
  fields is a fault.  Writing outside an array is a fault.
* `exit(EXIT_FAILURE)`, dereferencing `NULL`, and using an indeterminate value
  end the run with a `Fault`.
* A split reads two places that no statement has written: the local
  `lower_page_entry` when the page has a parent (line 326), and the slot after
  the array `candidates` (line 334).  In `split_high`,
  `BalanceAndInsertLeafPageEntry` and `idxt_AddRecord` their use ends the run;
  `split_high_with`, `BalanceAndInsertLeafPageEntry_with` and
  `idxt_AddRecord_with` are the same functions in an execution that finds the
  given `Garbage` there.  The reachable states are those of the latter, for
  every `Garbage`.
-/

namespace DB2Emu

/-- A key buffer: the bytes addressed by a `void *key`. -/
abbrev Key := List Nat

/-- `struct RecordID`. -/
structure RecordID where
  page_num : Nat
  slot_num : Nat
deriving DecidableEq, Repr

/-- What a `void *data` (or a returned `RecordID_t *` / `IndexPage_t *`)
addresses. -/
inductive Data where
  | null
  | rid (r : RecordID)
  | page (addr : Nat)
deriving DecidableEq, Repr

/-- `struct IndexPageEntry`; `key = none` is the `NULL` pointer. -/
structure IndexPageEntry where
  in_use : Bool
  key : Option Key
  data : Data
deriving DecidableEq, Repr

/-- One element of an `IndexPageEntry_t` array; `none` is indeterminate. -/
abbrev Slot := Option IndexPageEntry

/-- `struct IndexPage`; `entries` is the `calloc`ed array, `parent = none` is
`NULL`. -/
structure IndexPage where
  page_id : Nat
  is_leaf : Bool
  data_size : Nat
  max_entries : Nat
  num_entries : Nat
  entries : List Slot
  parent : Option Nat
deriving DecidableEq, Repr

/-- `struct IndexTree`; `root = none` is `NULL`. -/
structure IndexTree where
  page_counter : Nat
  key_size : Nat
  page_size : Nat
  root : Option Nat
deriving DecidableEq, Repr

/-- The program state: the static `tree` and the pages allocated so far. -/
structure State where
  tree : IndexTree
  heap : List IndexPage
deriving DecidableEq, Repr

/-- How a run ends when it does not return. -/
inductive Fault where
  /-- `exit(EXIT_FAILURE)` (lines 49 and 93). -/
  | exit_failure
  /-- A `NULL` pointer is dereferenced. -/
  | null_deref
  /-- A field of an indeterminate slot or an unassigned local is used. -/
  | indeterminate
  /-- A write beyond the end of an array. -/
  | out_of_bounds
  /-- A pointer that addresses no page of the heap, or a record read as a page. -/
  | bad_pointer
  /-- The iteration bound of the model is exhausted. -/
  | out_of_fuel
deriving DecidableEq, Repr

/-- The state of the program before any call: zero-initialised statics. -/
def State.init : State := ⟨⟨0, 0, 0, none⟩, []⟩

/-- `memcmp(a, b, n)`: the sign of the first differing byte among the first
`n`.  Both buffers hold at least `n` bytes in every call of the program. -/
def memcmp : List Nat → List Nat → Nat → Int
  | _, _, 0 => 0
  | a :: as, b :: bs, n + 1 =>
    if a < b then -1 else if b < a then 1 else memcmp as bs n
  | _, _, _ + 1 => 0

/-- `a - b` in `uint32_t` arithmetic: `(a + 2 ^ 32 - b) % 2 ^ 32`, written by
cases so that it evaluates without unfolding `2 ^ 32` on symbolic operands. -/
def sub32 (a b : Nat) : Nat :=
  if b ≤ a then (a - b) % 2 ^ 32 else (a + 2 ^ 32 - b) % 2 ^ 32

/-- `arr[i]` read as a whole slot. -/
def slotAt (arr : List Slot) (i : Nat) : Slot := arr.getD i none

/-- The zeroed entry left by `calloc` and `memset`. -/
def zeroEntry : IndexPageEntry := ⟨false, none, Data.null⟩

/-- `memcpy` / `memmove` of `count` slots from `src + spos` to `dst + dpos`,
the source being read before anything is written. -/
def memcpy_slots (dst : List Slot) (dpos : Nat) (src : List Slot) (spos count : Nat) :
    Except Fault (List Slot) :=
  if count = 0 then .ok dst
  else if dst.length < dpos + count then .error .out_of_bounds
  else .ok (dst.take dpos ++ (List.range count).map (fun j => slotAt src (spos + j))
        ++ dst.drop (dpos + count))

/-- `memset(arr, 0, sizeof(IndexPageEntry_t) * count)`. -/
def memset_slots (arr : List Slot) (count : Nat) : Except Fault (List Slot) :=
  if arr.length < count then .error .out_of_bounds
  else .ok (List.replicate count (some zeroEntry) ++ arr.drop count)

/-- The page a pointer addresses. -/
def load (s : State) (a : Nat) : Except Fault IndexPage :=
  match s.heap[a]? with
  | some p => .ok p
  | none => .error .bad_pointer

/-- Write a page back to the address it was loaded from. -/
def store (s : State) (a : Nat) (p : IndexPage) : State :=
  { s with heap := s.heap.set a p }

/-- `CreateEmptyPage` (lines 111-136): returns the address of the new page. -/
def CreateEmptyPage (is_leaf : Bool) (parent : Option Nat) (s : State) : Nat × State :=
  (s.heap.length,
   { tree := { s.tree with page_counter := (s.tree.page_counter + 1) % 2 ^ 64 },
     heap := s.heap ++ [{ page_id := s.tree.page_counter,
                          is_leaf := is_leaf,
                          data_size := 8,
                          max_entries := 4,
                          num_entries := 0,
                          entries := List.replicate 4 (some zeroEntry),
                          parent := parent }] })

/-- `idxt_Create` (lines 17-25). -/
def idxt_Create (page_size key_size : Nat) (s : State) : State :=
  let s1 : State :=
    { s with tree := { s.tree with page_counter := 0, page_size := page_size,
                                    key_size := key_size } }
  let r := CreateEmptyPage true none s1
  { r.2 with tree := { r.2.tree with root := some r.1 } }

/-- The loop of `ProcessNonleafPage` (lines 147-153), from index `i`, with
`fuel` iterations left. -/
def ProcessNonleafPage.loop (key_size : Nat) (entries : List Slot) (key : Key) :
    Nat → Nat → Except Fault Data
  | _, 0 => .ok .null
  | i, fuel + 1 =>
    match slotAt entries i with
    | none => .error .indeterminate
    | some e =>
      match e.key with
      | none => .error .null_deref
      | some k =>
        if memcmp k key key_size ≥ 0 then .ok e.data
        else ProcessNonleafPage.loop key_size entries key (i + 1) fuel

/-- `ProcessNonleafPage` (lines 138-157): the child pointer, or `NULL`. -/
def ProcessNonleafPage (t : IndexTree) (current : IndexPage) (key : Key) : Except Fault Data :=
  ProcessNonleafPage.loop t.key_size current.entries key 0 current.num_entries

/-- The loop of `ProcessLeafPage` (lines 178-190) on the `uint32_t` bounds
`min` and `max`.  `mid` is an `int`: from `2 ^ 31` on it is negative and
indexes before the array. -/
def ProcessLeafPage.loop (key_size : Nat) (entries : List Slot) (key : Key) :
    Nat → Nat → Nat → Except Fault Data
  | 0, _, _ => .error .out_of_fuel
  | fuel + 1, min, max =>
    if min ≤ max then
      let mid := (min + (max - min) / 2) % 2 ^ 32
      match (if mid < 2 ^ 31 then slotAt entries mid else none) with
      | none => .error .indeterminate
      | some e =>
        match e.key with
        | none => .error .null_deref
        | some k =>
          let keycmp := memcmp k key key_size
          if keycmp = 0 then .ok e.data
          else if keycmp < 0 then
            ProcessLeafPage.loop key_size entries key fuel ((mid + 1) % 2 ^ 32) max
          else
            ProcessLeafPage.loop key_size entries key fuel min (sub32 mid 1)
    else .ok .null

/-- `ProcessLeafPage` (lines 159-194): the record pointer, or `NULL`.  Every
iteration that continues either raises `min`, lowers `max`, or wraps `max`
to `2 ^ 32 - 1`, so `num_entries + 3` iterations are never exhausted on a
page of fewer than `2 ^ 31` slots. -/
def ProcessLeafPage (t : IndexTree) (current : IndexPage) (key : Key) : Except Fault Data :=
  ProcessLeafPage.loop t.key_size current.entries key (current.num_entries + 3) 0
    current.num_entries

/-- The position scan shared by `InsertLeafPageEntry` (lines 205-213) and
`InsertNonleafPageEntry` (lines 361-369); `key` is the pointer compared. -/
def scan_isrt_pos (key_size : Nat) (key : Option Key) (entries : List Slot) :
    Nat → Nat → Except Fault (Option Nat)
  | _, 0 => .ok none
  | i, fuel + 1 =>
    match slotAt entries i with
    | none => .error .indeterminate
    | some e =>
      if e.in_use = false then .ok (some i)
      else
        match key, e.key with
        | some k, some ek =>
          if memcmp k ek key_size < 0 then .ok (some i)
          else scan_isrt_pos key_size key entries (i + 1) fuel
        | _, _ => .error .null_deref

/-- The store into `entries[isrt_pos]` and the increment of `num_entries`
(lines 218-225, 232-238, 374-380, 389-395). -/
def write_entry (key_size : Nat) (page : IndexPage) (isrt_pos : Nat) (key : Key) (d : Data) :
    IndexPage :=
  { page with
    entries := page.entries.set isrt_pos (some ⟨true, some (key.take key_size), d⟩),
    num_entries := (page.num_entries + 1) % 2 ^ 32 }

/-- The part of the two insertion routines after the scan (lines 216-239 and
372-398): store in place into an unused slot, else shift right and store. -/
def place_entry (key_size : Nat) (page : IndexPage) (isrt_pos : Option Nat) (key : Option Key)
    (d : Data) : Except Fault (IndexPage × Nat) :=
  match isrt_pos with
  | none => .error .indeterminate
  | some pos =>
    match slotAt page.entries pos with
    | none => .error .indeterminate
    | some e =>
      if e.in_use = false then
        match key with
        | none => .error .null_deref
        | some k => .ok (write_entry key_size page pos k d, pos)
      else
        match memcpy_slots page.entries (pos + 1) page.entries pos
            (sub32 page.num_entries pos) with
        | .error f => .error f
        | .ok es =>
          match key with
          | none => .error .null_deref
          | some k => .ok (write_entry key_size { page with entries := es } pos k d, pos)

/-- `InsertLeafPageEntry` (lines 196-240) on the page addressed by its first
argument: the updated page and the index of the returned entry. -/
def InsertLeafPageEntry (t : IndexTree) (page : IndexPage) (key : Key)
    (page_num slot_num : Nat) : Except Fault (IndexPage × Nat) :=
  match scan_isrt_pos t.key_size (some key) page.entries 0 page.max_entries with
  | .error f => .error f
  | .ok isrt_pos =>
    place_entry t.key_size page isrt_pos (some key) (Data.rid ⟨page_num, slot_num⟩)

/-- `InsertNonleafPageEntry` (lines 354-399): the new state and the index, in
`target`, of the returned entry. -/
def InsertNonleafPageEntry (s : State) (target source : Nat) : Except Fault (State × Nat) :=
  match load s source with
  | .error f => .error f
  | .ok src =>
    match slotAt src.entries (sub32 src.num_entries 1) with
    | none => .error .indeterminate
    | some last =>
      match load s target with
      | .error f => .error f
      | .ok tgt =>
        match scan_isrt_pos s.tree.key_size last.key tgt.entries 0 tgt.max_entries with
        | .error f => .error f
        | .ok isrt_pos =>
          match place_entry s.tree.key_size tgt isrt_pos last.key (Data.page source) with
          | .error f => .error f
          | .ok (tgt1, pos) =>
            let s1 := store s target tgt1
            match load s1 source with
            | .error f => .error f
            | .ok src1 => .ok (store s1 source { src1 with parent := some target }, pos)

/-- The equality scans of lines 339-343, 345-349 and 408-414: the first
index `i` below the bound with `memcmp(key, entries[i].key) == 0`. -/
def scan_key_eq (key_size : Nat) (key : Option Key) (entries : List Slot) :
    Nat → Nat → Except Fault (Option Nat)
  | _, 0 => .ok none
  | i, fuel + 1 =>
    match slotAt entries i with
    | none => .error .indeterminate
    | some e =>
      match key, e.key with
      | some k, some ek =>
        if memcmp k ek key_size = 0 then .ok (some i)
        else scan_key_eq key_size key entries (i + 1) fuel
      | _, _ => .error .null_deref

/-- `GetNonleafPageEntry` (lines 401-417): the entry found, as the address of
its page and its index, or `NULL`. -/
def GetNonleafPageEntry (s : State) (source : Option Nat) (target : Nat) :
    Except Fault (Option (Nat × Nat)) :=
  match load s target with
  | .error f => .error f
  | .ok tgt =>
    match slotAt tgt.entries (sub32 tgt.num_entries 1) with
    | none => .error .indeterminate
    | some last =>
      match source with
      | none => .error .null_deref
      | some sa =>
        match load s sa with
        | .error f => .error f
        | .ok src =>
          match scan_key_eq s.tree.key_size last.key src.entries 0 src.num_entries with
          | .error f => .error f
          | .ok none => .ok none
          | .ok (some i) => .ok (some (sa, i))

/-- The scan of lines 265-273: the first index below `num_entries` whose key
is greater than `key` (`in_use` is not consulted). -/
def candidates_scan (key_size : Nat) (key : Key) (entries : List Slot) :
    Nat → Nat → Except Fault (Option Nat)
  | _, 0 => .ok none
  | i, fuel + 1 =>
    match slotAt entries i with
    | none => .error .indeterminate
    | some e =>
      match e.key with
      | none => .error .null_deref
      | some ek =>
        if memcmp key ek key_size < 0 then .ok (some i)
        else candidates_scan key_size key entries (i + 1) fuel

/-- Lines 262-302: the array `candidates`.  When the scan finds a position
(line 289), lines 296-297 allocate the key and data buffers into
`page->entries[isrt_pos]` and line 298 copies the key through
`candidates[isrt_pos].key`, a pointer that nothing has assigned. -/
def build_candidates (key_size : Nat) (page : IndexPage) (key : Key) (rid : RecordID) :
    Except Fault (List Slot) :=
  match candidates_scan key_size key page.entries 0 page.num_entries with
  | .error f => .error f
  | .ok (some _) => .error .indeterminate
  | .ok none =>
    match memcpy_slots (List.replicate ((page.num_entries + 1) % 2 ^ 32) none) 0
        page.entries 0 page.num_entries with
    | .error f => .error f
    | .ok c =>
      if page.num_entries < c.length then
        .ok (c.set page.num_entries (some ⟨true, some (key.take key_size), Data.rid rid⟩))
      else .error .out_of_bounds

/-- Line 308, in `unsigned int` arithmetic. -/
def lowpage_range_end (num_entries : Nat) : Nat :=
  sub32 ((num_entries + 1) % 2 ^ 32 / 2 + (num_entries + 1) % 2 ^ 32 % 2) 1

/-- Line 309. -/
def highpage_range_end (num_entries : Nat) : Nat :=
  (lowpage_range_end num_entries + (num_entries + 1) % 2 ^ 32 / 2) % 2 ^ 32

/-- Lines 313-318: `lower_page_entry` after the test of `page->parent`.  The
outer `none` is the local that no statement has assigned. -/
def link_root (s : State) (pa : Nat) (page : IndexPage) :
    Except Fault (State × Option (Option (Nat × Nat))) :=
  match page.parent with
  | none =>
    let r := CreateEmptyPage false none s
    let s1 : State := { r.2 with tree := { r.2.tree with root := some r.1 } }
    match InsertNonleafPageEntry s1 r.1 pa with
    | .error f => .error f
    | .ok (s2, idx) => .ok (s2, some (some (r.1, idx)))
  | some _ => .ok (s, none)

/-- Lines 322-328: the page keeps the lower candidates and its entry in the
parent receives the new highest key. -/
def split_low (s : State) (pa : Nat) (n : Nat) (candidates : List Slot)
    (lower_page_entry : Option (Option (Nat × Nat))) : Except Fault State :=
  match load s pa with
  | .error f => .error f
  | .ok page =>
    match memset_slots page.entries (sub32 n 1) with
    | .error f => .error f
    | .ok es1 =>
      let num := (lowpage_range_end n + 1) % 2 ^ 32
      match memcpy_slots es1 0 candidates 0 num with
      | .error f => .error f
      | .ok es2 =>
        let page1 : IndexPage := { page with entries := es2, num_entries := num }
        let s1 := store s pa page1
        match lower_page_entry with
        | none => .error .indeterminate
        | some assigned =>
          match (match assigned with
                 | some e => Except.ok (some e)
                 | none => GetNonleafPageEntry s1 page1.parent pa) with
          | .error f => .error f
          | .ok none => .error .null_deref
          | .ok (some (la, li)) =>
            match load s1 la with
            | .error f => .error f
            | .ok lp =>
              match slotAt lp.entries li, slotAt page1.entries (sub32 num 1) with
              | some le, some hi =>
                match le.key, hi.key with
                | some _, some k =>
                  .ok (store s1 la
                    { lp with entries :=
                        lp.entries.set li (some { le with key := some (k.take s.tree.key_size) }) })
                | _, _ => .error .null_deref
              | _, _ => .error .indeterminate

/-- Lines 330-336: the new page receives the higher candidates and is
inserted into the parent.  Returns the address of the new page. -/
def split_high (s : State) (pa : Nat) (n : Nat) (candidates : List Slot) :
    Except Fault (State × Nat) :=
  match load s pa with
  | .error f => .error f
  | .ok page =>
    let r := CreateEmptyPage true page.parent s
    match load r.2 r.1 with
    | .error f => .error f
    | .ok new_page =>
      match memcpy_slots new_page.entries 0 candidates (lowpage_range_end n + 1)
          page.num_entries with
      | .error f => .error f
      | .ok es =>
        let s1 := store r.2 r.1
          { new_page with
            num_entries := sub32 (highpage_range_end n) (lowpage_range_end n),
            entries := es }
        match page.parent with
        | none => .error .null_deref
        | some parent =>
          match InsertNonleafPageEntry s1 parent r.1 with
          | .error f => .error f
          | .ok (s2, _) => .ok (s2, r.1)

/-- Lines 338-351: the entry returned, as the address of its page and its
index, or `NULL`. -/
def find_inserted (s : State) (pa new_page : Nat) (key : Key) :
    Except Fault (Option (Nat × Nat)) :=
  match load s pa with
  | .error f => .error f
  | .ok page =>
    match scan_key_eq s.tree.key_size (some key) page.entries 0 page.num_entries with
    | .error f => .error f
    | .ok (some i) => .ok (some (pa, i))
    | .ok none =>
      match load s new_page with
      | .error f => .error f
      | .ok np =>
        match scan_key_eq s.tree.key_size (some key) np.entries 0 np.num_entries with
        | .error f => .error f
        | .ok (some i) => .ok (some (new_page, i))
        | .ok none => .ok none

/-- `BalanceAndInsertLeafPageEntry` (lines 242-352) on the page at address
`pa`. -/
def BalanceAndInsertLeafPageEntry (s : State) (pa : Nat) (key : Key)
    (page_num slot_num : Nat) : Except Fault (State × Option (Nat × Nat)) :=
  match load s pa with
  | .error f => .error f
  | .ok page =>
    match build_candidates s.tree.key_size page key ⟨page_num, slot_num⟩ with
    | .error f => .error f
    | .ok candidates =>
      match link_root s pa page with
      | .error f => .error f
      | .ok (s1, lower_page_entry) =>
        match split_low s1 pa page.num_entries candidates lower_page_entry with
        | .error f => .error f
        | .ok s2 =>
          match split_high s2 pa page.num_entries candidates with
          | .error f => .error f
          | .ok (s3, new_page) =>
            match find_inserted s3 pa new_page key with
            | .error f => .error f
            | .ok r => .ok (s3, r)

/-- The descent loop of lines 39-51 and 83-95 from the page at `current`:
the address of the leaf reached.  `fuel` bounds the number of non-leaf pages
visited. -/
def descend (s : State) (key : Key) : Nat → Nat → Except Fault Nat
  | 0, current =>
    match load s current with
    | .error f => .error f
    | .ok page => if page.is_leaf then .ok current else .error .out_of_fuel
  | fuel + 1, current =>
    match load s current with
    | .error f => .error f
    | .ok page =>
      if page.is_leaf then .ok current
      else
        match ProcessNonleafPage s.tree page key with
        | .error f => .error f
        | .ok Data.null => .error .exit_failure
        | .ok (Data.page a) => descend s key fuel a
        | .ok (Data.rid _) => .error .bad_pointer

/-- `idxt_AddRecord` (lines 32-67): the value returned and the new state.  A
descent through pairwise distinct pages visits fewer non-leaf pages than the
heap holds pages. -/
def idxt_AddRecord (key : Key) (page_num slot_num : Nat) (s : State) :
    Except Fault (Bool × State) :=
  match s.tree.root with
  | none => .error .null_deref
  | some root =>
    match descend s key s.heap.length root with
    | .error f => .error f
    | .ok current =>
      match load s current with
      | .error f => .error f
      | .ok page =>
        if page.num_entries < page.max_entries then
          match InsertLeafPageEntry s.tree page key page_num slot_num with
          | .error f => .error f
          | .ok (page1, _) => .ok (true, store s current page1)
        else
          match BalanceAndInsertLeafPageEntry s current key page_num slot_num with
          | .error f => .error f
          | .ok (s1, _) => .ok (true, s1)

/-- `idxt_FindRecord` (lines 69-99): the pointer returned. -/
def idxt_FindRecord (key : Key) (s : State) : Except Fault Data :=
  match s.tree.root with
  | none => .error .null_deref
  | some root =>
    match descend s key s.heap.length root with
    | .error f => .error f
    | .ok current =>
      match load s current with
      | .error f => .error f
      | .ok page => ProcessLeafPage s.tree page key

/-- A sequence of `idxt_AddRecord` calls, each `(key, page_num, slot_num)`. -/
def add_records : List (Key × Nat × Nat) → State → Except Fault State
  | [], s => .ok s
  | (key, page_num, slot_num) :: rest, s =>
    match idxt_AddRecord key page_num slot_num s with
    | .error f => .error f
    | .ok (_, s1) => add_records rest s1

/-- What an execution finds in the two places that a split reads although no
statement has written them: the local `lower_page_entry`, declared at line
313 without initialiser and assigned only when the page has no parent (`none`
is `NULL`, `some (a, i)` the address of entry `i` of the page at `a`), and the
slot that follows the array `candidates`, which line 334 copies into the new
page when `num_entries + 1` is odd (`none`: bytes whose inspection ends the
run). -/
structure Garbage where
  lower_page_entry : Option (Nat × Nat)
  past_candidates : Slot
deriving DecidableEq, Repr

/-- Lines 330-336 as in `split_high`, in an execution in which the slot after
the array `candidates` holds `junk`. -/
def split_high_with (junk : Slot) (s : State) (pa : Nat) (n : Nat) (candidates : List Slot) :
    Except Fault (State × Nat) :=
  match load s pa with
  | .error f => .error f
  | .ok page =>
    let r := CreateEmptyPage true page.parent s
    match load r.2 r.1 with
    | .error f => .error f
    | .ok new_page =>
      match memcpy_slots new_page.entries 0 (candidates ++ [junk]) (lowpage_range_end n + 1)
          page.num_entries with
      | .error f => .error f
      | .ok es =>
        let s1 := store r.2 r.1
          { new_page with
            num_entries := sub32 (highpage_range_end n) (lowpage_range_end n),
            entries := es }
        match page.parent with
        | none => .error .null_deref
        | some parent =>
          match InsertNonleafPageEntry s1 parent r.1 with
          | .error f => .error f
          | .ok (s2, _) => .ok (s2, r.1)

/-- The value that the test of line 326 finds in `lower_page_entry`: what
`link_root` has assigned, else what the execution finds there.  An entry of a
non-leaf page owns its key buffer, so that the write of line 328 through its
address changes that entry alone; any other address is a wild pointer, and
the write through it ends the run. -/
def local_value (g : Garbage) (s : State) (lower_page_entry : Option (Option (Nat × Nat))) :
    Except Fault (Option (Nat × Nat)) :=
  match lower_page_entry with
  | some v => .ok v
  | none =>
    match g.lower_page_entry with
    | none => .ok none
    | some (la, li) =>
      match load s la with
      | .error f => .error f
      | .ok lp => if lp.is_leaf then .error .bad_pointer else .ok (some (la, li))

/-- `BalanceAndInsertLeafPageEntry` (lines 242-352) in an execution in which
the unwritten places hold `g`. -/
def BalanceAndInsertLeafPageEntry_with (g : Garbage) (s : State) (pa : Nat) (key : Key)
    (page_num slot_num : Nat) : Except Fault (State × Option (Nat × Nat)) :=
  match load s pa with
  | .error f => .error f
  | .ok page =>
    match build_candidates s.tree.key_size page key ⟨page_num, slot_num⟩ with
    | .error f => .error f
    | .ok candidates =>
      match link_root s pa page with
      | .error f => .error f
      | .ok (s1, lower_page_entry) =>
        match local_value g s1 lower_page_entry with
        | .error f => .error f
        | .ok v =>
          match split_low s1 pa page.num_entries candidates (some v) with
          | .error f => .error f
          | .ok s2 =>
            match split_high_with g.past_candidates s2 pa page.num_entries candidates with
            | .error f => .error f
            | .ok (s3, new_page) =>
              match find_inserted s3 pa new_page key with
              | .error f => .error f
              | .ok r => .ok (s3, r)

/-- `idxt_AddRecord` (lines 32-67) in an execution in which the unwritten
places hold `g`. -/
def idxt_AddRecord_with (g : Garbage) (key : Key) (page_num slot_num : Nat) (s : State) :
    Except Fault (Bool × State) :=
  match s.tree.root with
  | none => .error .null_deref
  | some root =>
    match descend s key s.heap.length root with
    | .error f => .error f
    | .ok current =>
      match load s current with
      | .error f => .error f
      | .ok page =>
        if page.num_entries < page.max_entries then
          match InsertLeafPageEntry s.tree page key page_num slot_num with
          | .error f => .error f
          | .ok (page1, _) => .ok (true, store s current page1)
        else
          match BalanceAndInsertLeafPageEntry_with g s current key page_num slot_num with
          | .error f => .error f
          | .ok (s1, _) => .ok (true, s1)

/-- A sequence of `idxt_AddRecord` calls, each finding `g` in the unwritten
places. -/
def add_records_with (g : Garbage) : List (Key × Nat × Nat) → State → Except Fault State
  | [], s => .ok s
  | (key, page_num, slot_num) :: rest, s =>
    match idxt_AddRecord_with g key page_num slot_num s with
    | .error f => .error f
    | .ok (_, s1) => add_records_with g rest s1

/-- The bytes of a `uint32_t` in memory (little-endian), as `main` passes
`&id`. -/
def key_of_u32 (n : Nat) : Key :=
  [n % 256, n / 256 % 256, n / 65536 % 256, n / 16777216 % 256]

/-- The calls of `main` (lines 6-16) before `idxt_DisplayTree`. -/
def main_records : List (Key × Nat × Nat) :=
  [(key_of_u32 1, 2, 3), (key_of_u32 2, 2, 4), (key_of_u32 4, 2, 5), (key_of_u32 3, 2, 6),
   (key_of_u32 5, 2, 7)]

/-- The state `main` reaches before `idxt_DisplayTree`. -/
def main_state : Except Fault State :=
  add_records main_records (idxt_Create 4096 4 State.init)

/-- The tree `main` has built when it calls `idxt_DisplayTree`: the non-leaf
root at address 1 over the leaves at addresses 0 and 2. -/
def main_tree : State :=
  { tree := ⟨3, 4, 4096, some 1⟩,
    heap :=
      [⟨0, true, 8, 4, 3,
         [some ⟨true, some [1, 0, 0, 0], Data.rid ⟨2, 3⟩⟩,
          some ⟨true, some [2, 0, 0, 0], Data.rid ⟨2, 4⟩⟩,
          some ⟨true, some [3, 0, 0, 0], Data.rid ⟨2, 6⟩⟩,
          some ⟨true, some [4, 0, 0, 0], Data.rid ⟨2, 5⟩⟩], some 1⟩,
       ⟨1, false, 8, 4, 2,
         [some ⟨true, some [3, 0, 0, 0], Data.page 0⟩,
          some ⟨true, some [5, 0, 0, 0], Data.page 2⟩,
          some zeroEntry, some zeroEntry], none⟩,
       ⟨2, true, 8, 4, 2,
         [some ⟨true, some [4, 0, 0, 0], Data.rid ⟨2, 5⟩⟩,
          some ⟨true, some [5, 0, 0, 0], Data.rid ⟨2, 7⟩⟩,
          none, some zeroEntry], some 1⟩] }

/-- A full leaf root holding the keys 1, 2, 4, 5, as `idxt_AddRecord` builds
it from an empty tree. -/
def full_leaf_1245 : IndexPage :=
  ⟨0, true, 8, 4, 4,
    [some ⟨true, some [1, 0, 0, 0], Data.rid ⟨2, 3⟩⟩,
     some ⟨true, some [2, 0, 0, 0], Data.rid ⟨2, 4⟩⟩,
     some ⟨true, some [4, 0, 0, 0], Data.rid ⟨2, 5⟩⟩,
     some ⟨true, some [5, 0, 0, 0], Data.rid ⟨2, 6⟩⟩], none⟩

/-- The tree of `main` after one more call `idxt_AddRecord(key 0, 2, 8)`: the
left leaf (address 0) is full. -/
def left_full_tree : State :=
  { tree := ⟨3, 4, 4096, some 1⟩,
    heap :=
      [⟨0, true, 8, 4, 4,
         [some ⟨true, some [0, 0, 0, 0], Data.rid ⟨2, 8⟩⟩,
          some ⟨true, some [1, 0, 0, 0], Data.rid ⟨2, 3⟩⟩,
          some ⟨true, some [2, 0, 0, 0], Data.rid ⟨2, 4⟩⟩,
          some ⟨true, some [3, 0, 0, 0], Data.rid ⟨2, 6⟩⟩], some 1⟩,
       ⟨1, false, 8, 4, 2,
         [some ⟨true, some [3, 0, 0, 0], Data.page 0⟩,
          some ⟨true, some [5, 0, 0, 0], Data.page 2⟩,
          some zeroEntry, some zeroEntry], none⟩,
       ⟨2, true, 8, 4, 2,
         [some ⟨true, some [4, 0, 0, 0], Data.rid ⟨2, 5⟩⟩,
          some ⟨true, some [5, 0, 0, 0], Data.rid ⟨2, 7⟩⟩,
          none, some zeroEntry], some 1⟩] }

/-- A leaf page holding the single given key. -/
def single_key_leaf (page_id : Nat) (key : Key) (parent : Option Nat) : IndexPage :=
  ⟨page_id, true, 8, 4, 1,
    [some ⟨true, some key, Data.rid ⟨2, 3⟩⟩, some zeroEntry, some zeroEntry, some zeroEntry],
    parent⟩

/-- A tree whose non-leaf root (address 0) holds `max_entries = 4` separators
2, 4, 6, 8 over four leaves, together with two further leaves that a split has
just produced: one with highest key 5 (address 5), one with highest key 9
(address 6). -/
def full_parent_tree : State :=
  { tree := ⟨7, 4, 4096, some 0⟩,
    heap :=
      [⟨0, false, 8, 4, 4,
         [some ⟨true, some [2, 0, 0, 0], Data.page 1⟩,
          some ⟨true, some [4, 0, 0, 0], Data.page 2⟩,
          some ⟨true, some [6, 0, 0, 0], Data.page 3⟩,
          some ⟨true, some [8, 0, 0, 0], Data.page 4⟩], none⟩,
       single_key_leaf 1 [2, 0, 0, 0] (some 0),
       single_key_leaf 2 [4, 0, 0, 0] (some 0),
       single_key_leaf 3 [6, 0, 0, 0] (some 0),
       single_key_leaf 4 [8, 0, 0, 0] (some 0),
       single_key_leaf 5 [5, 0, 0, 0] (some 0),
       single_key_leaf 6 [9, 0, 0, 0] (some 0)] }

/-- A leaf holding the keys 1, 2, 4 with one free slot. -/
def leaf_124 : IndexPage :=
  ⟨0, true, 8, 4, 3,
    [some ⟨true, some [1, 0, 0, 0], Data.rid ⟨2, 3⟩⟩,
     some ⟨true, some [2, 0, 0, 0], Data.rid ⟨2, 4⟩⟩,
     some ⟨true, some [4, 0, 0, 0], Data.rid ⟨2, 5⟩⟩,
     some zeroEntry], none⟩

/-- A non-leaf page holding the separators 2 and 8. -/
def root_28 : IndexPage :=
  ⟨0, false, 8, 4, 2,
    [some ⟨true, some [2, 0, 0, 0], Data.page 1⟩,
     some ⟨true, some [8, 0, 0, 0], Data.page 2⟩,
     some zeroEntry, some zeroEntry], none⟩

/-- A tree whose non-leaf root (address 0) holds the separators 2 and 8 over
the leaves at addresses 1 and 2, together with a further leaf with highest key
5 (address 3) that is not yet linked into the root. -/
def two_separator_tree : State :=
  { tree := ⟨4, 4, 4096, some 0⟩,
    heap :=
      [root_28,
       single_key_leaf 1 [2, 0, 0, 0] (some 0),
       single_key_leaf 2 [8, 0, 0, 0] (some 0),
       single_key_leaf 3 [5, 0, 0, 0] none] }

/-- The tree after `idxt_Create(4096, 4)` and the first four calls of `main`:
the leaf root (page id 0, address 0) is full. -/
def four_key_tree : State :=
  { tree := ⟨1, 4, 4096, some 0⟩,
    heap :=
      [⟨0, true, 8, 4, 4,
         [some ⟨true, some [1, 0, 0, 0], Data.rid ⟨2, 3⟩⟩,
          some ⟨true, some [2, 0, 0, 0], Data.rid ⟨2, 4⟩⟩,
          some ⟨true, some [3, 0, 0, 0], Data.rid ⟨2, 6⟩⟩,
          some ⟨true, some [4, 0, 0, 0], Data.rid ⟨2, 5⟩⟩], none⟩] }

/-- Ten calls with repeated keys: 3, 3, 3, 5, 5, 3, 3, 1, 3, 2. -/
def dup_records : List (Key × Nat × Nat) :=
  [(key_of_u32 3, 2, 3), (key_of_u32 3, 2, 4), (key_of_u32 3, 2, 5), (key_of_u32 5, 2, 6),
   (key_of_u32 5, 2, 7), (key_of_u32 3, 2, 8), (key_of_u32 3, 2, 9), (key_of_u32 1, 2, 10),
   (key_of_u32 3, 2, 11), (key_of_u32 2, 2, 12)]

/-- The tree after `idxt_Create(4096, 4)` and the first seven calls of
`dup_records`, the unassigned local holding `NULL` or the address of the
root's first entry: the root (address 1) has three leaves. -/
def three_leaf_tree : State :=
  { tree := ⟨4, 4, 4096, some 1⟩,
    heap :=
      [⟨0, true, 8, 4, 3,
         [some ⟨true, some [3, 0, 0, 0], Data.rid ⟨2, 3⟩⟩,
          some ⟨true, some [3, 0, 0, 0], Data.rid ⟨2, 4⟩⟩,
          some ⟨true, some [3, 0, 0, 0], Data.rid ⟨2, 5⟩⟩,
          some ⟨true, some [3, 0, 0, 0], Data.rid ⟨2, 8⟩⟩], some 1⟩,
       ⟨1, false, 8, 4, 3,
         [some ⟨true, some [3, 0, 0, 0], Data.page 0⟩,
          some ⟨true, some [3, 0, 0, 0], Data.page 3⟩,
          some ⟨true, some [5, 0, 0, 0], Data.page 2⟩,
          some zeroEntry], none⟩,
       ⟨2, true, 8, 4, 2,
         [some ⟨true, some [5, 0, 0, 0], Data.rid ⟨2, 6⟩⟩,
          some ⟨true, some [5, 0, 0, 0], Data.rid ⟨2, 7⟩⟩,
          none, some zeroEntry], some 1⟩,
       ⟨3, true, 8, 4, 2,
         [some ⟨true, some [3, 0, 0, 0], Data.rid ⟨2, 8⟩⟩,
          some ⟨true, some [3, 0, 0, 0], Data.rid ⟨2, 9⟩⟩,
          none, some zeroEntry], some 1⟩] }

/-- The root page of `api_full_root_tree`: `max_entries = 4` separators. -/
def api_full_root : IndexPage :=
  ⟨1, false, 8, 4, 4,
    [some ⟨true, some [3, 0, 0, 0], Data.page 0⟩,
     some ⟨true, some [3, 0, 0, 0], Data.page 3⟩,
     some ⟨true, some [3, 0, 0, 0], Data.page 4⟩,
     some ⟨true, some [5, 0, 0, 0], Data.page 2⟩], none⟩

/-- The tree after `idxt_Create(4096, 4)` and the ten calls of `dup_records`,
the unassigned local holding `NULL` or the address of the root's first entry:
three splits have filled the root (address 1), and the leaf at address 0 is
full again. -/
def api_full_root_tree : State :=
  { tree := ⟨5, 4, 4096, some 1⟩,
    heap :=
      [⟨0, true, 8, 4, 4,
         [some ⟨true, some [1, 0, 0, 0], Data.rid ⟨2, 10⟩⟩,
          some ⟨true, some [2, 0, 0, 0], Data.rid ⟨2, 12⟩⟩,
          some ⟨true, some [3, 0, 0, 0], Data.rid ⟨2, 3⟩⟩,
          some ⟨true, some [3, 0, 0, 0], Data.rid ⟨2, 4⟩⟩], some 1⟩,
       api_full_root,
       ⟨2, true, 8, 4, 2,
         [some ⟨true, some [5, 0, 0, 0], Data.rid ⟨2, 6⟩⟩,
          some ⟨true, some [5, 0, 0, 0], Data.rid ⟨2, 7⟩⟩,
          none, some zeroEntry], some 1⟩,
       ⟨3, true, 8, 4, 2,
         [some ⟨true, some [3, 0, 0, 0], Data.rid ⟨2, 8⟩⟩,
          some ⟨true, some [3, 0, 0, 0], Data.rid ⟨2, 9⟩⟩,
          none, some zeroEntry], some 1⟩,
       ⟨4, true, 8, 4, 2,
         [some ⟨true, some [3, 0, 0, 0], Data.rid ⟨2, 5⟩⟩,
          some ⟨true, some [3, 0, 0, 0], Data.rid ⟨2, 11⟩⟩,
          none, some zeroEntry], some 1⟩] }

/-- The tree of `main` after two more calls, `idxt_AddRecord(key 4, 2, 8)` and
`idxt_AddRecord(key 5, 2, 9)`: the right leaf (address 2) is full. -/
def right_full_tree : State :=
  { tree := ⟨3, 4, 4096, some 1⟩,
    heap :=
      [⟨0, true, 8, 4, 3,
         [some ⟨true, some [1, 0, 0, 0], Data.rid ⟨2, 3⟩⟩,
          some ⟨true, some [2, 0, 0, 0], Data.rid ⟨2, 4⟩⟩,
          some ⟨true, some [3, 0, 0, 0], Data.rid ⟨2, 6⟩⟩,
          some ⟨true, some [4, 0, 0, 0], Data.rid ⟨2, 5⟩⟩], some 1⟩,
       ⟨1, false, 8, 4, 2,
         [some ⟨true, some [3, 0, 0, 0], Data.page 0⟩,
          some ⟨true, some [5, 0, 0, 0], Data.page 2⟩,
          some zeroEntry, some zeroEntry], none⟩,
       ⟨2, true, 8, 4, 4,
         [some ⟨true, some [4, 0, 0, 0], Data.rid ⟨2, 5⟩⟩,
          some ⟨true, some [4, 0, 0, 0], Data.rid ⟨2, 8⟩⟩,
          some ⟨true, some [5, 0, 0, 0], Data.rid ⟨2, 7⟩⟩,
          some ⟨true, some [5, 0, 0, 0], Data.rid ⟨2, 9⟩⟩], some 1⟩] }

/-- The tree that `idxt_AddRecord(key 5, 2, 10)` leaves from `right_full_tree`
when the unassigned local `lower_page_entry` holds the address of the first
entry of the root: that entry, whose child holds the keys 1, 2, 3, has
received the key 5. -/
def wrong_separator_tree : State :=
  { tree := ⟨4, 4, 4096, some 1⟩,
    heap :=
      [⟨0, true, 8, 4, 3,
         [some ⟨true, some [1, 0, 0, 0], Data.rid ⟨2, 3⟩⟩,
          some ⟨true, some [2, 0, 0, 0], Data.rid ⟨2, 4⟩⟩,
          some ⟨true, some [3, 0, 0, 0], Data.rid ⟨2, 6⟩⟩,
          some ⟨true, some [4, 0, 0, 0], Data.rid ⟨2, 5⟩⟩], some 1⟩,
       ⟨1, false, 8, 4, 3,
         [some ⟨true, some [5, 0, 0, 0], Data.page 0⟩,
          some ⟨true, some [5, 0, 0, 0], Data.page 2⟩,
          some ⟨true, some [5, 0, 0, 0], Data.page 3⟩,
          some zeroEntry], none⟩,
       ⟨2, true, 8, 4, 3,
         [some ⟨true, some [4, 0, 0, 0], Data.rid ⟨2, 5⟩⟩,
          some ⟨true, some [4, 0, 0, 0], Data.rid ⟨2, 8⟩⟩,
          some ⟨true, some [5, 0, 0, 0], Data.rid ⟨2, 7⟩⟩,
          some ⟨true, some [5, 0, 0, 0], Data.rid ⟨2, 9⟩⟩], some 1⟩,
       ⟨3, true, 8, 4, 2,
         [some ⟨true, some [5, 0, 0, 0], Data.rid ⟨2, 9⟩⟩,
          some ⟨true, some [5, 0, 0, 0], Data.rid ⟨2, 10⟩⟩,
          none, some zeroEntry], some 1⟩] }

/-! ## Specification vocabulary -/

/-- The states reachable from `idxt_Create` (called in any state) by
`idxt_AddRecord` calls that return, each key buffer holding at least
`key_size` bytes, whatever each call finds in the places it reads without
their having been written.  A call that writes outside an array or through
`candidates[isrt_pos].key` unassigned (line 298), dereferences `NULL` or
exits has no state after it, and adds none to this set. -/
inductive Reachable : State → Prop
  | create (page_size key_size : Nat) (s0 : State) :
      Reachable (idxt_Create page_size key_size s0)
  | add (s : State) (g : Garbage) (key : Key) (page_num slot_num : Nat) (b : Bool)
      (s1 : State) :
      Reachable s → s.tree.key_size ≤ key.length →
      idxt_AddRecord_with g key page_num slot_num s = .ok (b, s1) → Reachable s1

/-- `InTree s a d`: the page at address `a` is reached from the root through
`d` child edges, each the payload of an active entry of a non-leaf page. -/
inductive InTree (s : State) : Nat → Nat → Prop
  | root (a : Nat) : s.tree.root = some a → InTree s a 0
  | child (a d : Nat) (p : IndexPage) (i : Nat) (e : IndexPageEntry) (c : Nat) :
      InTree s a d → load s a = .ok p → p.is_leaf = false → i < p.num_entries →
      slotAt p.entries i = some e → e.data = Data.page c → InTree s c (d + 1)

/-- `SubtreeKey s a k`: `k` is the key of an active entry of a page of the
subtree rooted at the page at address `a`. -/
inductive SubtreeKey (s : State) : Nat → Key → Prop
  | own (a : Nat) (p : IndexPage) (i : Nat) (e : IndexPageEntry) (k : Key) :
      load s a = .ok p → i < p.num_entries → slotAt p.entries i = some e →
      e.key = some k → SubtreeKey s a k
  | sub (a : Nat) (p : IndexPage) (i : Nat) (e : IndexPageEntry) (c : Nat) (k : Key) :
      load s a = .ok p → p.is_leaf = false → i < p.num_entries →
      slotAt p.entries i = some e → e.data = Data.page c → SubtreeKey s c k →
      SubtreeKey s a k

/-! ## Invariants of the reachable states -/

/-- The key a slot addresses, when the slot is determinate and its key
pointer is not `NULL`. -/
def keyAt (es : List Slot) (i : Nat) : Option Key := (slotAt es i).bind (fun e => e.key)

/-- A leaf page whose active prefix `[0, num_entries)` holds in-use entries
with `key_size`-byte keys and record payloads, sorted ascending; the slots
between the prefix and the last slot are not in use (or indeterminate). -/
structure LeafOK (ks : Nat) (p : IndexPage) : Prop where
  leaf : p.is_leaf = true
  cap : p.max_entries = 4
  len : p.entries.length = 4
  num : p.num_entries ≤ 4
  active : ∀ i, i < p.num_entries →
    ∃ k r, slotAt p.entries i = some ⟨true, some k, Data.rid r⟩ ∧ k.length = ks
  sorted : ∀ i j ki kj, i < j → j < p.num_entries → keyAt p.entries i = some ki →
    keyAt p.entries j = some kj → memcmp ki kj ks ≤ 0
  tail : ∀ i e, p.num_entries ≤ i → i < 3 → slotAt p.entries i = some e → e.in_use = false

/-- `b` is the key of the last active entry of the page. -/
def Top (p : IndexPage) (b : Key) : Prop :=
  1 ≤ p.num_entries ∧ keyAt p.entries (p.num_entries - 1) = some b

/-- The tree is a single leaf root. -/
def PhaseA (s : State) : Prop :=
  ∃ a p, s.tree.root = some a ∧ load s a = .ok p ∧ LeafOK s.tree.key_size p ∧ p.parent = none

/-- The page at `x` is a leaf other than the page at `r`, with parent `r`. -/
def LeafChild (s : State) (r x : Nat) : Prop :=
  x ≠ r ∧ ∃ px, load s x = .ok px ∧ px.is_leaf = true ∧ px.parent = some r

/-- The tree has the non-leaf root `pr` at address `r`: the slots in use are
exactly those below `num_entries`, and each of them addresses a leaf whose
parent is the root.  Nothing is said about keys. -/
structure RootOK (s : State) (r : Nat) (pr : IndexPage) : Prop where
  root : s.tree.root = some r
  load_r : load s r = .ok pr
  nonleaf : pr.is_leaf = false
  cap : pr.max_entries = 4
  len : pr.entries.length = 4
  num : pr.num_entries ≤ 4
  used : ∀ i, i < 4 →
    ∃ e, slotAt pr.entries i = some e ∧ (e.in_use = true ↔ i < pr.num_entries)
  child : ∀ i e, i < pr.num_entries → slotAt pr.entries i = some e →
    ∃ c, e.data = Data.page c ∧ LeafChild s r c

/-- Every non-leaf page of `s1` is a non-leaf page of `s`, at the same
address. -/
def NoNewNonleaf (s s1 : State) : Prop :=
  ∀ a p1, load s1 a = .ok p1 → p1.is_leaf = false →
    ∃ p, load s a = .ok p ∧ p.is_leaf = false

/-- A page whose in-use slots are exactly the indices `[0, num_entries)` of
its `max_entries` slots, the active entries holding non-`NULL` keys of at
least `ks` bytes in ascending order. -/
structure PrefixOK (ks : Nat) (p : IndexPage) : Prop where
  len : p.entries.length = p.max_entries
  cap : p.max_entries < 2 ^ 32
  used : ∀ i, i < p.max_entries →
    ∃ e, slotAt p.entries i = some e ∧ (e.in_use = true ↔ i < p.num_entries)
  keys : ∀ i, i < p.num_entries → ∃ k, keyAt p.entries i = some k ∧ ks ≤ k.length
  sorted : ∀ i j ki kj, i < j → j < p.num_entries → keyAt p.entries i = some ki →
    keyAt p.entries j = some kj → memcmp ki kj ks ≤ 0

/-! ## Auxiliary lemmas -/

theorem sub32_eq (a b : Nat) : sub32 a b = (a + 2 ^ 32 - b) % 2 ^ 32 := by
  unfold sub32
  split_ifs with h
  · rw [show a + 2 ^ 32 - b = (a - b) + 2 ^ 32 by omega, Nat.add_mod_right]
  · rfl

theorem memcmp_antisymm (a b : List Nat) (n : Nat) : memcmp a b n = - memcmp b a n := by
  induction n generalizing a b with
  | zero => simp [memcmp]
  | succ n ih =>
    cases a with
    | nil => cases b <;> simp [memcmp]
    | cons x xs =>
      cases b with
      | nil => simp [memcmp]
      | cons y ys =>
        simp only [memcmp]
        rcases Nat.lt_trichotomy x y with h | h | h
        · have h2 : ¬ y < x := by omega
          simp [h, h2]
        · subst h
          simp [ih xs ys]
        · have h2 : ¬ x < y := by omega
          simp [h, h2]

theorem memcmp_take_left (a b : List Nat) (n : Nat) : memcmp (a.take n) b n = memcmp a b n := by
  induction n generalizing a b with
  | zero => simp [memcmp]
  | succ n ih =>
    cases a with
    | nil => simp
    | cons x xs =>
      cases b with
      | nil => simp [memcmp]
      | cons y ys => simp [memcmp, ih]

theorem memcmp_take_right (a b : List Nat) (n : Nat) : memcmp a (b.take n) n = memcmp a b n := by
  rw [memcmp_antisymm, memcmp_take_left, ← memcmp_antisymm]

theorem memcmp_trans_le (a b c : List Nat) (n : Nat) (hb : n ≤ b.length)
    (h1 : memcmp a b n ≤ 0) (h2 : memcmp b c n ≤ 0) : memcmp a c n ≤ 0 := by
  induction n generalizing a b c with
  | zero => simp [memcmp]
  | succ n ih =>
    cases b with
    | nil => simp at hb
    | cons y ys =>
      cases a with
      | nil => simp [memcmp]
      | cons x xs =>
        cases c with
        | nil => simp [memcmp]
        | cons z zs =>
          simp only [memcmp] at h1 h2 ⊢
          simp only [List.length_cons, Nat.add_le_add_iff_right] at hb
          split_ifs at h1 h2 ⊢ <;> first | omega | exact ih xs ys zs hb h1 h2

theorem memcmp_eq_zero (a b : List Nat) (n : Nat) (ha : a.length = n) (hb : b.length = n)
    (h : memcmp a b n = 0) : a = b := by
  induction n generalizing a b with
  | zero =>
    rw [List.length_eq_zero] at ha hb
    rw [ha, hb]
  | succ n ih =>
    cases a with
    | nil => simp at ha
    | cons x xs =>
      cases b with
      | nil => simp at hb
      | cons y ys =>
        simp only [memcmp] at h
        simp only [List.length_cons, Nat.add_right_cancel_iff] at ha hb
        split_ifs at h with h1 h2
        · omega
        · have hxy : x = y := by omega
          rw [hxy, ih xs ys ha hb h]

theorem slotAt_set (es : List Slot) (p : Nat) (v : Slot) (j : Nat) (hp : p < es.length) :
    slotAt (es.set p v) j = if j = p then v else slotAt es j := by
  unfold slotAt
  by_cases h : j = p
  · subst h
    simp [List.getD_eq_getElem?_getD, hp]
  · have h2 : p ≠ j := fun e => h e.symm
    simp [List.getD_eq_getElem?_getD, List.getElem?_set, h, h2]

theorem memcpy_slots_spec (dst : List Slot) (dpos : Nat) (src : List Slot) (spos count : Nat)
    (es : List Slot) (h : memcpy_slots dst dpos src spos count = .ok es) :
    es.length = dst.length ∧
    ∀ j, slotAt es j =
      if dpos ≤ j ∧ j < dpos + count then slotAt src (spos + (j - dpos)) else slotAt dst j := by
  unfold memcpy_slots at h
  split_ifs at h with h0 h1
  · cases h
    subst h0
    refine ⟨rfl, fun j => ?_⟩
    have hn : ¬ (dpos ≤ j ∧ j < dpos + 0) := by omega
    rw [if_neg hn]
  · cases h
    have hlen : dpos + count ≤ dst.length := by omega
    refine ⟨by simp; omega, fun j => ?_⟩
    unfold slotAt
    simp only [List.getD_eq_getElem?_getD]
    by_cases hj1 : j < dpos
    · have : ¬ (dpos ≤ j ∧ j < dpos + count) := by omega
      rw [if_neg this, List.append_assoc, List.getElem?_append_left (by simp; omega)]
      simp [List.getElem?_take, hj1]
    · by_cases hj2 : j < dpos + count
      · have : (dpos ≤ j ∧ j < dpos + count) := by omega
        rw [if_pos this, List.append_assoc, List.getElem?_append_right (by simp; omega)]
        have hl : (List.take dpos dst).length = dpos := by simp; omega
        rw [hl, List.getElem?_append_left (by simp; omega)]
        simp [List.getElem?_map, List.getElem?_range, show j - dpos < count by omega]
      · have : ¬ (dpos ≤ j ∧ j < dpos + count) := by omega
        rw [if_neg this, List.getElem?_append_right (by simp; omega)]
        simp
        have hl : min dpos dst.length = dpos := by omega
        rw [hl]
        congr 2
        omega


theorem scan_isrt_pos_some (ks : Nat) (key : Option Key) (es : List Slot) (fuel i pos : Nat)
    (h : scan_isrt_pos ks key es i fuel = .ok (some pos)) :
    i ≤ pos ∧ pos < i + fuel ∧
    (∃ e, slotAt es pos = some e ∧
      (e.in_use = false ∨ ∃ k ek, key = some k ∧ e.key = some ek ∧ memcmp k ek ks < 0)) ∧
    ∀ j, i ≤ j → j < pos → ∃ e k ek, slotAt es j = some e ∧ e.in_use = true ∧
      key = some k ∧ e.key = some ek ∧ 0 ≤ memcmp k ek ks := by
  induction fuel generalizing i with
  | zero => simp [scan_isrt_pos] at h
  | succ fuel ih =>
    unfold scan_isrt_pos at h
    split at h
    · cases h
    · rename_i e he
      split_ifs at h with hu
      · cases h
        exact ⟨le_refl _, by omega, ⟨e, he, Or.inl hu⟩, fun j h1 h2 => by omega⟩
      · split at h
        · rename_i _ _ k ek hek
          split_ifs at h with hc
          · cases h
            exact ⟨le_refl _, by omega, ⟨e, he, Or.inr ⟨k, ek, rfl, hek, hc⟩⟩,
              fun j h1 h2 => by omega⟩
          · obtain ⟨h1, h2, h3, h4⟩ := ih (i + 1) h
            refine ⟨by omega, by omega, h3, fun j hj1 hj2 => ?_⟩
            by_cases hji : j = i
            · subst hji
              exact ⟨e, k, ek, he, by simpa using hu, rfl, hek, by omega⟩
            · exact h4 j (by omega) hj2
        · cases h

theorem place_entry_spec (ks : Nat) (p : IndexPage) (pos : Nat) (k : Key) (d : Data)
    (p1 : IndexPage) (idx : Nat)
    (h : place_entry ks p (some pos) (some k) d = .ok (p1, idx))
    (hpos : pos ≤ p.num_entries) (hnum : p.num_entries < p.entries.length)
    (hlen : p.entries.length < 2 ^ 32)
    (hact : ∀ j, j < p.num_entries → ∃ e, slotAt p.entries j = some e ∧ e.in_use = true) :
    idx = pos ∧ p1.num_entries = p.num_entries + 1 ∧ p1.entries.length = p.entries.length ∧
    p1.is_leaf = p.is_leaf ∧ p1.max_entries = p.max_entries ∧ p1.parent = p.parent ∧
    p1.page_id = p.page_id ∧
    ∀ j, slotAt p1.entries j =
      if j < pos then slotAt p.entries j
      else if j = pos then some ⟨true, some (k.take ks), d⟩
      else if j ≤ p.num_entries then slotAt p.entries (j - 1)
      else slotAt p.entries j := by
  have hmod : (p.num_entries + 1) % 2 ^ 32 = p.num_entries + 1 := Nat.mod_eq_of_lt (by omega)
  unfold place_entry at h
  simp only at h
  split at h
  · cases h
  · rename_i e he
    split_ifs at h with hu
    · simp only [Except.ok.injEq, Prod.mk.injEq] at h
      obtain ⟨h1, h2⟩ := h
      subst h1
      have hpn : pos = p.num_entries := by
        by_contra hne
        obtain ⟨e', he', hin⟩ := hact pos (by omega)
        rw [he] at he'
        cases he'
        rw [hu] at hin
        cases hin
      refine ⟨h2.symm, by simp only [write_entry]; exact hmod, by simp [write_entry], rfl, rfl,
        rfl, rfl, fun j => ?_⟩
      simp only [write_entry]
      rw [slotAt_set _ _ _ _ (by omega)]
      by_cases hj : j = pos
      · subst hj
        simp
      · by_cases hj2 : j < pos
        · simp [hj, hj2]
        · have : ¬ j ≤ p.num_entries := by omega
          simp [hj, hj2, this]
    · split at h
      · cases h
      · rename_i es hes
        simp only [Except.ok.injEq, Prod.mk.injEq] at h
        obtain ⟨h1, h2⟩ := h
        subst h1
        have hcount : sub32 p.num_entries pos = p.num_entries - pos := by
          unfold sub32
          rw [if_pos hpos]
          exact Nat.mod_eq_of_lt (by omega)
        rw [hcount] at hes
        obtain ⟨hl, hsl⟩ := memcpy_slots_spec _ _ _ _ _ _ hes
        refine ⟨h2.symm, by simp only [write_entry]; exact hmod, by simp [write_entry, hl], rfl,
          rfl, rfl, rfl, fun j => ?_⟩
        simp only [write_entry]
        rw [slotAt_set _ _ _ _ (by omega), hsl]
        by_cases hj : j = pos
        · subst hj
          simp
        · by_cases hj2 : j < pos
          · have : ¬ (pos + 1 ≤ j ∧ j < pos + 1 + (p.num_entries - pos)) := by omega
            simp [hj, hj2, this]
          · by_cases hj3 : j ≤ p.num_entries
            · have : (pos + 1 ≤ j ∧ j < pos + 1 + (p.num_entries - pos)) := by omega
              simp only [hj, hj2, hj3, this, if_true, if_false, and_self]
              congr 1
              omega
            · have : ¬ (pos + 1 ≤ j ∧ j < pos + 1 + (p.num_entries - pos)) := by omega
              simp [hj, hj2, hj3, this]


theorem LeafOK.keyAt_active {ks : Nat} {p : IndexPage} (hok : LeafOK ks p) {i : Nat}
    (hi : i < p.num_entries) :
    ∃ k, keyAt p.entries i = some k ∧ k.length = ks := by
  obtain ⟨k, r, hs, hl⟩ := hok.active i hi
  exact ⟨k, by simp [keyAt, hs], hl⟩

theorem InsertLeafPageEntry_LeafOK (t : IndexTree) (p : IndexPage) (key : Key)
    (page_num slot_num : Nat) (p1 : IndexPage) (idx : Nat)
    (hok : LeafOK t.key_size p) (hroom : p.num_entries < p.max_entries)
    (hk : t.key_size ≤ key.length)
    (h : InsertLeafPageEntry t p key page_num slot_num = .ok (p1, idx)) :
    LeafOK t.key_size p1 ∧ p1.parent = p.parent ∧ p1.page_id = p.page_id ∧
    ∀ b, Top p b → 0 ≤ memcmp b key t.key_size → Top p1 b := by
  have hcap := hok.cap
  have hlen := hok.len
  unfold InsertLeafPageEntry at h
  split at h
  · cases h
  rename_i isrt_pos hscan
  cases isrt_pos with
  | none => simp [place_entry] at h
  | some pos =>
    obtain ⟨-, hlt, ⟨e, he, hq⟩, hbefore⟩ := scan_isrt_pos_some _ _ _ _ _ _ hscan
    rw [hcap] at hlt hroom
    have hpos : pos ≤ p.num_entries := by
      by_contra hgt
      obtain ⟨e', k, ek, he', hin, -, -, -⟩ := hbefore p.num_entries (Nat.zero_le _) (by omega)
      have := hok.tail p.num_entries e' (le_refl _) (by omega) he'
      rw [this] at hin
      cases hin
    have hact : ∀ j, j < p.num_entries → ∃ e, slotAt p.entries j = some e ∧ e.in_use = true := by
      intro j hj
      obtain ⟨k, r, hs, -⟩ := hok.active j hj
      exact ⟨_, hs, rfl⟩
    obtain ⟨-, hnum, hlen1, hleaf, hcap1, hpar, hid, hsl⟩ :=
      place_entry_spec _ _ _ _ _ _ _ h hpos (by omega) (by rw [hlen]; norm_num) hact
    have hkl : (key.take t.key_size).length = t.key_size := by simp [hk]
    -- the keys of the new page
    have hkey : ∀ j, keyAt p1.entries j =
        if j < pos then keyAt p.entries j
        else if j = pos then some (key.take t.key_size)
        else if j ≤ p.num_entries then keyAt p.entries (j - 1)
        else keyAt p.entries j := by
      intro j
      unfold keyAt
      rw [hsl]
      split_ifs <;> simp
    -- keys passed over by the scan are not greater than the new key
    have hle : ∀ j kj, j < pos → keyAt p.entries j = some kj → memcmp kj key t.key_size ≤ 0 := by
      intro j kj hj hkj
      obtain ⟨e', k, ek, he', -, hk', hek, hc⟩ := hbefore j (Nat.zero_le _) hj
      cases hk'
      have : kj = ek := by
        simp only [keyAt, he', Option.some_bind, hek, Option.some.injEq] at hkj
        exact hkj.symm
      subst this
      rw [memcmp_antisymm]
      omega
    -- the key at the insertion position is greater than the new key
    have hgt : pos < p.num_entries → ∀ kp, keyAt p.entries pos = some kp →
        memcmp key kp t.key_size < 0 := by
      intro hlt' kp hkp
      obtain ⟨e', hs', hin⟩ := hact pos hlt'
      rw [he] at hs'
      cases hs'
      rcases hq with hq | ⟨k, ek, hk', hek, hc⟩
      · rw [hq] at hin
        cases hin
      · cases hk'
        simp only [keyAt, he, Option.some_bind, hek, Option.some.injEq] at hkp
        subst hkp
        exact hc
    refine ⟨⟨by rw [hleaf]; exact hok.leaf, by rw [hcap1]; exact hcap, by rw [hlen1]; exact hlen,
      by omega, ?_, ?_, ?_⟩, hpar, hid, ?_⟩
    · -- active
      intro i hi
      rw [hsl]
      split_ifs with h1 h2 h3
      · exact hok.active i (by omega)
      · exact ⟨_, _, rfl, hkl⟩
      · exact hok.active (i - 1) (by omega)
      · omega
    · -- sorted
      intro i j ki kj hij hj hki hkj
      rw [hkey] at hki hkj
      rw [hnum] at hj
      by_cases hjp : j < pos
      · rw [if_pos hjp] at hkj
        rw [if_pos (by omega)] at hki
        exact hok.sorted i j ki kj hij (by omega) hki hkj
      · rw [if_neg hjp] at hkj
        by_cases hjp2 : j = pos
        · rw [if_pos hjp2] at hkj
          cases hkj
          rw [if_pos (by omega)] at hki
          rw [memcmp_take_right]
          exact hle i ki (by omega) hki
        · rw [if_neg hjp2, if_pos (by omega)] at hkj
          by_cases hip : i < pos
          · rw [if_pos hip] at hki
            exact hok.sorted i (j - 1) ki kj (by omega) (by omega) hki hkj
          · rw [if_neg hip] at hki
            by_cases hip2 : i = pos
            · rw [if_pos hip2] at hki
              cases hki
              rw [memcmp_take_left]
              obtain ⟨kp, hkp, hkpl⟩ := hok.keyAt_active (show pos < p.num_entries by omega)
              have h1 := hgt (by omega) kp hkp
              by_cases hjj : j - 1 = pos
              · rw [hjj, hkp] at hkj
                cases hkj
                omega
              · have h2 := hok.sorted pos (j - 1) kp kj (by omega) (by omega) hkp hkj
                exact memcmp_trans_le key kp kj _ (by omega) (by omega) h2
            · rw [if_neg hip2, if_pos (by omega)] at hki
              exact hok.sorted (i - 1) (j - 1) ki kj (by omega) (by omega) hki hkj
    · -- tail
      intro i e' hi1 hi2 hs
      rw [hsl, if_neg (by omega), if_neg (by omega), if_neg (by omega)] at hs
      exact hok.tail i e' (by omega) hi2 hs
    · -- top
      intro b ⟨hb1, hb2⟩ hcmp
      refine ⟨by omega, ?_⟩
      rw [hnum, Nat.add_sub_cancel, hkey]
      by_cases hpn : pos = p.num_entries
      · rw [if_neg (by omega), if_pos hpn.symm]
        have h1 := hle (p.num_entries - 1) b (by omega) hb2
        obtain ⟨b', hb', hbl⟩ := hok.keyAt_active (show p.num_entries - 1 < p.num_entries by omega)
        rw [hb2] at hb'
        cases hb'
        have h0 : memcmp b (key.take t.key_size) t.key_size = 0 := by
          rw [memcmp_take_right]
          omega
        rw [memcmp_eq_zero _ _ _ hbl hkl h0]
      · rw [if_neg (by omega), if_neg (by omega), if_pos (le_refl _)]
        exact hb2


theorem load_eq_ok {s : State} {a : Nat} {p : IndexPage} :
    load s a = .ok p ↔ s.heap[a]? = some p := by
  unfold load
  cases h : s.heap[a]? <;> simp

theorem load_lt {s : State} {a : Nat} {p : IndexPage} (h : load s a = .ok p) :
    a < s.heap.length := by
  rw [load_eq_ok] at h
  exact (List.getElem?_eq_some.mp h).1

theorem load_store (s : State) (a b : Nat) (p : IndexPage) :
    load (store s a p) b =
      if b = a then (if a < s.heap.length then .ok p else .error .bad_pointer) else load s b := by
  unfold load store
  by_cases h : b = a
  · subst h
    by_cases h2 : b < s.heap.length
    · simp [h2]
    · have h3 : (s.heap.set b p)[b]? = none := by simp; omega
      simp [h2, h3]
  · have : a ≠ b := fun e => h e.symm
    simp [h, List.getElem?_set, this]

theorem store_tree (s : State) (a : Nat) (p : IndexPage) : (store s a p).tree = s.tree := rfl

theorem store_length (s : State) (a : Nat) (p : IndexPage) :
    (store s a p).heap.length = s.heap.length := by
  simp [store]

theorem CreateEmptyPage_fst (l : Bool) (par : Option Nat) (s : State) :
    (CreateEmptyPage l par s).1 = s.heap.length := rfl

theorem CreateEmptyPage_tree (l : Bool) (par : Option Nat) (s : State) :
    (CreateEmptyPage l par s).2.tree
      = { s.tree with page_counter := (s.tree.page_counter + 1) % 2 ^ 64 } := rfl

theorem CreateEmptyPage_length (l : Bool) (par : Option Nat) (s : State) :
    (CreateEmptyPage l par s).2.heap.length = s.heap.length + 1 := by
  simp [CreateEmptyPage]

theorem load_CreateEmptyPage (l : Bool) (par : Option Nat) (s : State) (b : Nat) :
    load (CreateEmptyPage l par s).2 b =
      if b = s.heap.length then
        .ok ⟨s.tree.page_counter, l, 8, 4, 0, List.replicate 4 (some zeroEntry), par⟩
      else load s b := by
  unfold load CreateEmptyPage
  by_cases h : b = s.heap.length
  · subst h
    simp
  · rw [if_neg h]
    by_cases h2 : b < s.heap.length
    · simp [List.getElem?_append_left, h2]
    · have h3 : s.heap.length < b := by omega
      have h4 : s.heap[b]? = none := by simp; omega
      have h5 : (s.heap ++ [(⟨s.tree.page_counter, l, 8, 4, 0, List.replicate 4 (some zeroEntry), par⟩ : IndexPage)])[b]? = none := by
        simp; omega
      simp only [h4, h5]

theorem load_root_tree (s : State) (t : IndexTree) (b : Nat) :
    load { s with tree := t } b = load s b := rfl

theorem load_mk_heap (t : IndexTree) (s : State) (b : Nat) :
    load ⟨t, s.heap⟩ b = load s b := rfl

theorem sub32_four_one : sub32 4 1 = 3 := rfl

theorem sub32_three_one : sub32 3 1 = 2 := rfl

theorem sub32_two_one : sub32 2 1 = 1 := rfl

theorem lowpage_range_end_four : lowpage_range_end 4 = 2 := rfl

theorem highpage_range_end_four : highpage_range_end 4 = 4 := rfl

theorem sub32_high_low_four : sub32 (highpage_range_end 4) (lowpage_range_end 4) = 2 := rfl

theorem slotAt_cons_zero (x : Slot) (l : List Slot) : slotAt (x :: l) 0 = x := rfl

theorem slotAt_cons_one (x0 x1 : Slot) (l : List Slot) : slotAt (x0 :: x1 :: l) 1 = x1 := rfl

theorem slotAt_cons_two (x0 x1 x2 : Slot) (l : List Slot) :
    slotAt (x0 :: x1 :: x2 :: l) 2 = x2 := rfl

theorem slotAt_cons_three (x0 x1 x2 x3 : Slot) (l : List Slot) :
    slotAt (x0 :: x1 :: x2 :: x3 :: l) 3 = x3 := rfl

theorem scan_fresh (ks : Nat) (k : Option Key) :
    scan_isrt_pos ks k (List.replicate 4 (some zeroEntry)) 0 4 = .ok (some 0) := rfl

theorem place_fresh (ks c : Nat) (k : Key) (d : Data) :
    place_entry ks ⟨c, false, 8, 4, 0, List.replicate 4 (some zeroEntry), none⟩ (some 0) (some k) d
      = .ok (⟨c, false, 8, 4, 1, [some ⟨true, some (k.take ks), d⟩, some zeroEntry,
          some zeroEntry, some zeroEntry], none⟩, 0) := rfl

theorem link_root_root (s : State) (a : Nat) (p : IndexPage) (x0 x1 x2 : Slot)
    (e3 : IndexPageEntry) (k3 : Key) (sA : State) (lpe : Option (Option (Nat × Nat)))
    (hload : load s a = .ok p) (hpar : p.parent = none) (hnum : p.num_entries = 4)
    (hes : p.entries = [x0, x1, x2, some e3]) (hk3 : e3.key = some k3)
    (h : link_root s a p = .ok (sA, lpe)) :
    lpe = some (some (s.heap.length, 0)) ∧
    sA.tree = { s.tree with page_counter := (s.tree.page_counter + 1) % 2 ^ 64,
                            root := some s.heap.length } ∧
    sA.heap.length = s.heap.length + 1 ∧
    load sA a = .ok { p with parent := some s.heap.length } ∧
    load sA s.heap.length = .ok ⟨s.tree.page_counter, false, 8, 4, 1,
      [some ⟨true, some (k3.take s.tree.key_size), Data.page a⟩, some zeroEntry,
       some zeroEntry, some zeroEntry], none⟩ := by
  have ha := load_lt hload
  have hne1 : a ≠ s.heap.length := by omega
  have hne2 : s.heap.length ≠ a := by omega
  have ha1 : a < s.heap.length + 1 := by omega
  simp only [link_root, hpar, InsertNonleafPageEntry, load_CreateEmptyPage, load_root_tree,
    CreateEmptyPage_fst, hne1, hne2, if_false, if_true, hload, hnum, hes, sub32_four_one,
    slotAt_cons_three, hk3, scan_fresh, place_fresh, load_mk_heap, load_store,
    CreateEmptyPage_tree, Except.ok.injEq, Prod.mk.injEq] at h
  obtain ⟨h1, h2⟩ := h
  subst h1 h2
  refine ⟨rfl, rfl, ?_, ?_, ?_⟩
  · simp only [store_length, CreateEmptyPage_length]
  · simp only [load_store, hne1, hne2, if_true, if_false, store_length,
      CreateEmptyPage_length, ha1, hnum, hes]
  · simp only [load_store, hne1, hne2, if_true, if_false, store_length,
      CreateEmptyPage_length, Nat.lt_succ_self]

theorem memset_three (x0 x1 x2 x3 : Slot) :
    memset_slots [x0, x1, x2, x3] 3
      = .ok [some zeroEntry, some zeroEntry, some zeroEntry, x3] := rfl

theorem memcpy_low (y0 y1 y2 y3 c0 c1 c2 c3 c4 : Slot) :
    memcpy_slots [y0, y1, y2, y3] 0 [c0, c1, c2, c3, c4] 0 3 = .ok [c0, c1, c2, y3] := rfl

theorem memcpy_high (c0 c1 c2 c3 c4 : Slot) :
    memcpy_slots (List.replicate 4 (some zeroEntry)) 0 [c0, c1, c2, c3, c4] 3 3
      = .ok [c3, c4, none, some zeroEntry] := rfl

theorem split_low_root (sA : State) (a n : Nat) (P R : IndexPage) (y0 y1 y2 y3 c0 c1 c3 c4 : Slot)
    (e2 le : IndexPageEntry) (k2 kr : Key) (r1 r2 r3 : Slot) (sB : State)
    (hP : load sA a = .ok P) (hR : load sA n = .ok R) (hne : a ≠ n)
    (hPe : P.entries = [y0, y1, y2, y3]) (hRe : R.entries = [some le, r1, r2, r3])
    (hle : le.key = some kr) (he2 : e2.key = some k2)
    (h : split_low sA a 4 [c0, c1, some e2, c3, c4] (some (some (n, 0))) = .ok sB) :
    sB.tree = sA.tree ∧ sB.heap.length = sA.heap.length ∧
    load sB a = .ok { P with entries := [c0, c1, some e2, y3], num_entries := 3 } ∧
    load sB n = .ok { R with entries :=
      [some { le with key := some (k2.take sA.tree.key_size) }, r1, r2, r3] } := by
  have ha := load_lt hP
  have hn := load_lt hR
  have hne2 : n ≠ a := fun e => hne e.symm
  have h3 : (lowpage_range_end 4 + 1) % 2 ^ 32 = 3 := rfl
  simp only [split_low, hP, sub32_four_one, hPe, memset_three, h3, memcpy_low, load_store,
    hne, hne2, if_true, if_false, hR, hRe, slotAt_cons_zero, sub32_three_one, slotAt_cons_two,
    hle, he2, List.set_cons_zero, Except.ok.injEq] at h
  subst h
  refine ⟨rfl, ?_, ?_, ?_⟩
  · simp only [store_length]
  · simp only [load_store, hne, hne2, if_true, if_false, store_length, ha]
  · simp only [load_store, hne, hne2, if_true, if_false, store_length, hn]

theorem scan_second (ks : Nat) (k b : Key) (d : Data) (h : 0 ≤ memcmp k b ks) :
    scan_isrt_pos ks (some k)
      [some ⟨true, some b, d⟩, some zeroEntry, some zeroEntry, some zeroEntry] 0 4
      = .ok (some 1) := by
  have h2 : ¬ memcmp k b ks < 0 := by omega
  simp [scan_isrt_pos, slotAt, zeroEntry, h2]

theorem place_second (ks c : Nat) (x0 : Slot) (k : Key) (d : Data) :
    place_entry ks ⟨c, false, 8, 4, 1, [x0, some zeroEntry, some zeroEntry, some zeroEntry], none⟩
        (some 1) (some k) d
      = .ok (⟨c, false, 8, 4, 2, [x0, some ⟨true, some (k.take ks), d⟩, some zeroEntry,
          some zeroEntry], none⟩, 1) := rfl

theorem split_high_root (sB : State) (a n : Nat) (P : IndexPage) (c0 c1 c2 c3 : Slot)
    (e4 : IndexPageEntry) (k4 b : Key) (d : Data) (pc : Nat) (sC : State) (np : Nat)
    (hP : load sB a = .ok P)
    (hR : load sB n = .ok ⟨pc, false, 8, 4, 1,
      [some ⟨true, some b, d⟩, some zeroEntry, some zeroEntry, some zeroEntry], none⟩)
    (hne : a ≠ n) (hPn : P.num_entries = 3) (hPp : P.parent = some n)
    (he4 : e4.key = some k4) (hcmp : 0 ≤ memcmp k4 b sB.tree.key_size)
    (h : split_high sB a 4 [c0, c1, c2, c3, some e4] = .ok (sC, np)) :
    np = sB.heap.length ∧
    sC.tree = { sB.tree with page_counter := (sB.tree.page_counter + 1) % 2 ^ 64 } ∧
    load sC a = .ok P ∧
    load sC n = .ok ⟨pc, false, 8, 4, 2,
      [some ⟨true, some b, d⟩,
       some ⟨true, some (k4.take sB.tree.key_size), Data.page sB.heap.length⟩,
       some zeroEntry, some zeroEntry], none⟩ ∧
    load sC sB.heap.length = .ok ⟨sB.tree.page_counter, true, 8, 4, 2,
      [c3, some e4, none, some zeroEntry], some n⟩ := by
  have ha := load_lt hP
  have hn := load_lt hR
  have hne2 : n ≠ a := fun e => hne e.symm
  have hm1 : a ≠ sB.heap.length := by omega
  have hm2 : sB.heap.length ≠ a := by omega
  have hm3 : n ≠ sB.heap.length := by omega
  have hm4 : sB.heap.length ≠ n := by omega
  have ha1 : a < sB.heap.length + 1 := by omega
  have hn1 : n < sB.heap.length + 1 := by omega
  have h3 : lowpage_range_end 4 + 1 = 3 := rfl
  have hsc := scan_second sB.tree.key_size k4 b d hcmp
  simp only [split_high, hP, hPp, hPn, CreateEmptyPage_fst, load_CreateEmptyPage, if_true,
    if_false, h3, memcpy_high, sub32_high_low_four, InsertNonleafPageEntry, load_store,
    CreateEmptyPage_length, Nat.lt_succ_self, sub32_two_one, slotAt_cons_one, hm1, hm2, hm3,
    hm4, hR, store_tree, CreateEmptyPage_tree, he4, hsc, place_second, store_length, hn1,
    Nat.lt_add_one, Except.ok.injEq, Prod.mk.injEq] at h
  obtain ⟨h1, h2⟩ := h
  subst h1 h2
  refine ⟨rfl, rfl, ?_, ?_, ?_⟩
  · simp only [load_store, load_CreateEmptyPage, hm1, hm2, hm3, hm4, hne, hne2, if_true,
      if_false, store_length, CreateEmptyPage_length, hP]
  · simp only [load_store, load_CreateEmptyPage, hm1, hm2, hm3, hm4, hne, hne2, if_true,
      if_false, store_length, CreateEmptyPage_length, hn1]
  · simp only [load_store, load_CreateEmptyPage, hm1, hm2, hm3, hm4, hne, hne2, if_true,
      if_false, store_length, CreateEmptyPage_length, Nat.lt_add_one]

theorem full_leaf_entries {ks : Nat} {p : IndexPage} (hok : LeafOK ks p)
    (hfull : ¬ p.num_entries < p.max_entries) :
    p.num_entries = 4 ∧ ∃ k0 r0 k1 r1 k2 r2 k3 r3,
      p.entries = [some ⟨true, some k0, Data.rid r0⟩, some ⟨true, some k1, Data.rid r1⟩,
        some ⟨true, some k2, Data.rid r2⟩, some ⟨true, some k3, Data.rid r3⟩] ∧
      k0.length = ks ∧ k1.length = ks ∧ k2.length = ks ∧ k3.length = ks ∧
      memcmp k0 k1 ks ≤ 0 ∧ memcmp k1 k2 ks ≤ 0 ∧ memcmp k2 k3 ks ≤ 0 := by
  have hnum : p.num_entries = 4 := by
    have := hok.num
    have := hok.cap
    omega
  obtain ⟨k0, r0, h0, hl0⟩ := hok.active 0 (by omega)
  obtain ⟨k1, r1, h1, hl1⟩ := hok.active 1 (by omega)
  obtain ⟨k2, r2, h2, hl2⟩ := hok.active 2 (by omega)
  obtain ⟨k3, r3, h3, hl3⟩ := hok.active 3 (by omega)
  have hs01 := hok.sorted 0 1 k0 k1 (by omega) (by omega) (by simp [keyAt, h0]) (by simp [keyAt, h1])
  have hs12 := hok.sorted 1 2 k1 k2 (by omega) (by omega) (by simp [keyAt, h1]) (by simp [keyAt, h2])
  have hs23 := hok.sorted 2 3 k2 k3 (by omega) (by omega) (by simp [keyAt, h2]) (by simp [keyAt, h3])
  refine ⟨hnum, k0, r0, k1, r1, k2, r2, k3, r3, ?_, hl0, hl1, hl2, hl3, hs01, hs12, hs23⟩
  have hlen := hok.len
  match hp : p.entries, hlen with
  | [x0, x1, x2, x3], _ =>
    rw [hp] at h0 h1 h2 h3
    simp only [slotAt, List.getD_cons_zero, List.getD_cons_succ] at h0 h1 h2 h3
    rw [h0, h1, h2, h3]

theorem build_candidates_full (ks : Nat) (p : IndexPage) (key : Key) (rid : RecordID)
    (x0 x1 x2 x3 : IndexPageEntry) (k0 k1 k2 k3 : Key) (c : List Slot)
    (hnum : p.num_entries = 4) (hes : p.entries = [some x0, some x1, some x2, some x3])
    (hk0 : x0.key = some k0) (hk1 : x1.key = some k1) (hk2 : x2.key = some k2)
    (hk3 : x3.key = some k3)
    (h : build_candidates ks p key rid = .ok c) :
    c = [some x0, some x1, some x2, some x3,
          some ⟨true, some (key.take ks), Data.rid rid⟩] ∧
    0 ≤ memcmp key k0 ks ∧ 0 ≤ memcmp key k1 ks ∧ 0 ≤ memcmp key k2 ks ∧
    0 ≤ memcmp key k3 ks := by
  have hcopy : memcpy_slots (List.replicate ((4 + 1) % 2 ^ 32) none) 0
      [some x0, some x1, some x2, some x3] 0 4
      = .ok [some x0, some x1, some x2, some x3, none] := rfl
  simp only [build_candidates, hnum, hes, candidates_scan, slotAt, List.getD_cons_zero,
    List.getD_cons_succ, hk0, hk1, hk2, hk3, hcopy] at h
  by_cases c0 : memcmp key k0 ks < 0
  · simp [c0] at h
  by_cases c1 : memcmp key k1 ks < 0
  · simp [c0, c1] at h
  by_cases c2 : memcmp key k2 ks < 0
  · simp [c0, c1, c2] at h
  by_cases c3 : memcmp key k3 ks < 0
  · simp [c0, c1, c2, c3] at h
  simp [c0, c1, c2, c3] at h
  exact ⟨h.symm, by omega, by omega, by omega, by omega⟩

theorem descend_leaf (s : State) (key : Key) (fuel a : Nat) (p : IndexPage)
    (h : load s a = .ok p) (hl : p.is_leaf = true) : descend s key fuel a = .ok a := by
  cases fuel <;> simp [descend, h, hl]

theorem PhaseA_create (page_size key_size : Nat) (s0 : State) :
    PhaseA (idxt_Create page_size key_size s0) := by
  refine ⟨s0.heap.length, ⟨0, true, 8, 4, 0, List.replicate 4 (some zeroEntry), none⟩, rfl, ?_,
    ⟨rfl, rfl, rfl, by show 0 ≤ 4; omega, ?_, ?_, ?_⟩, rfl⟩
  · simp [load, idxt_Create, CreateEmptyPage]
  · intro i hi
    exact absurd hi (Nat.not_lt_zero i)
  · intro i j ki kj _ hj
    exact absurd hj (Nat.not_lt_zero j)
  · intro i e _ hi hs
    have he : e = zeroEntry := by
      interval_cases i <;> exact (Option.some.inj hs).symm
    rw [he]
    rfl

theorem InTree_PhaseA (s : State) (a : Nat) (p : IndexPage) (hroot : s.tree.root = some a)
    (hload : load s a = .ok p) (hleaf : p.is_leaf = true) (x d : Nat) (h : InTree s x d) :
    x = a ∧ d = 0 := by
  induction h with
  | root y hy =>
    rw [hroot] at hy
    exact ⟨(Option.some.inj hy).symm, rfl⟩
  | child y d q i e c _ hq hnl _ _ _ ih =>
    rw [ih.1, hload] at hq
    simp only [Except.ok.injEq] at hq
    rw [← hq, hleaf] at hnl
    cases hnl

theorem main_state_eq : main_state = .ok main_tree := rfl

theorem memcmp_lt_of_lt_of_le (a b c : List Nat) (n : Nat) (hc : n ≤ c.length)
    (h1 : memcmp a b n < 0) (h2 : memcmp b c n ≤ 0) : memcmp a c n < 0 := by
  by_contra hcon
  have h3 : memcmp c a n ≤ 0 := by
    rw [memcmp_antisymm]
    omega
  have h4 := memcmp_trans_le b c a n hc h2 h3
  rw [memcmp_antisymm] at h4
  omega

theorem memcpy_slots_ok (dst : List Slot) (dpos : Nat) (src : List Slot) (spos count : Nat)
    (h : dpos + count ≤ dst.length) : ∃ es, memcpy_slots dst dpos src spos count = .ok es := by
  unfold memcpy_slots
  split_ifs with h0 h1
  · exact ⟨_, rfl⟩
  · omega
  · exact ⟨_, rfl⟩

theorem scan_isrt_pos_total (ks : Nat) (k : Key) (es : List Slot) (num : Nat)
    (hused : ∀ i, i ≤ num → ∃ e, slotAt es i = some e ∧ (e.in_use = true ↔ i < num))
    (hkeys : ∀ i, i < num → ∃ ki, keyAt es i = some ki) :
    ∀ fuel i, i ≤ num → num < i + fuel →
      ∃ pos, scan_isrt_pos ks (some k) es i fuel = .ok (some pos) := by
  intro fuel
  induction fuel with
  | zero =>
    intro i h1 h2
    omega
  | succ fuel ih =>
    intro i h1 h2
    obtain ⟨e, he, hin⟩ := hused i h1
    unfold scan_isrt_pos
    rw [he]
    simp only
    by_cases hi : i < num
    · have hu : e.in_use = true := hin.mpr hi
      obtain ⟨ki, hki⟩ := hkeys i hi
      have hek : e.key = some ki := by
        simpa [keyAt, he] using hki
      rw [if_neg (by rw [hu]; decide), hek]
      simp only
      split_ifs with hc
      · exact ⟨i, rfl⟩
      · exact ih (i + 1) (by omega) (by omega)
    · have hu : e.in_use = false := by
        cases hb : e.in_use with
        | false => rfl
        | true => exact absurd (hin.mp hb) hi
      rw [if_pos hu]
      exact ⟨i, rfl⟩

theorem ordered_insert (ks : Nat) (p : IndexPage) (k : Key) (d : Data)
    (hp : PrefixOK ks p) (hroom : p.num_entries < p.max_entries) (hk : ks ≤ k.length) :
    ∃ pos p1, scan_isrt_pos ks (some k) p.entries 0 p.max_entries = .ok (some pos) ∧
      place_entry ks p (some pos) (some k) d = .ok (p1, pos) ∧
      pos ≤ p.num_entries ∧ PrefixOK ks p1 ∧
      p1.num_entries = p.num_entries + 1 ∧ p1.max_entries = p.max_entries ∧
      p1.is_leaf = p.is_leaf ∧ p1.parent = p.parent ∧ p1.page_id = p.page_id ∧
      (∀ j, slotAt p1.entries j =
        if j < pos then slotAt p.entries j
        else if j = pos then some ⟨true, some (k.take ks), d⟩
        else if j ≤ p.num_entries then slotAt p.entries (j - 1)
        else slotAt p.entries j) ∧
      (∀ j kj, j < pos → keyAt p.entries j = some kj → memcmp kj k ks ≤ 0) ∧
      (∀ j kj, pos ≤ j → j < p.num_entries → keyAt p.entries j = some kj →
        memcmp k kj ks < 0) := by
  have hcap := hp.cap
  have hlen := hp.len
  obtain ⟨pos, hscan⟩ := scan_isrt_pos_total ks k p.entries p.num_entries
    (fun i hi => hp.used i (by omega))
    (fun i hi => (hp.keys i hi).imp (fun _ h => h.1)) p.max_entries 0 (Nat.zero_le _) (by omega)
  obtain ⟨-, hlt, ⟨e, he, hq⟩, hbefore⟩ := scan_isrt_pos_some _ _ _ _ _ _ hscan
  have hpos : pos ≤ p.num_entries := by
    by_contra hgt
    obtain ⟨e1, -, -, he1, hin, -, -, -⟩ := hbefore p.num_entries (Nat.zero_le _) (by omega)
    obtain ⟨e2, he2, hiff⟩ := hp.used p.num_entries hroom
    rw [he1] at he2
    cases he2
    exact absurd (hiff.mp hin) (Nat.lt_irrefl _)
  have hact : ∀ j, j < p.num_entries → ∃ e, slotAt p.entries j = some e ∧ e.in_use = true := by
    intro j hj
    obtain ⟨e1, he1, hiff⟩ := hp.used j (by omega)
    exact ⟨e1, he1, hiff.mpr hj⟩
  have hcount : sub32 p.num_entries pos = p.num_entries - pos := by
    unfold sub32
    rw [if_pos hpos]
    exact Nat.mod_eq_of_lt (by omega)
  have hplace : ∃ r, place_entry ks p (some pos) (some k) d = .ok r := by
    unfold place_entry
    simp only [he]
    split_ifs with hu
    · exact ⟨_, rfl⟩
    · obtain ⟨es, hes⟩ := memcpy_slots_ok p.entries (pos + 1) p.entries pos
        (sub32 p.num_entries pos) (by rw [hcount, hlen]; omega)
      rw [hes]
      exact ⟨_, rfl⟩
  obtain ⟨⟨p1, idx⟩, hpl⟩ := hplace
  obtain ⟨hidx, hnum, hlen1, hleaf, hcap1, hpar, hid, hsl⟩ :=
    place_entry_spec _ _ _ _ _ _ _ hpl hpos (by omega) (by omega) hact
  subst hidx
  have hkl : ks ≤ (k.take ks).length := by simp [hk]
  have hkey : ∀ j, keyAt p1.entries j =
      if j < idx then keyAt p.entries j
      else if j = idx then some (k.take ks)
      else if j ≤ p.num_entries then keyAt p.entries (j - 1)
      else keyAt p.entries j := by
    intro j
    unfold keyAt
    rw [hsl]
    split_ifs <;> simp
  have hle : ∀ j kj, j < idx → keyAt p.entries j = some kj → memcmp kj k ks ≤ 0 := by
    intro j kj hj hkj
    obtain ⟨e1, k1, ek, he1, -, hk1, hek, hc⟩ := hbefore j (Nat.zero_le _) hj
    cases hk1
    have : kj = ek := by
      simp only [keyAt, he1, Option.some_bind, hek, Option.some.injEq] at hkj
      exact hkj.symm
    subst this
    rw [memcmp_antisymm]
    omega
  have hgt0 : idx < p.num_entries → ∀ kp, keyAt p.entries idx = some kp →
      memcmp k kp ks < 0 := by
    intro hlt1 kp hkp
    obtain ⟨e1, hs1, hin⟩ := hact idx hlt1
    rw [he] at hs1
    cases hs1
    rcases hq with hq | ⟨k1, ek, hk1, hek, hc⟩
    · rw [hq] at hin
      cases hin
    · cases hk1
      simp only [keyAt, he, Option.some_bind, hek, Option.some.injEq] at hkp
      subst hkp
      exact hc
  have hgt : ∀ j kj, idx ≤ j → j < p.num_entries → keyAt p.entries j = some kj →
      memcmp k kj ks < 0 := by
    intro j kj h1 h2 hkj
    obtain ⟨kp, hkp, -⟩ := hp.keys idx (by omega)
    have h3 := hgt0 (by omega) kp hkp
    by_cases hj : j = idx
    · rw [hj, hkp] at hkj
      cases hkj
      exact h3
    · obtain ⟨kj2, hkj2, hkjl⟩ := hp.keys j h2
      rw [hkj] at hkj2
      cases hkj2
      exact memcmp_lt_of_lt_of_le k kp kj ks hkjl h3
        (hp.sorted idx j kp kj (by omega) h2 hkp hkj)
  refine ⟨idx, p1, hscan, hpl, hpos, ⟨by rw [hlen1, hcap1]; exact hlen, by rw [hcap1]; exact hcap,
    ?_, ?_, ?_⟩, hnum, hcap1, hleaf, hpar, hid, hsl, hle, hgt⟩
  · -- used
    intro i hi
    rw [hcap1] at hi
    rw [hsl, hnum]
    split_ifs with h1 h2 h3
    · obtain ⟨e1, he1, hiff⟩ := hp.used i hi
      exact ⟨e1, he1, ⟨fun _ => by omega, fun _ => hiff.mpr (by omega)⟩⟩
    · exact ⟨_, rfl, ⟨fun _ => by omega, fun _ => rfl⟩⟩
    · obtain ⟨e1, he1, hiff⟩ := hp.used (i - 1) (by omega)
      exact ⟨e1, he1, ⟨fun _ => by omega, fun _ => hiff.mpr (by omega)⟩⟩
    · obtain ⟨e1, he1, hiff⟩ := hp.used i hi
      exact ⟨e1, he1, ⟨fun hu => by have := hiff.mp hu; omega, fun hu => by omega⟩⟩
  · -- keys
    intro i hi
    rw [hnum] at hi
    rw [hkey]
    split_ifs with h1 h2 h3
    · exact hp.keys i (by omega)
    · exact ⟨_, rfl, hkl⟩
    · exact hp.keys (i - 1) (by omega)
    · omega
  · -- sorted
    intro i j ki kj hij hj hki hkj
    rw [hkey] at hki hkj
    rw [hnum] at hj
    by_cases hjp : j < idx
    · rw [if_pos hjp] at hkj
      rw [if_pos (by omega)] at hki
      exact hp.sorted i j ki kj hij (by omega) hki hkj
    · rw [if_neg hjp] at hkj
      by_cases hjp2 : j = idx
      · rw [if_pos hjp2] at hkj
        cases hkj
        rw [if_pos (by omega)] at hki
        rw [memcmp_take_right]
        exact hle i ki (by omega) hki
      · rw [if_neg hjp2, if_pos (by omega)] at hkj
        by_cases hip : i < idx
        · rw [if_pos hip] at hki
          exact hp.sorted i (j - 1) ki kj (by omega) (by omega) hki hkj
        · rw [if_neg hip] at hki
          by_cases hip2 : i = idx
          · rw [if_pos hip2] at hki
            cases hki
            rw [memcmp_take_left]
            exact le_of_lt (hgt (j - 1) kj (by omega) (by omega) hkj)
          · rw [if_neg hip2, if_pos (by omega)] at hki
            exact hp.sorted (i - 1) (j - 1) ki kj (by omega) (by omega) hki hkj

theorem leaf_124_wf : PrefixOK 4 leaf_124 := by
  refine ⟨rfl, by decide, ?_, ?_, ?_⟩
  · intro i hi
    have hi4 : i < 4 := hi
    interval_cases i <;> exact ⟨_, rfl, by decide⟩
  · intro i hi
    have hi3 : i < 3 := hi
    interval_cases i <;> exact ⟨_, rfl, by decide⟩
  · intro i j ki kj hij hj hki hkj
    have hj3 : j < 3 := hj
    interval_cases j <;> interval_cases i <;>
      simp only [leaf_124, keyAt, slotAt, List.getD_cons_zero, List.getD_cons_succ,
        Option.some_bind, Option.some.injEq] at hki hkj <;> subst hki <;> subst hkj <;> decide

theorem root_28_wf : PrefixOK 4 root_28 := by
  refine ⟨rfl, by decide, ?_, ?_, ?_⟩
  · intro i hi
    have hi4 : i < 4 := hi
    interval_cases i <;> exact ⟨_, rfl, by decide⟩
  · intro i hi
    have hi2 : i < 2 := hi
    interval_cases i <;> exact ⟨_, rfl, by decide⟩
  · intro i j ki kj hij hj hki hkj
    have hj2 : j < 2 := hj
    have hj1 : j = 1 := by omega
    have hi0 : i = 0 := by omega
    subst hj1 hi0
    simp only [root_28, keyAt, slotAt, List.getD_cons_zero, List.getD_cons_succ,
      Option.some_bind, Option.some.injEq] at hki hkj
    subst hki
    subst hkj
    decide


theorem ProcessNonleafPage_loop_found (ks : Nat) (es : List Slot) (key : Key) :
    ∀ fuel i m e k, i ≤ m → m < i + fuel → slotAt es m = some e → e.key = some k →
      0 ≤ memcmp k key ks →
      (∀ j, i ≤ j → j < m →
        ∃ ej kj, slotAt es j = some ej ∧ ej.key = some kj ∧ memcmp kj key ks < 0) →
      ProcessNonleafPage.loop ks es key i fuel = .ok e.data := by
  intro fuel
  induction fuel with
  | zero =>
    intro i m e k h1 h2
    omega
  | succ fuel ih =>
    intro i m e k h1 h2 hs hk hge hlow
    rcases Nat.eq_or_lt_of_le h1 with heq | hlt
    · subst heq
      simp only [ProcessNonleafPage.loop, hs, hk, ge_iff_le, hge, if_true]
    · obtain ⟨ej, kj, hsj, hkj, hcj⟩ := hlow i (Nat.le_refl i) hlt
      have hn : ¬ (0 ≤ memcmp kj key ks) := by omega
      simp only [ProcessNonleafPage.loop, hsj, hkj, ge_iff_le, hn, if_false]
      exact ih (i + 1) m e k hlt (by omega) hs hk hge
        (fun j hj1 hj2 => hlow j (by omega) hj2)

theorem ProcessNonleafPage_loop_none (ks : Nat) (es : List Slot) (key : Key) :
    ∀ fuel i,
      (∀ j, i ≤ j → j < i + fuel →
        ∃ ej kj, slotAt es j = some ej ∧ ej.key = some kj ∧ memcmp kj key ks < 0) →
      ProcessNonleafPage.loop ks es key i fuel = .ok Data.null := by
  intro fuel
  induction fuel with
  | zero =>
    intro i _
    rfl
  | succ fuel ih =>
    intro i hlow
    obtain ⟨ej, kj, hsj, hkj, hcj⟩ := hlow i (Nat.le_refl i) (by omega)
    have hn : ¬ (0 ≤ memcmp kj key ks) := by omega
    simp only [ProcessNonleafPage.loop, hsj, hkj, ge_iff_le, hn, if_false]
    exact ih (i + 1) (fun j hj1 hj2 => hlow j (by omega) (by omega))

theorem ProcessNonleafPage_loop_congr (ks : Nat) (es es2 : List Slot) (key : Key) :
    ∀ fuel i, (∀ j, i ≤ j → j < i + fuel → slotAt es2 j = slotAt es j) →
      ProcessNonleafPage.loop ks es2 key i fuel = ProcessNonleafPage.loop ks es key i fuel := by
  intro fuel
  induction fuel with
  | zero =>
    intro i _
    rfl
  | succ fuel ih =>
    intro i hag
    have h0 := hag i (Nat.le_refl i) (by omega)
    have hrec := ih (i + 1) (fun j hj1 hj2 => hag j (by omega) (by omega))
    simp only [ProcessNonleafPage.loop, h0, hrec]

theorem root_28_active :
    ∀ i, i < root_28.num_entries →
      ∃ e k c, slotAt root_28.entries i = some e ∧ e.key = some k ∧ e.data = Data.page c := by
  intro i hi
  have hi2 : i < 2 := hi
  interval_cases i <;> exact ⟨_, _, _, rfl, rfl, rfl⟩

theorem keyAt_eq_some (es : List Slot) (i : Nat) (k : Key) (h : keyAt es i = some k) :
    ∃ e, slotAt es i = some e ∧ e.key = some k := by
  unfold keyAt at h
  cases hs : slotAt es i with
  | none =>
    rw [hs] at h
    cases h
  | some e =>
    rw [hs] at h
    exact ⟨e, rfl, h⟩

theorem ProcessLeafPage_loop_found (ks : Nat) (es es2 : List Slot) (key : Key) (num : Nat)
    (hnum : num < 2 ^ 31)
    (hag : ∀ j, j < num → slotAt es2 j = slotAt es j)
    (hact : ∀ i, i < num → ∃ k, keyAt es i = some k ∧ ks ≤ k.length)
    (hsorted : ∀ i j ki kj, i < j → j < num → keyAt es i = some ki → keyAt es j = some kj →
      memcmp ki kj ks ≤ 0)
    (t : Nat) (kt : Key) (ht : t < num) (hkt : keyAt es t = some kt)
    (heq : memcmp kt key ks = 0) :
    ∀ fuel lo hi, lo ≤ t → t ≤ hi → hi ≤ num → hi - lo < fuel →
      ∃ i e k, i < num ∧ slotAt es i = some e ∧ e.key = some k ∧ memcmp k key ks = 0 ∧
        ProcessLeafPage.loop ks es key fuel lo hi = .ok e.data ∧
        ProcessLeafPage.loop ks es2 key fuel lo hi = .ok e.data := by
  obtain ⟨kt2, hkt2, hlen⟩ := hact t ht
  have hktt : kt2 = kt := by
    rw [hkt] at hkt2
    exact (Option.some.inj hkt2).symm
  subst hktt
  have hkey0 : memcmp key kt2 ks = 0 := by
    rw [memcmp_antisymm, heq]
    rfl
  intro fuel
  induction fuel with
  | zero =>
    intro lo hi _ _ _ h
    omega
  | succ fuel ih =>
    intro lo hi h1 h2 h3 h4
    have hle : lo ≤ hi := Nat.le_trans h1 h2
    have hmlt : lo + (hi - lo) / 2 < num := by omega
    have hmid : (lo + (hi - lo) / 2) % 2 ^ 32 = lo + (hi - lo) / 2 :=
      Nat.mod_eq_of_lt (by omega)
    have h31 : lo + (hi - lo) / 2 < 2 ^ 31 := by omega
    obtain ⟨km, hkm, -⟩ := hact (lo + (hi - lo) / 2) hmlt
    obtain ⟨e, hs, hk⟩ := keyAt_eq_some es _ km hkm
    have hs2 : slotAt es2 (lo + (hi - lo) / 2) = some e := by
      rw [hag _ hmlt]
      exact hs
    by_cases hc0 : memcmp km key ks = 0
    · refine ⟨lo + (hi - lo) / 2, e, km, hmlt, hs, hk, hc0, ?_, ?_⟩
      · simp only [ProcessLeafPage.loop, hle, if_true, hmid, h31, hs, hk, hc0]
      · simp only [ProcessLeafPage.loop, hle, if_true, hmid, h31, hs2, hk, hc0]
    · by_cases hlt : memcmp km key ks < 0
      · have htm : lo + (hi - lo) / 2 < t := by
          by_contra hcon
          rcases Nat.eq_or_lt_of_le (Nat.le_of_not_lt hcon) with he | hl
          · rw [← he, hkt] at hkm
            have hkk := Option.some.inj hkm
            subst hkk
            exact hc0 heq
          · have hs1 := hsorted t (lo + (hi - lo) / 2) kt2 km hl hmlt hkt hkm
            have hs3 := memcmp_trans_le key kt2 km ks hlen (by omega) hs1
            rw [memcmp_antisymm] at hs3
            omega
        have hnext : (lo + (hi - lo) / 2 + 1) % 2 ^ 32 = lo + (hi - lo) / 2 + 1 :=
          Nat.mod_eq_of_lt (by omega)
        obtain ⟨i, e2, k2, hi2, hsi, hki, hci, hr1, hr2⟩ :=
          ih (lo + (hi - lo) / 2 + 1) hi htm h2 h3 (by omega)
        refine ⟨i, e2, k2, hi2, hsi, hki, hci, ?_, ?_⟩
        · simp only [ProcessLeafPage.loop, hle, if_true, hmid, h31, hs, hk, hc0, if_false, hlt,
            hnext]
          exact hr1
        · simp only [ProcessLeafPage.loop, hle, if_true, hmid, h31, hs2, hk, hc0, if_false, hlt,
            hnext]
          exact hr2
      · have htm : t < lo + (hi - lo) / 2 := by
          by_contra hcon
          rcases Nat.eq_or_lt_of_le (Nat.le_of_not_lt hcon) with he | hl
          · rw [he, hkt] at hkm
            have hkk := Option.some.inj hkm
            subst hkk
            exact hc0 heq
          · have hs1 := hsorted (lo + (hi - lo) / 2) t km kt2 hl ht hkm hkt
            have hs3 := memcmp_trans_le km kt2 key ks hlen hs1 (by omega)
            omega
        have hprev : sub32 (lo + (hi - lo) / 2) 1 = lo + (hi - lo) / 2 - 1 := by
          unfold sub32
          rw [if_pos (by omega)]
          exact Nat.mod_eq_of_lt (by omega)
        obtain ⟨i, e2, k2, hi2, hsi, hki, hci, hr1, hr2⟩ :=
          ih lo (lo + (hi - lo) / 2 - 1) h1 (by omega) (by omega) (by omega)
        refine ⟨i, e2, k2, hi2, hsi, hki, hci, ?_, ?_⟩
        · simp only [ProcessLeafPage.loop, hle, if_true, hmid, h31, hs, hk, hc0, if_false, hlt,
            hprev]
          exact hr1
        · simp only [ProcessLeafPage.loop, hle, if_true, hmid, h31, hs2, hk, hc0, if_false, hlt,
            hprev]
          exact hr2

theorem build_candidates_run (ks : Nat) (p : IndexPage) (key : Key) (rid : RecordID)
    (x0 x1 x2 x3 : IndexPageEntry) (k0 k1 k2 k3 : Key)
    (hnum : p.num_entries = 4) (hes : p.entries = [some x0, some x1, some x2, some x3])
    (hk0 : x0.key = some k0) (hk1 : x1.key = some k1) (hk2 : x2.key = some k2)
    (hk3 : x3.key = some k3)
    (c0 : 0 ≤ memcmp key k0 ks) (c1 : 0 ≤ memcmp key k1 ks) (c2 : 0 ≤ memcmp key k2 ks)
    (c3 : 0 ≤ memcmp key k3 ks) :
    build_candidates ks p key rid
      = .ok [some x0, some x1, some x2, some x3,
          some ⟨true, some (key.take ks), Data.rid rid⟩] := by
  have hcopy : memcpy_slots (List.replicate ((4 + 1) % 2 ^ 32) none) 0
      [some x0, some x1, some x2, some x3] 0 4
      = .ok [some x0, some x1, some x2, some x3, none] := rfl
  have n0 : ¬ memcmp key k0 ks < 0 := by omega
  have n1 : ¬ memcmp key k1 ks < 0 := by omega
  have n2 : ¬ memcmp key k2 ks < 0 := by omega
  have n3 : ¬ memcmp key k3 ks < 0 := by omega
  simp only [build_candidates, hnum, hes, candidates_scan, slotAt, List.getD_cons_zero,
    List.getD_cons_succ, hk0, hk1, hk2, hk3, hcopy, n0, n1, n2, n3, if_false]
  rfl

theorem link_root_run (s : State) (a : Nat) (p : IndexPage) (x0 x1 x2 : Slot)
    (e3 : IndexPageEntry) (k3 : Key)
    (hload : load s a = .ok p) (hpar : p.parent = none) (hnum : p.num_entries = 4)
    (hes : p.entries = [x0, x1, x2, some e3]) (hk3 : e3.key = some k3) :
    ∃ sA lpe, link_root s a p = .ok (sA, lpe) := by
  have ha := load_lt hload
  have hne1 : a ≠ s.heap.length := by omega
  have hne2 : s.heap.length ≠ a := by omega
  simp only [link_root, hpar, InsertNonleafPageEntry, load_CreateEmptyPage, load_root_tree,
    CreateEmptyPage_fst, hne1, hne2, if_false, if_true, hload, hnum, hes, sub32_four_one,
    slotAt_cons_three, hk3, scan_fresh, place_fresh, load_mk_heap, load_store,
    CreateEmptyPage_tree]
  exact ⟨_, _, rfl⟩

theorem split_low_run (sA : State) (a n : Nat) (P R : IndexPage)
    (y0 y1 y2 y3 c0 c1 c3 c4 : Slot) (e2 le : IndexPageEntry) (k2 kr : Key) (r1 r2 r3 : Slot)
    (hP : load sA a = .ok P) (hR : load sA n = .ok R) (hne : a ≠ n)
    (hPe : P.entries = [y0, y1, y2, y3]) (hRe : R.entries = [some le, r1, r2, r3])
    (hle : le.key = some kr) (he2 : e2.key = some k2) :
    ∃ sB, split_low sA a 4 [c0, c1, some e2, c3, c4] (some (some (n, 0))) = .ok sB := by
  have hne2 : n ≠ a := fun e => hne e.symm
  have h3 : (lowpage_range_end 4 + 1) % 2 ^ 32 = 3 := rfl
  simp only [split_low, hP, sub32_four_one, hPe, memset_three, h3, memcpy_low, load_store,
    hne, hne2, if_true, if_false, hR, hRe, slotAt_cons_zero, sub32_three_one, slotAt_cons_two,
    hle, he2, List.set_cons_zero]
  exact ⟨_, rfl⟩

theorem split_high_run (sB : State) (a n : Nat) (P : IndexPage) (c0 c1 c2 c3 : Slot)
    (e4 : IndexPageEntry) (k4 b : Key) (d : Data) (pc : Nat)
    (hP : load sB a = .ok P)
    (hR : load sB n = .ok ⟨pc, false, 8, 4, 1,
      [some ⟨true, some b, d⟩, some zeroEntry, some zeroEntry, some zeroEntry], none⟩)
    (hne : a ≠ n) (hPn : P.num_entries = 3) (hPp : P.parent = some n)
    (he4 : e4.key = some k4) (hcmp : 0 ≤ memcmp k4 b sB.tree.key_size) :
    ∃ sC np, split_high sB a 4 [c0, c1, c2, c3, some e4] = .ok (sC, np) := by
  have ha := load_lt hP
  have hn := load_lt hR
  have hne2 : n ≠ a := fun e => hne e.symm
  have hm1 : a ≠ sB.heap.length := by omega
  have hm2 : sB.heap.length ≠ a := by omega
  have hm3 : n ≠ sB.heap.length := by omega
  have hm4 : sB.heap.length ≠ n := by omega
  have ha1 : a < sB.heap.length + 1 := by omega
  have hn1 : n < sB.heap.length + 1 := by omega
  have h3 : lowpage_range_end 4 + 1 = 3 := rfl
  have hsc := scan_second sB.tree.key_size k4 b d hcmp
  simp only [split_high, hP, hPp, hPn, CreateEmptyPage_fst, load_CreateEmptyPage, if_true,
    if_false, h3, memcpy_high, sub32_high_low_four, InsertNonleafPageEntry, load_store,
    CreateEmptyPage_length, Nat.lt_succ_self, sub32_two_one, slotAt_cons_one, hm1, hm2, hm3,
    hm4, hR, store_tree, CreateEmptyPage_tree, he4, hsc, place_second, store_length, hn1,
    Nat.lt_add_one]
  exact ⟨_, _, rfl⟩

theorem find_inserted_run (s : State) (a n : Nat) (key : Key) (P N : IndexPage)
    (e0 e1 e2 f0 f1 : IndexPageEntry) (y3 g2 g3 : Slot) (k0 k1 k2 j0 j1 : Key)
    (hP : load s a = .ok P) (hN : load s n = .ok N)
    (hPn : P.num_entries = 3) (hPe : P.entries = [some e0, some e1, some e2, y3])
    (hNn : N.num_entries = 2) (hNe : N.entries = [some f0, some f1, g2, g3])
    (h0 : e0.key = some k0) (h1 : e1.key = some k1) (h2 : e2.key = some k2)
    (hj0 : f0.key = some j0) (hj1 : f1.key = some j1) :
    ∃ r, find_inserted s a n key = .ok r := by
  simp only [find_inserted, hP, hPn, hPe, scan_key_eq, slotAt, List.getD_cons_zero,
    List.getD_cons_succ, h0, h1, h2, hN, hNn, hNe, hj0, hj1]
  split_ifs <;> exact ⟨_, rfl⟩
theorem Balance_root_run (s : State) (a : Nat) (p : IndexPage) (key : Key)
    (page_num slot_num : Nat) (k0 k1 k2 k3 : Key) (r0 r1 r2 r3 : RecordID)
    (hload : load s a = .ok p) (hpar : p.parent = none) (hnum : p.num_entries = 4)
    (hes : p.entries = [some ⟨true, some k0, Data.rid r0⟩, some ⟨true, some k1, Data.rid r1⟩,
      some ⟨true, some k2, Data.rid r2⟩, some ⟨true, some k3, Data.rid r3⟩])
    (hl2 : k2.length = s.tree.key_size)
    (c0 : 0 ≤ memcmp key k0 s.tree.key_size) (c1 : 0 ≤ memcmp key k1 s.tree.key_size)
    (c2 : 0 ≤ memcmp key k2 s.tree.key_size) (c3 : 0 ≤ memcmp key k3 s.tree.key_size) :
    ∃ s1 ret, BalanceAndInsertLeafPageEntry s a key page_num slot_num = .ok (s1, ret) ∧
      s1.tree = { s.tree with
        page_counter := ((s.tree.page_counter + 1) % 2 ^ 64 + 1) % 2 ^ 64,
        root := some s.heap.length } ∧
      load s1 s.heap.length = .ok ⟨s.tree.page_counter, false, 8, 4, 2,
        [some ⟨true, some k2, Data.page a⟩,
         some ⟨true, some (key.take s.tree.key_size), Data.page (s.heap.length + 1)⟩,
         some zeroEntry, some zeroEntry], none⟩ ∧
      load s1 a = .ok { p with
        entries := [some ⟨true, some k0, Data.rid r0⟩, some ⟨true, some k1, Data.rid r1⟩,
          some ⟨true, some k2, Data.rid r2⟩, some ⟨true, some k3, Data.rid r3⟩],
        num_entries := 3, parent := some s.heap.length } ∧
      load s1 (s.heap.length + 1) = .ok ⟨(s.tree.page_counter + 1) % 2 ^ 64, true, 8, 4, 2,
        [some ⟨true, some k3, Data.rid r3⟩,
         some ⟨true, some (key.take s.tree.key_size), Data.rid ⟨page_num, slot_num⟩⟩,
         none, some zeroEntry], some s.heap.length⟩ := by
  have hcands := build_candidates_run s.tree.key_size p key ⟨page_num, slot_num⟩ _ _ _ _
    k0 k1 k2 k3 hnum hes rfl rfl rfl rfl c0 c1 c2 c3
  obtain ⟨sA, lpe, hlink⟩ := link_root_run s a p _ _ _ _ k3 hload hpar hnum hes rfl
  obtain ⟨hlpe, hAt, hAl, hAa, hAn⟩ :=
    link_root_root s a p _ _ _ _ k3 sA lpe hload hpar hnum hes rfl hlink
  subst hlpe
  have ha := load_lt hload
  have hne : a ≠ s.heap.length := by omega
  have hAk : sA.tree.key_size = s.tree.key_size := by rw [hAt]
  obtain ⟨sB, hlow⟩ := split_low_run sA a s.heap.length _ _
    (some ⟨true, some k0, Data.rid r0⟩) (some ⟨true, some k1, Data.rid r1⟩)
    (some ⟨true, some k2, Data.rid r2⟩) (some ⟨true, some k3, Data.rid r3⟩)
    (some ⟨true, some k0, Data.rid r0⟩) (some ⟨true, some k1, Data.rid r1⟩)
    (some ⟨true, some k3, Data.rid r3⟩)
    (some ⟨true, some (key.take s.tree.key_size), Data.rid ⟨page_num, slot_num⟩⟩)
    ⟨true, some k2, Data.rid r2⟩ _ k2 _ _ _ _ hAa hAn hne hes rfl rfl rfl
  obtain ⟨hBt, hBl, hBa, hBn⟩ :=
    split_low_root sA a s.heap.length _ _ _ _ _ _ _ _ _ _ _ _ k2 _ _ _ _ sB hAa hAn hne hes rfl
      rfl rfl hlow
  have hBk : sB.tree.key_size = s.tree.key_size := by rw [hBt, hAk]
  have ht2 : List.take s.tree.key_size k2 = k2 := List.take_of_length_le (by omega)
  rw [hAk, ht2] at hBn
  have hcmp : 0 ≤ memcmp (List.take s.tree.key_size key) k2 sB.tree.key_size := by
    rw [hBk, memcmp_take_left]
    exact c2
  obtain ⟨s1, np, hhigh⟩ := split_high_run sB a s.heap.length _
    (some ⟨true, some k0, Data.rid r0⟩) (some ⟨true, some k1, Data.rid r1⟩)
    (some ⟨true, some k2, Data.rid r2⟩) (some ⟨true, some k3, Data.rid r3⟩)
    ⟨true, some (key.take s.tree.key_size), Data.rid ⟨page_num, slot_num⟩⟩ _ k2 _ _
    hBa hBn hne rfl rfl rfl hcmp
  obtain ⟨hnp, hCt, hCa, hCn, hCm⟩ :=
    split_high_root sB a s.heap.length _ _ _ _ _ _ _ k2 _ _ s1 np hBa hBn hne rfl rfl rfl hcmp
      hhigh
  rw [hBk] at hCn
  rw [hBl, hAl] at hCn hCm hnp
  have htt : List.take s.tree.key_size (List.take s.tree.key_size key)
      = List.take s.tree.key_size key := by simp [List.take_take]
  rw [htt] at hCn
  have hBpc : sB.tree.page_counter = (s.tree.page_counter + 1) % 2 ^ 64 := by rw [hBt, hAt]
  rw [hBpc] at hCm
  subst hnp
  obtain ⟨ret, hfind⟩ := find_inserted_run s1 a (s.heap.length + 1) key _ _ _ _ _ _ _ _ _ _
    k0 k1 k2 k3 (key.take s.tree.key_size) hCa hCm rfl rfl rfl rfl rfl rfl rfl rfl rfl
  refine ⟨s1, ret, ?_, ?_, hCn, hCa, hCm⟩
  · simp only [BalanceAndInsertLeafPageEntry, hload, hcands, hlink, hnum, hlow, hhigh, hfind]
  · rw [hCt, hBt, hAt]
theorem four_key_tree_eq :
    add_records (main_records.take 4) (idxt_Create 4096 4 State.init) = .ok four_key_tree := rfl

theorem slotAt_some_lt {es : List Slot} {i : Nat} {e : IndexPageEntry}
    (h : slotAt es i = some e) : i < es.length := by
  by_contra hn
  unfold slotAt at h
  rw [List.getD_eq_getElem?_getD, List.getElem?_eq_none (by omega)] at h
  cases h

theorem ProcessNonleafPage_loop_data (ks : Nat) (es : List Slot) (key : Key) :
    ∀ fuel i d, ProcessNonleafPage.loop ks es key i fuel = .ok d →
      d = Data.null ∨ ∃ j e, i ≤ j ∧ j < i + fuel ∧ slotAt es j = some e ∧ d = e.data := by
  intro fuel
  induction fuel with
  | zero =>
    intro i d h
    simp only [ProcessNonleafPage.loop, Except.ok.injEq] at h
    exact Or.inl h.symm
  | succ fuel ih =>
    intro i d h
    unfold ProcessNonleafPage.loop at h
    split at h
    · cases h
    · rename_i e he
      split at h
      · cases h
      · split_ifs at h with hc
        · simp only [Except.ok.injEq] at h
          exact Or.inr ⟨i, e, le_refl _, by omega, he, h.symm⟩
        · rcases ih (i + 1) d h with h0 | ⟨j, e2, h1, h2, h3, h4⟩
          · exact Or.inl h0
          · exact Or.inr ⟨j, e2, by omega, by omega, h3, h4⟩

theorem descend_RootOK (s : State) (key : Key) (r : Nat) (pr : IndexPage) (x : Nat)
    (hR : RootOK s r pr) (hd : descend s key s.heap.length r = .ok x) : LeafChild s r x := by
  obtain ⟨f, hf⟩ : ∃ f, s.heap.length = f + 1 := ⟨s.heap.length - 1, by
    have := load_lt hR.load_r
    omega⟩
  rw [hf] at hd
  simp only [descend, hR.load_r, hR.nonleaf, Bool.false_eq_true, if_false] at hd
  cases hP : ProcessNonleafPage s.tree pr key with
  | error e =>
    rw [hP] at hd
    cases hd
  | ok d =>
    rw [hP] at hd
    rcases ProcessNonleafPage_loop_data _ _ _ _ _ _ hP with h0 | ⟨j, e, -, hj, he, hde⟩
    · subst h0
      cases hd
    · obtain ⟨c, hc, hL⟩ := hR.child j e (by omega) he
      rw [hde, hc] at hd
      have hL2 := hL
      obtain ⟨-, pc, hload, hleaf, -⟩ := hL2
      simp only [descend_leaf s key f c pc hload hleaf, Except.ok.injEq] at hd
      rw [← hd]
      exact hL

theorem place_entry_shape (ks : Nat) (p : IndexPage) (isrt : Option Nat) (key : Option Key)
    (d : Data) (p1 : IndexPage) (idx : Nat)
    (h : place_entry ks p isrt key d = .ok (p1, idx)) :
    p1.is_leaf = p.is_leaf ∧ p1.parent = p.parent := by
  unfold place_entry at h
  split at h
  · cases h
  · split at h
    · cases h
    · split_ifs at h
      · split at h
        · cases h
        · simp only [Except.ok.injEq, Prod.mk.injEq] at h
          obtain ⟨h1, -⟩ := h
          subst h1
          exact ⟨rfl, rfl⟩
      · split at h
        · cases h
        · split at h
          · cases h
          · simp only [Except.ok.injEq, Prod.mk.injEq] at h
            obtain ⟨h1, -⟩ := h
            subst h1
            exact ⟨rfl, rfl⟩

theorem InsertLeafPageEntry_shape (t : IndexTree) (p : IndexPage) (key : Key)
    (page_num slot_num : Nat) (p1 : IndexPage) (idx : Nat)
    (h : InsertLeafPageEntry t p key page_num slot_num = .ok (p1, idx)) :
    p1.is_leaf = p.is_leaf ∧ p1.parent = p.parent := by
  unfold InsertLeafPageEntry at h
  split at h
  · cases h
  · exact place_entry_shape _ _ _ _ _ _ _ h

theorem LeafChild_store (s : State) (r x a : Nat) (p q : IndexPage) (hx : LeafChild s r x)
    (ha : load s a = .ok p) (hl : q.is_leaf = p.is_leaf) (hp : q.parent = p.parent) :
    LeafChild (store s a q) r x := by
  obtain ⟨hne, px, hload, hleaf, hpar⟩ := hx
  refine ⟨hne, ?_⟩
  by_cases hxa : x = a
  · subst hxa
    rw [ha] at hload
    simp only [Except.ok.injEq] at hload
    subst hload
    exact ⟨q, by rw [load_store, if_pos rfl, if_pos (load_lt ha)], by rw [hl]; exact hleaf,
      by rw [hp]; exact hpar⟩
  · exact ⟨px, by rw [load_store, if_neg hxa]; exact hload, hleaf, hpar⟩

theorem RootOK_store_other (s : State) (r : Nat) (pr : IndexPage) (a : Nat) (p q : IndexPage)
    (hR : RootOK s r pr) (hne : a ≠ r) (ha : load s a = .ok p) (hl : q.is_leaf = p.is_leaf)
    (hp : q.parent = p.parent) : RootOK (store s a q) r pr := by
  have hra : r ≠ a := fun e => hne e.symm
  refine ⟨hR.root, by rw [load_store, if_neg hra]; exact hR.load_r, hR.nonleaf, hR.cap, hR.len,
    hR.num, hR.used, ?_⟩
  intro i e hi he
  obtain ⟨c, hc, hL⟩ := hR.child i e hi he
  exact ⟨c, hc, LeafChild_store s r c a p q hL ha hl hp⟩

theorem RootOK_store_key (s : State) (r : Nat) (pr : IndexPage) (li : Nat) (le : IndexPageEntry)
    (k : Key) (hR : RootOK s r pr) (hs : slotAt pr.entries li = some le) :
    RootOK (store s r { pr with entries := pr.entries.set li (some { le with key := some k }) }) r
      { pr with entries := pr.entries.set li (some { le with key := some k }) } := by
  have hli := slotAt_some_lt hs
  have hsl : ∀ j, slotAt (pr.entries.set li (some { le with key := some k })) j
      = if j = li then some { le with key := some k } else slotAt pr.entries j :=
    fun j => slotAt_set _ _ _ _ hli
  refine ⟨hR.root, by rw [load_store, if_pos rfl, if_pos (load_lt hR.load_r)], hR.nonleaf,
    hR.cap, by simp only [List.length_set]; exact hR.len, hR.num, ?_, ?_⟩
  · intro i hi
    obtain ⟨e, he, hu⟩ := hR.used i hi
    by_cases hil : i = li
    · subst hil
      rw [hs] at he
      simp only [Option.some.injEq] at he
      subst he
      exact ⟨{ le with key := some k }, by rw [hsl, if_pos rfl], hu⟩
    · exact ⟨e, by rw [hsl, if_neg hil]; exact he, hu⟩
  · intro i e hi he
    rw [hsl] at he
    have key : ∃ e0, slotAt pr.entries i = some e0 ∧ e.data = e0.data := by
      by_cases hil : i = li
      · subst hil
        rw [if_pos rfl] at he
        simp only [Option.some.injEq] at he
        exact ⟨le, hs, by rw [← he]⟩
      · rw [if_neg hil] at he
        exact ⟨e, he, rfl⟩
    obtain ⟨e0, he0, hd⟩ := key
    obtain ⟨c, hc, hL⟩ := hR.child i e0 hi he0
    exact ⟨c, by rw [hd]; exact hc,
      LeafChild_store s r c r pr _ hL hR.load_r rfl rfl⟩

theorem NoNewNonleaf_trans {s s1 s2 : State} (h1 : NoNewNonleaf s s1)
    (h2 : NoNewNonleaf s1 s2) : NoNewNonleaf s s2 := by
  intro a p hl hn
  obtain ⟨q, hq, hqn⟩ := h2 a p hl hn
  exact h1 a q hq hqn

theorem NoNewNonleaf_store (s : State) (a : Nat) (p q : IndexPage) (ha : load s a = .ok p)
    (hl : q.is_leaf = p.is_leaf) : NoNewNonleaf s (store s a q) := by
  intro b p1 hb hn
  rw [load_store] at hb
  by_cases hba : b = a
  · subst hba
    rw [if_pos rfl, if_pos (load_lt ha)] at hb
    simp only [Except.ok.injEq] at hb
    subst hb
    exact ⟨p, ha, by rw [← hl]; exact hn⟩
  · rw [if_neg hba] at hb
    exact ⟨p1, hb, hn⟩

theorem NoNewNonleaf_CreateEmptyPage (s : State) (par : Option Nat) :
    NoNewNonleaf s (CreateEmptyPage true par s).2 := by
  intro b p1 hb hn
  rw [load_CreateEmptyPage] at hb
  by_cases hbl : b = s.heap.length
  · rw [if_pos hbl] at hb
    simp only [Except.ok.injEq] at hb
    subst hb
    cases hn
  · rw [if_neg hbl] at hb
    exact ⟨p1, hb, hn⟩

theorem Balance_with_inv (g : Garbage) (s : State) (pa : Nat) (key : Key)
    (page_num slot_num : Nat) (s1 : State) (ret : Option (Nat × Nat))
    (h : BalanceAndInsertLeafPageEntry_with g s pa key page_num slot_num = .ok (s1, ret)) :
    ∃ page cands sA lpe v sB np, load s pa = .ok page ∧
      build_candidates s.tree.key_size page key ⟨page_num, slot_num⟩ = .ok cands ∧
      link_root s pa page = .ok (sA, lpe) ∧ local_value g sA lpe = .ok v ∧
      split_low sA pa page.num_entries cands (some v) = .ok sB ∧
      split_high_with g.past_candidates sB pa page.num_entries cands = .ok (s1, np) := by
  unfold BalanceAndInsertLeafPageEntry_with at h
  split at h
  · cases h
  rename_i page hpage
  split at h
  · cases h
  rename_i cands hcands
  split at h
  · cases h
  rename_i sA lpe hlink
  split at h
  · cases h
  rename_i v hv
  split at h
  · cases h
  rename_i sB hlow
  split at h
  · cases h
  rename_i sC np hhigh
  split at h
  · cases h
  simp only [Except.ok.injEq, Prod.mk.injEq] at h
  obtain ⟨h1, -⟩ := h
  subst h1
  exact ⟨page, cands, sA, lpe, v, sB, np, hpage, hcands, hlink, hv, hlow, hhigh⟩

theorem split_low_inv (s : State) (pa n : Nat) (cands : List Slot) (v : Option (Nat × Nat))
    (sB : State) (h : split_low s pa n cands (some v) = .ok sB) :
    ∃ page page1 la li lp le k, load s pa = .ok page ∧
      page1.is_leaf = page.is_leaf ∧ page1.parent = page.parent ∧
      load (store s pa page1) la = .ok lp ∧ slotAt lp.entries li = some le ∧
      sB = store (store s pa page1) la
        { lp with entries := lp.entries.set li (some { le with key := some k }) } := by
  unfold split_low at h
  cases hpage : load s pa with
  | error f => simp only [hpage, reduceCtorEq] at h
  | ok page =>
    simp only [hpage] at h
    cases hes1 : memset_slots page.entries (sub32 n 1) with
    | error f => simp only [hes1, reduceCtorEq] at h
    | ok es1 =>
      simp only [hes1] at h
      cases hes2 : memcpy_slots es1 0 cands 0 ((lowpage_range_end n + 1) % 2 ^ 32) with
      | error f => simp only [hes2, reduceCtorEq] at h
      | ok es2 =>
        simp only [hes2] at h
        split at h
        · cases h
        · cases h
        rename_i la li hlook
        split at h
        · cases h
        rename_i lp hlp
        split at h
        · rename_i le hi hle hhi
          split at h
          · simp only [Except.ok.injEq] at h
            exact ⟨page,
              { page with entries := es2, num_entries := (lowpage_range_end n + 1) % 2 ^ 32 },
              la, li, lp, le, _, rfl, rfl, rfl, hlp, hle, h.symm⟩
          · cases h
        · cases h

theorem InsertNonleafPageEntry_inv (s : State) (target source : Nat) (s1 : State) (pos : Nat)
    (h : InsertNonleafPageEntry s target source = .ok (s1, pos)) :
    ∃ src last tgt isrt tgt1 src1, load s source = .ok src ∧
      slotAt src.entries (sub32 src.num_entries 1) = some last ∧ load s target = .ok tgt ∧
      scan_isrt_pos s.tree.key_size last.key tgt.entries 0 tgt.max_entries = .ok isrt ∧
      place_entry s.tree.key_size tgt isrt last.key (Data.page source) = .ok (tgt1, pos) ∧
      load (store s target tgt1) source = .ok src1 ∧
      s1 = store (store s target tgt1) source { src1 with parent := some target } := by
  unfold InsertNonleafPageEntry at h
  split at h
  · cases h
  rename_i src hsrc
  split at h
  · cases h
  rename_i last hlast
  split at h
  · cases h
  rename_i tgt htgt
  split at h
  · cases h
  rename_i isrt hscan
  split at h
  · cases h
  rename_i tgt1 pos1 hplace
  simp only at h
  split at h
  · cases h
  rename_i src1 hsrc1
  simp only [Except.ok.injEq, Prod.mk.injEq] at h
  obtain ⟨h1, h2⟩ := h
  subst h2
  exact ⟨src, last, tgt, isrt, tgt1, src1, hsrc, hlast, htgt, hscan, hplace, hsrc1, h1.symm⟩

theorem split_high_with_inv (junk : Slot) (s : State) (pa n : Nat) (cands : List Slot)
    (s1 : State) (np : Nat) (h : split_high_with junk s pa n cands = .ok (s1, np)) :
    ∃ page new_page es parent pos, load s pa = .ok page ∧ page.parent = some parent ∧
      load (CreateEmptyPage true page.parent s).2 s.heap.length = .ok new_page ∧
      InsertNonleafPageEntry
        (store (CreateEmptyPage true page.parent s).2 s.heap.length
          { new_page with
            num_entries := sub32 (highpage_range_end n) (lowpage_range_end n),
            entries := es })
        parent s.heap.length = .ok (s1, pos) := by
  unfold split_high_with at h
  split at h
  · cases h
  rename_i page hpage
  simp only [CreateEmptyPage_fst] at h
  split at h
  · cases h
  rename_i new_page hnew
  split at h
  · cases h
  rename_i es hes
  split at h
  · cases h
  rename_i parent hpar
  split at h
  · cases h
  rename_i s2 pos hins
  simp only [Except.ok.injEq, Prod.mk.injEq] at h
  obtain ⟨h1, -⟩ := h
  subst h1
  exact ⟨page, new_page, es, parent, pos, hpage, hpar, hnew, hins⟩

theorem place_entry_key (ks : Nat) (p : IndexPage) (isrt : Option Nat) (key : Option Key)
    (d : Data) (r : IndexPage × Nat) (h : place_entry ks p isrt key d = .ok r) :
    ∃ pos k, isrt = some pos ∧ key = some k := by
  cases isrt with
  | none => simp only [place_entry, reduceCtorEq] at h
  | some pos =>
    cases key with
    | some k => exact ⟨pos, k, rfl, rfl⟩
    | none =>
      exfalso
      unfold place_entry at h
      simp only at h
      split at h
      · cases h
      · split_ifs at h
        split at h <;> cases h

theorem place_entry_room (ks : Nat) (p : IndexPage) (pos : Nat) (key : Option Key) (d : Data)
    (r : IndexPage × Nat) (h : place_entry ks p (some pos) key d = .ok r)
    (hpos : pos < p.entries.length) (hlen : p.entries.length < 2 ^ 32)
    (hused : ∀ i, i < p.entries.length →
      ∃ e, slotAt p.entries i = some e ∧ (e.in_use = true ↔ i < p.num_entries))
    (hnum : p.num_entries ≤ p.entries.length) : p.num_entries < p.entries.length := by
  by_contra hfull
  have hn : p.num_entries = p.entries.length := by omega
  obtain ⟨e, he, hu⟩ := hused pos hpos
  have hin : e.in_use = true := hu.mpr (by omega)
  have hcount : sub32 p.num_entries pos = p.num_entries - pos := by
    unfold sub32
    rw [if_pos (by omega)]
    exact Nat.mod_eq_of_lt (by omega)
  have hm : memcpy_slots p.entries (pos + 1) p.entries pos (p.num_entries - pos)
      = .error .out_of_bounds := by
    unfold memcpy_slots
    rw [if_neg (by omega), if_pos (by omega)]
  simp only [place_entry, he, hin, Bool.true_eq_false, if_false, hcount, hm, reduceCtorEq] at h

theorem RootOK_insert (s : State) (r : Nat) (pr : IndexPage) (m ks : Nat) (isrt : Option Nat)
    (key : Option Key) (tgt1 : IndexPage) (pos : Nat) (hR : RootOK s r pr)
    (hm : LeafChild s r m)
    (hscan : scan_isrt_pos ks key pr.entries 0 pr.max_entries = .ok isrt)
    (hplace : place_entry ks pr isrt key (Data.page m) = .ok (tgt1, pos)) :
    RootOK (store s r tgt1) r tgt1 := by
  obtain ⟨pos0, k, hi, hk⟩ := place_entry_key _ _ _ _ _ _ hplace
  subst hi hk
  obtain ⟨-, hlt, -, hbefore⟩ := scan_isrt_pos_some _ _ _ _ _ _ hscan
  rw [hR.cap] at hlt
  have hlen := hR.len
  have hnum4 := hR.num
  have hroom := place_entry_room ks pr pos0 (some k) _ _ hplace (by omega) (by omega)
    (by rw [hlen]; exact hR.used) (by omega)
  have hpos : pos0 ≤ pr.num_entries := by
    by_contra hgt
    obtain ⟨e1, -, -, he1, hin, -⟩ := hbefore pr.num_entries (Nat.zero_le _) (by omega)
    obtain ⟨e2, he2, hu⟩ := hR.used pr.num_entries (by omega)
    rw [he1] at he2
    simp only [Option.some.injEq] at he2
    subst he2
    have := hu.mp hin
    omega
  have hact : ∀ j, j < pr.num_entries →
      ∃ e, slotAt pr.entries j = some e ∧ e.in_use = true := by
    intro j hj
    obtain ⟨e, he, hu⟩ := hR.used j (by omega)
    exact ⟨e, he, hu.mpr hj⟩
  obtain ⟨-, hnum, hlen1, hleaf, hcap1, hpar, -, hsl⟩ :=
    place_entry_spec _ _ _ _ _ _ _ hplace hpos hroom (by omega) hact
  refine ⟨by rw [store_tree]; exact hR.root,
    by rw [load_store, if_pos rfl, if_pos (load_lt hR.load_r)], by rw [hleaf]; exact hR.nonleaf,
    by rw [hcap1]; exact hR.cap, by rw [hlen1]; exact hR.len, by omega, ?_, ?_⟩
  · intro i hi
    rw [hsl, hnum]
    by_cases h1 : i < pos0
    · rw [if_pos h1]
      obtain ⟨e, he, hu⟩ := hR.used i hi
      exact ⟨e, he, ⟨fun _ => by omega, fun _ => hu.mpr (by omega)⟩⟩
    · rw [if_neg h1]
      by_cases h2 : i = pos0
      · rw [if_pos h2]
        exact ⟨_, rfl, ⟨fun _ => by omega, fun _ => rfl⟩⟩
      · rw [if_neg h2]
        by_cases h3 : i ≤ pr.num_entries
        · rw [if_pos h3]
          obtain ⟨e, he, hu⟩ := hR.used (i - 1) (by omega)
          exact ⟨e, he, ⟨fun _ => by omega, fun _ => hu.mpr (by omega)⟩⟩
        · rw [if_neg h3]
          obtain ⟨e, he, hu⟩ := hR.used i hi
          exact ⟨e, he, ⟨fun h => by have := hu.mp h; omega, fun h => by omega⟩⟩
  · intro i e hi he
    rw [hnum] at hi
    rw [hsl] at he
    have hstore : ∀ c, LeafChild s r c → LeafChild (store s r tgt1) r c :=
      fun c hc => LeafChild_store s r c r pr tgt1 hc hR.load_r hleaf hpar
    by_cases h1 : i < pos0
    · rw [if_pos h1] at he
      obtain ⟨c, hc, hL⟩ := hR.child i e (by omega) he
      exact ⟨c, hc, hstore c hL⟩
    · rw [if_neg h1] at he
      by_cases h2 : i = pos0
      · rw [if_pos h2] at he
        simp only [Option.some.injEq] at he
        subst he
        exact ⟨m, rfl, hstore m hm⟩
      · rw [if_neg h2, if_pos (by omega)] at he
        obtain ⟨c, hc, hL⟩ := hR.child (i - 1) e (by omega) he
        exact ⟨c, hc, hstore c hL⟩

theorem RootOK_split_low (s : State) (r : Nat) (pr : IndexPage) (x n : Nat) (cands : List Slot)
    (v : Option (Nat × Nat)) (sB : State) (hR : RootOK s r pr) (hx : LeafChild s r x)
    (h : split_low s x n cands (some v) = .ok sB) :
    (∃ pr1, RootOK sB r pr1) ∧ LeafChild sB r x ∧ NoNewNonleaf s sB := by
  obtain ⟨page, page1, la, li, lp, le, k, hpage, hl1, hp1, hlp, hle, hsB⟩ :=
    split_low_inv _ _ _ _ _ _ h
  subst hsB
  have hR1 : RootOK (store s x page1) r pr :=
    RootOK_store_other s r pr x page page1 hR hx.1 hpage hl1 hp1
  have hx1 : LeafChild (store s x page1) r x := LeafChild_store s r x x page page1 hx hpage hl1 hp1
  have hN1 := NoNewNonleaf_store s x page page1 hpage hl1
  have hN2 := NoNewNonleaf_store (store s x page1) la lp
    { lp with entries := lp.entries.set li (some { le with key := some k }) } hlp rfl
  refine ⟨?_, LeafChild_store _ r x la lp _ hx1 hlp rfl rfl, NoNewNonleaf_trans hN1 hN2⟩
  by_cases hla : la = r
  · subst hla
    have hlp2 := hlp
    rw [hR1.load_r] at hlp2
    simp only [Except.ok.injEq] at hlp2
    subst hlp2
    exact ⟨_, RootOK_store_key _ la pr li le k hR1 hle⟩
  · exact ⟨pr, RootOK_store_other _ r pr la lp _ hR1 hla hlp rfl rfl⟩

theorem LeafChild_CreateEmptyPage (s : State) (r x : Nat) (l : Bool) (par : Option Nat)
    (hx : LeafChild s r x) : LeafChild (CreateEmptyPage l par s).2 r x := by
  obtain ⟨hne, px, hload, hleaf, hpar⟩ := hx
  have hlt := load_lt hload
  exact ⟨hne, px, by rw [load_CreateEmptyPage, if_neg (by omega)]; exact hload, hleaf, hpar⟩

theorem RootOK_CreateEmptyPage (s : State) (r : Nat) (pr : IndexPage) (l : Bool)
    (par : Option Nat) (hR : RootOK s r pr) : RootOK (CreateEmptyPage l par s).2 r pr := by
  have hlt := load_lt hR.load_r
  refine ⟨hR.root, by rw [load_CreateEmptyPage, if_neg (by omega)]; exact hR.load_r, hR.nonleaf,
    hR.cap, hR.len, hR.num, hR.used, ?_⟩
  intro i e hi he
  obtain ⟨c, hc, hL⟩ := hR.child i e hi he
  exact ⟨c, hc, LeafChild_CreateEmptyPage s r c l par hL⟩

theorem RootOK_split_high (junk : Slot) (s : State) (r : Nat) (pr : IndexPage) (x n : Nat)
    (cands : List Slot) (s1 : State) (np : Nat) (hR : RootOK s r pr) (hx : LeafChild s r x)
    (h : split_high_with junk s x n cands = .ok (s1, np)) :
    (∃ pr1, RootOK s1 r pr1) ∧ NoNewNonleaf s s1 := by
  obtain ⟨page, new_page, es, parent, pos, hpage, hpar, hnew, hins⟩ :=
    split_high_with_inv _ _ _ _ _ _ _ h
  obtain ⟨hxr, px, hpx, -, hppar⟩ := hx
  rw [hpage] at hpx
  simp only [Except.ok.injEq] at hpx
  subst hpx
  rw [hppar] at hpar
  simp only [Option.some.injEq] at hpar
  subst hpar
  have hrlt := load_lt hR.load_r
  have hmr : s.heap.length ≠ r := by omega
  have hnew2 := hnew
  rw [load_CreateEmptyPage, if_pos rfl] at hnew2
  simp only [Except.ok.injEq] at hnew2
  have hnl : new_page.is_leaf = true := by rw [← hnew2]
  have hnp : new_page.parent = some r := by rw [← hnew2, hppar]
  obtain ⟨q, hq⟩ : ∃ q : IndexPage, q = { new_page with
      num_entries := sub32 (highpage_range_end n) (lowpage_range_end n), entries := es } :=
    ⟨_, rfl⟩
  rw [← hq] at hins
  have hql : q.is_leaf = new_page.is_leaf := by rw [hq]
  have hqp : q.parent = new_page.parent := by rw [hq]
  obtain ⟨sC, hsC⟩ : ∃ sC : State, sC = (CreateEmptyPage true page.parent s).2 := ⟨_, rfl⟩
  have hRC : RootOK sC r pr := by
    rw [hsC]
    exact RootOK_CreateEmptyPage s r pr true page.parent hR
  have hNC : NoNewNonleaf s sC := by
    rw [hsC]
    exact NoNewNonleaf_CreateEmptyPage s page.parent
  have hclt : s.heap.length < sC.heap.length := by
    rw [hsC, CreateEmptyPage_length]
    omega
  rw [← hsC] at hins hnew
  have hR3 := RootOK_store_other sC r pr s.heap.length new_page q hRC hmr hnew hql hqp
  have hN3 := NoNewNonleaf_store sC s.heap.length new_page q hnew hql
  have hm3 : LeafChild (store sC s.heap.length q) r s.heap.length :=
    ⟨hmr, q, by rw [load_store, if_pos rfl, if_pos hclt], by rw [hql]; exact hnl,
      by rw [hqp]; exact hnp⟩
  obtain ⟨src, last, tgt, isrt, tgt1, src1, -, -, htgt, hscan, hplace, hsrc1, hs1⟩ :=
    InsertNonleafPageEntry_inv _ _ _ _ _ hins
  rw [hR3.load_r] at htgt
  simp only [Except.ok.injEq] at htgt
  subst htgt
  have hR4 := RootOK_insert _ r pr s.heap.length _ isrt last.key tgt1 pos hR3 hm3 hscan hplace
  obtain ⟨hl4, hp4⟩ := place_entry_shape _ _ _ _ _ _ _ hplace
  have hN4 := NoNewNonleaf_store (store sC s.heap.length q) r pr tgt1 hR3.load_r hl4
  have hm4 := LeafChild_store _ r s.heap.length r pr tgt1 hm3 hR3.load_r hl4 hp4
  obtain ⟨-, pm, hpm, -, hpmpar⟩ := hm4
  rw [hsrc1] at hpm
  simp only [Except.ok.injEq] at hpm
  subst hpm
  have hR5 := RootOK_store_other _ r tgt1 s.heap.length src1 { src1 with parent := some r }
    hR4 hmr hsrc1 rfl hpmpar.symm
  have hN5 := NoNewNonleaf_store (store (store sC s.heap.length q) r tgt1) s.heap.length src1
    { src1 with parent := some r } hsrc1 rfl
  subst hs1
  exact ⟨⟨tgt1, hR5⟩,
    NoNewNonleaf_trans hNC (NoNewNonleaf_trans hN3 (NoNewNonleaf_trans hN4 hN5))⟩

theorem Balance_with_RootOK (g : Garbage) (s : State) (r : Nat) (pr : IndexPage) (x : Nat)
    (key : Key) (page_num slot_num : Nat) (s1 : State) (ret : Option (Nat × Nat))
    (hR : RootOK s r pr) (hx : LeafChild s r x)
    (h : BalanceAndInsertLeafPageEntry_with g s x key page_num slot_num = .ok (s1, ret)) :
    (∃ pr1, RootOK s1 r pr1) ∧ NoNewNonleaf s s1 := by
  obtain ⟨page, cands, sA, lpe, v, sB, np, hpage, -, hlink, -, hlow, hhigh⟩ :=
    Balance_with_inv _ _ _ _ _ _ _ _ h
  have hx2 := hx
  obtain ⟨-, px, hpx, -, hppar⟩ := hx2
  rw [hpage] at hpx
  simp only [Except.ok.injEq] at hpx
  subst hpx
  simp only [link_root, hppar, Except.ok.injEq, Prod.mk.injEq] at hlink
  obtain ⟨hsA, -⟩ := hlink
  subst hsA
  obtain ⟨⟨prB, hRB⟩, hxB, hNB⟩ := RootOK_split_low s r pr x _ _ v sB hR hx hlow
  obtain ⟨hR1, hN1⟩ := RootOK_split_high _ sB r prB x _ _ s1 np hRB hxB hhigh
  exact ⟨hR1, NoNewNonleaf_trans hNB hN1⟩

theorem AddRecord_with_RootOK (g : Garbage) (s : State) (key : Key) (page_num slot_num : Nat)
    (b : Bool) (s1 : State) (r : Nat) (pr : IndexPage) (hR : RootOK s r pr)
    (h : idxt_AddRecord_with g key page_num slot_num s = .ok (b, s1)) :
    (∃ pr1, RootOK s1 r pr1) ∧ NoNewNonleaf s s1 := by
  cases hd : descend s key s.heap.length r with
  | error f =>
    simp only [idxt_AddRecord_with, hR.root, hd, reduceCtorEq] at h
  | ok x =>
    have hx := descend_RootOK s key r pr x hR hd
    have hx2 := hx
    obtain ⟨hxr, px, hpx, hleaf, hpar⟩ := hx2
    simp only [idxt_AddRecord_with, hR.root, hd, hpx] at h
    by_cases hroom : px.num_entries < px.max_entries
    · rw [if_pos hroom] at h
      cases hI : InsertLeafPageEntry s.tree px key page_num slot_num with
      | error f =>
        rw [hI] at h
        simp only [reduceCtorEq] at h
      | ok res =>
        obtain ⟨p1, idx⟩ := res
        rw [hI] at h
        simp only [Except.ok.injEq, Prod.mk.injEq] at h
        obtain ⟨hl1, hp1⟩ := InsertLeafPageEntry_shape _ _ _ _ _ _ _ hI
        rw [← h.2]
        exact ⟨⟨pr, RootOK_store_other s r pr x px p1 hR hxr hpx hl1 hp1⟩,
          NoNewNonleaf_store s x px p1 hpx hl1⟩
    · rw [if_neg hroom] at h
      cases hB : BalanceAndInsertLeafPageEntry_with g s x key page_num slot_num with
      | error f =>
        rw [hB] at h
        simp only [reduceCtorEq] at h
      | ok res =>
        obtain ⟨s2, ret⟩ := res
        rw [hB] at h
        simp only [Except.ok.injEq, Prod.mk.injEq] at h
        rw [← h.2]
        exact Balance_with_RootOK g s r pr x key page_num slot_num s2 ret hR hx hB

theorem memcpy_high_with (c0 c1 c2 c3 c4 junk : Slot) :
    memcpy_slots (List.replicate 4 (some zeroEntry)) 0 ([c0, c1, c2, c3, c4] ++ [junk]) 3 3
      = .ok [c3, c4, junk, some zeroEntry] := rfl

theorem split_high_with_root (junk : Slot) (sB : State) (a n : Nat) (P : IndexPage)
    (c0 c1 c2 c3 : Slot) (e4 : IndexPageEntry) (k4 b : Key) (d : Data) (pc : Nat) (sC : State)
    (np : Nat) (hP : load sB a = .ok P)
    (hR : load sB n = .ok ⟨pc, false, 8, 4, 1,
      [some ⟨true, some b, d⟩, some zeroEntry, some zeroEntry, some zeroEntry], none⟩)
    (hne : a ≠ n) (hPn : P.num_entries = 3) (hPp : P.parent = some n)
    (he4 : e4.key = some k4) (hcmp : 0 ≤ memcmp k4 b sB.tree.key_size)
    (h : split_high_with junk sB a 4 [c0, c1, c2, c3, some e4] = .ok (sC, np)) :
    sC.tree = { sB.tree with page_counter := (sB.tree.page_counter + 1) % 2 ^ 64 } ∧
    load sC a = .ok P ∧
    load sC n = .ok ⟨pc, false, 8, 4, 2,
      [some ⟨true, some b, d⟩,
       some ⟨true, some (k4.take sB.tree.key_size), Data.page sB.heap.length⟩,
       some zeroEntry, some zeroEntry], none⟩ ∧
    load sC sB.heap.length = .ok ⟨sB.tree.page_counter, true, 8, 4, 2,
      [c3, some e4, junk, some zeroEntry], some n⟩ := by
  have ha := load_lt hP
  have hn := load_lt hR
  have hne2 : n ≠ a := fun e => hne e.symm
  have hm1 : a ≠ sB.heap.length := by omega
  have hm2 : sB.heap.length ≠ a := by omega
  have hm3 : n ≠ sB.heap.length := by omega
  have hm4 : sB.heap.length ≠ n := by omega
  have ha1 : a < sB.heap.length + 1 := by omega
  have hn1 : n < sB.heap.length + 1 := by omega
  have h3 : lowpage_range_end 4 + 1 = 3 := rfl
  have hsc := scan_second sB.tree.key_size k4 b d hcmp
  simp only [split_high_with, hP, hPp, hPn, CreateEmptyPage_fst, load_CreateEmptyPage, if_true,
    if_false, h3, memcpy_high_with, sub32_high_low_four, InsertNonleafPageEntry, load_store,
    CreateEmptyPage_length, Nat.lt_succ_self, sub32_two_one, slotAt_cons_one, hm1, hm2, hm3,
    hm4, hR, store_tree, CreateEmptyPage_tree, he4, hsc, place_second, store_length, hn1,
    Nat.lt_add_one, Except.ok.injEq, Prod.mk.injEq] at h
  obtain ⟨h1, h2⟩ := h
  subst h1 h2
  refine ⟨rfl, ?_, ?_, ?_⟩
  · simp only [load_store, load_CreateEmptyPage, hm1, hm2, hm3, hm4, hne, hne2, if_true,
      if_false, store_length, CreateEmptyPage_length, hP]
  · simp only [load_store, load_CreateEmptyPage, hm1, hm2, hm3, hm4, hne, hne2, if_true,
      if_false, store_length, CreateEmptyPage_length, hn1]
  · simp only [load_store, load_CreateEmptyPage, hm1, hm2, hm3, hm4, hne, hne2, if_true,
      if_false, store_length, CreateEmptyPage_length, Nat.lt_add_one]

theorem Balance_with_root (g : Garbage) (s : State) (a : Nat) (p : IndexPage) (key : Key)
    (page_num slot_num : Nat) (s1 : State) (ret : Option (Nat × Nat))
    (hload : load s a = .ok p) (hok : LeafOK s.tree.key_size p) (hpar : p.parent = none)
    (hfull : ¬ p.num_entries < p.max_entries)
    (h : BalanceAndInsertLeafPageEntry_with g s a key page_num slot_num = .ok (s1, ret)) :
    ∃ pr, RootOK s1 s.heap.length pr := by
  obtain ⟨hnum, k0, r0, k1, r1, k2, r2, k3, r3, hes, -, -, -, -, -, -, -⟩ :=
    full_leaf_entries hok hfull
  obtain ⟨page, cands, sA, lpe, v, sB, np, hpage, hcands, hlink, hv, hlow, hhigh⟩ :=
    Balance_with_inv _ _ _ _ _ _ _ _ h
  rw [hload] at hpage
  simp only [Except.ok.injEq] at hpage
  subst hpage
  obtain ⟨hcand, -, -, c2, -⟩ :=
    build_candidates_full _ _ _ _ _ _ _ _ k0 k1 k2 k3 _ hnum hes rfl rfl rfl rfl hcands
  subst hcand
  obtain ⟨hlpe, hAt, hAl, hAa, hAn⟩ :=
    link_root_root s a p _ _ _ _ k3 sA lpe hload hpar hnum hes rfl hlink
  subst hlpe
  rw [hnum] at hlow hhigh
  simp only [local_value, Except.ok.injEq] at hv
  subst hv
  have ha := load_lt hload
  have hne : a ≠ s.heap.length := by omega
  have hAk : sA.tree.key_size = s.tree.key_size := by rw [hAt]
  obtain ⟨hBt, hBl, hBa, hBn⟩ :=
    split_low_root sA a s.heap.length _ _ _ _ _ _ _ _ _ _ _ _ k2 _ _ _ _ sB hAa hAn hne hes rfl
      rfl rfl hlow
  have hBk : sB.tree.key_size = s.tree.key_size := by rw [hBt, hAk]
  have hcmp : 0 ≤ memcmp (List.take s.tree.key_size key) (List.take sA.tree.key_size k2)
      sB.tree.key_size := by
    rw [hBk, hAk, memcmp_take_left, memcmp_take_right]
    exact c2
  obtain ⟨hCt, hCa, hCn, hCm⟩ :=
    split_high_with_root _ sB a s.heap.length _ _ _ _ _ _ _ _ _ _ s1 np hBa hBn hne rfl rfl rfl
      hcmp hhigh
  rw [hBl, hAl] at hCn hCm
  have hla : LeafChild s1 s.heap.length a :=
    ⟨hne, _, hCa, hok.leaf, rfl⟩
  have hlm : LeafChild s1 s.heap.length (s.heap.length + 1) :=
    ⟨by omega, _, hCm, rfl, rfl⟩
  refine ⟨_, ⟨by rw [hCt, hBt, hAt], hCn, rfl, rfl, rfl, by show 2 ≤ 4; omega, ?_, ?_⟩⟩
  · intro i hi
    have hz : ¬ zeroEntry.in_use = true := by decide
    interval_cases i
    · exact ⟨_, rfl, ⟨fun _ => by show 0 < 2; omega, fun _ => rfl⟩⟩
    · exact ⟨_, rfl, ⟨fun _ => by show 1 < 2; omega, fun _ => rfl⟩⟩
    · exact ⟨_, rfl, ⟨fun h => absurd h hz, fun h => absurd h (by show ¬ 2 < 2; omega)⟩⟩
    · exact ⟨_, rfl, ⟨fun h => absurd h hz, fun h => absurd h (by show ¬ 3 < 2; omega)⟩⟩
  · intro i e hi he
    have hi2 : i < 2 := hi
    interval_cases i
    · simp only [slotAt_cons_zero, Option.some.injEq] at he
      subst he
      exact ⟨a, rfl, hla⟩
    · simp only [slotAt_cons_one, Option.some.injEq] at he
      subst he
      exact ⟨s.heap.length + 1, rfl, hlm⟩

theorem AddRecord_with_PhaseA (g : Garbage) (s : State) (key : Key) (page_num slot_num : Nat)
    (b : Bool) (s1 : State) (a : Nat) (p : IndexPage) (hroot : s.tree.root = some a)
    (hload : load s a = .ok p) (hok : LeafOK s.tree.key_size p) (hpar : p.parent = none)
    (hk : s.tree.key_size ≤ key.length)
    (h : idxt_AddRecord_with g key page_num slot_num s = .ok (b, s1)) :
    (p.num_entries < p.max_entries ∧ s1.tree.root = some a ∧
        s1.heap.length = s.heap.length ∧ PhaseA s1) ∨
    (¬ p.num_entries < p.max_entries ∧ ∃ pr, RootOK s1 s.heap.length pr) := by
  have hdesc := descend_leaf s key s.heap.length a p hload hok.leaf
  simp only [idxt_AddRecord_with, hroot, hdesc, hload] at h
  by_cases hroom : p.num_entries < p.max_entries
  · left
    rw [if_pos hroom] at h
    cases hI : InsertLeafPageEntry s.tree p key page_num slot_num with
    | error f =>
      rw [hI] at h
      simp only [reduceCtorEq] at h
    | ok res =>
      obtain ⟨p1, idx⟩ := res
      rw [hI] at h
      simp only [Except.ok.injEq, Prod.mk.injEq] at h
      obtain ⟨hA, hB, -, -⟩ := InsertLeafPageEntry_LeafOK _ _ _ _ _ _ _ hok hroom hk hI
      rw [← h.2]
      refine ⟨hroom, hroot, store_length s a p1, a, p1, hroot, ?_, hA, by rw [hB, hpar]⟩
      rw [load_store, if_pos rfl, if_pos (load_lt hload)]
  · right
    rw [if_neg hroom] at h
    cases hB : BalanceAndInsertLeafPageEntry_with g s a key page_num slot_num with
    | error f =>
      rw [hB] at h
      simp only [reduceCtorEq] at h
    | ok res =>
      obtain ⟨s2, ret⟩ := res
      rw [hB] at h
      simp only [Except.ok.injEq, Prod.mk.injEq] at h
      rw [← h.2]
      exact ⟨hroom, Balance_with_root g s a p key page_num slot_num s2 ret hload hok hpar hroom hB⟩

theorem reachable_shape (s : State) (h : Reachable s) :
    PhaseA s ∨ ∃ r pr, RootOK s r pr := by
  induction h with
  | create page_size key_size s0 => exact Or.inl (PhaseA_create page_size key_size s0)
  | add s g key page_num slot_num b s1 _ hk hadd ih =>
    rcases ih with ⟨a, p, hroot, hload, hok, hpar⟩ | ⟨r, pr, hR⟩
    · rcases AddRecord_with_PhaseA g s key page_num slot_num b s1 a p hroot hload hok hpar hk
          hadd with ⟨-, -, -, hA⟩ | ⟨-, pr, hR⟩
      · exact Or.inl hA
      · exact Or.inr ⟨_, pr, hR⟩
    · obtain ⟨⟨pr1, hR1⟩, -⟩ := AddRecord_with_RootOK g s key page_num slot_num b s1 r pr hR hadd
      exact Or.inr ⟨r, pr1, hR1⟩

theorem InTree_RootOK (s : State) (r : Nat) (pr : IndexPage) (hR : RootOK s r pr) (x d : Nat)
    (ht : InTree s x d) : (x = r ∧ d = 0) ∨ (d = 1 ∧ LeafChild s r x) := by
  induction ht with
  | root y hy =>
    rw [hR.root] at hy
    exact Or.inl ⟨(Option.some.inj hy).symm, rfl⟩
  | child y d q i e c _ hq hnl hi he hc ih =>
    rcases ih with ⟨hy, hd⟩ | ⟨-, hL⟩
    · right
      rw [hy, hR.load_r] at hq
      simp only [Except.ok.injEq] at hq
      subst hq
      obtain ⟨c2, hc2, hL⟩ := hR.child i e hi he
      rw [hc] at hc2
      simp only [Data.page.injEq] at hc2
      subst hc2
      exact ⟨by omega, hL⟩
    · exfalso
      obtain ⟨-, py, hpy, hleaf, -⟩ := hL
      rw [hq] at hpy
      simp only [Except.ok.injEq] at hpy
      subst hpy
      rw [hleaf] at hnl
      cases hnl

theorem slotAt_append_none (src : List Slot) (i : Nat) :
    slotAt (src ++ [none]) i = slotAt src i := by
  unfold slotAt
  simp only [List.getD_eq_getElem?_getD]
  by_cases h : i < src.length
  · rw [List.getElem?_append_left h]
  · rw [List.getElem?_append_right (by omega), List.getElem?_eq_none (l := src) (by omega)]
    by_cases h2 : i - src.length = 0
    · rw [h2]
      rfl
    · rw [List.getElem?_eq_none (by simp; omega)]

theorem memcpy_slots_append_none (dst : List Slot) (dpos : Nat) (src : List Slot)
    (spos count : Nat) :
    memcpy_slots dst dpos (src ++ [none]) spos count = memcpy_slots dst dpos src spos count := by
  unfold memcpy_slots
  simp only [slotAt_append_none]

theorem split_high_with_none (s : State) (pa n : Nat) (cands : List Slot) :
    split_high_with none s pa n cands = split_high s pa n cands := by
  unfold split_high_with split_high
  simp only [memcpy_slots_append_none]

theorem split_low_unassigned (s : State) (pa n : Nat) (cands : List Slot) (sB : State) :
    split_low s pa n cands none ≠ .ok sB := by
  intro h
  unfold split_low at h
  cases hpage : load s pa with
  | error f => simp only [hpage, reduceCtorEq] at h
  | ok page =>
    simp only [hpage] at h
    cases hes1 : memset_slots page.entries (sub32 n 1) with
    | error f => simp only [hes1, reduceCtorEq] at h
    | ok es1 =>
      simp only [hes1] at h
      cases hes2 : memcpy_slots es1 0 cands 0 ((lowpage_range_end n + 1) % 2 ^ 32) with
      | error f => simp only [hes2, reduceCtorEq] at h
      | ok es2 => simp only [hes2, reduceCtorEq] at h

theorem Balance_with_of_returns (v : Option (Nat × Nat)) (s : State) (pa : Nat) (key : Key)
    (page_num slot_num : Nat) (r : State × Option (Nat × Nat))
    (h : BalanceAndInsertLeafPageEntry s pa key page_num slot_num = .ok r) :
    BalanceAndInsertLeafPageEntry_with ⟨v, none⟩ s pa key page_num slot_num = .ok r := by
  unfold BalanceAndInsertLeafPageEntry at h
  unfold BalanceAndInsertLeafPageEntry_with
  cases hpage : load s pa with
  | error f => simp only [hpage, reduceCtorEq] at h
  | ok page =>
    simp only [hpage] at h ⊢
    cases hc : build_candidates s.tree.key_size page key ⟨page_num, slot_num⟩ with
    | error f => simp only [hc, reduceCtorEq] at h
    | ok cands =>
      simp only [hc] at h ⊢
      cases hl : link_root s pa page with
      | error f => simp only [hl, reduceCtorEq] at h
      | ok res =>
        obtain ⟨sA, lpe⟩ := res
        simp only [hl] at h ⊢
        cases lpe with
        | none =>
          exfalso
          cases hlow : split_low sA pa page.num_entries cands none with
          | error f => simp only [hlow, reduceCtorEq] at h
          | ok sB => exact split_low_unassigned _ _ _ _ _ hlow
        | some x =>
          simp only [local_value, split_high_with_none]
          exact h

theorem AddRecord_with_of_returns (v : Option (Nat × Nat)) (key : Key)
    (page_num slot_num : Nat) (s : State) (r : Bool × State)
    (h : idxt_AddRecord key page_num slot_num s = .ok r) :
    idxt_AddRecord_with ⟨v, none⟩ key page_num slot_num s = .ok r := by
  unfold idxt_AddRecord at h
  unfold idxt_AddRecord_with
  cases hroot : s.tree.root with
  | none => simp only [hroot, reduceCtorEq] at h
  | some root =>
    simp only [hroot] at h ⊢
    cases hd : descend s key s.heap.length root with
    | error f => simp only [hd, reduceCtorEq] at h
    | ok x =>
      simp only [hd] at h ⊢
      cases hp : load s x with
      | error f => simp only [hp, reduceCtorEq] at h
      | ok page =>
        simp only [hp] at h ⊢
        by_cases hroom : page.num_entries < page.max_entries
        · rw [if_pos hroom] at h ⊢
          exact h
        · rw [if_neg hroom] at h ⊢
          cases hB : BalanceAndInsertLeafPageEntry s x key page_num slot_num with
          | error f => simp only [hB, reduceCtorEq] at h
          | ok res =>
            rw [Balance_with_of_returns v s x key page_num slot_num res hB]
            rw [hB] at h
            exact h

theorem main_reachable : Reachable main_tree := by
  have h0 := Reachable.create 4096 4 State.init
  have h1 := Reachable.add _ ⟨none, none⟩ (key_of_u32 1) 2 3 true _ h0 (by decide) rfl
  have h2 := Reachable.add _ ⟨none, none⟩ (key_of_u32 2) 2 4 true _ h1 (by decide) rfl
  have h3 := Reachable.add _ ⟨none, none⟩ (key_of_u32 4) 2 5 true _ h2 (by decide) rfl
  have h4 := Reachable.add _ ⟨none, none⟩ (key_of_u32 3) 2 6 true _ h3 (by decide) rfl
  have h5 := Reachable.add _ ⟨none, none⟩ (key_of_u32 5) 2 7 true _ h4 (by decide) rfl
  exact h5

theorem left_full_reachable : Reachable left_full_tree :=
  Reachable.add main_tree ⟨none, none⟩ (key_of_u32 0) 2 8 true _ main_reachable (by decide) rfl

theorem three_leaf_reachable : Reachable three_leaf_tree := by
  have h0 := Reachable.create 4096 4 State.init
  have h1 := Reachable.add _ ⟨none, none⟩ (key_of_u32 3) 2 3 true _ h0 (by decide) rfl
  have h2 := Reachable.add _ ⟨none, none⟩ (key_of_u32 3) 2 4 true _ h1 (by decide) rfl
  have h3 := Reachable.add _ ⟨none, none⟩ (key_of_u32 3) 2 5 true _ h2 (by decide) rfl
  have h4 := Reachable.add _ ⟨none, none⟩ (key_of_u32 5) 2 6 true _ h3 (by decide) rfl
  have h5 := Reachable.add _ ⟨none, none⟩ (key_of_u32 5) 2 7 true _ h4 (by decide) rfl
  have h6 := Reachable.add _ ⟨none, none⟩ (key_of_u32 3) 2 8 true _ h5 (by decide) rfl
  have h7 := Reachable.add _ ⟨none, none⟩ (key_of_u32 3) 2 9 true _ h6 (by decide) rfl
  exact h7

theorem three_leaf_first : InTree three_leaf_tree 0 1 :=
  InTree.child 1 0 _ 0 _ 0 (InTree.root 1 rfl) rfl rfl (by decide) rfl rfl

theorem three_leaf_third : InTree three_leaf_tree 2 1 :=
  InTree.child 1 0 _ 2 _ 2 (InTree.root 1 rfl) rfl rfl (by decide) rfl rfl

theorem api_full_root_reachable : Reachable api_full_root_tree := by
  have h8 := Reachable.add _ ⟨none, none⟩ (key_of_u32 1) 2 10 true _ three_leaf_reachable
    (by decide) rfl
  have h9 := Reachable.add _ ⟨none, none⟩ (key_of_u32 3) 2 11 true _ h8 (by decide) rfl
  have h10 := Reachable.add _ ⟨none, none⟩ (key_of_u32 2) 2 12 true _ h9 (by decide) rfl
  exact h10

theorem right_full_reachable : Reachable right_full_tree := by
  have h6 := Reachable.add main_tree ⟨none, none⟩ (key_of_u32 4) 2 8 true _ main_reachable
    (by decide) rfl
  have h7 := Reachable.add _ ⟨none, none⟩ (key_of_u32 5) 2 9 true _ h6 (by decide) rfl
  exact h7

theorem inspected_garbage_slot_returns :
    ∃ s p, Reachable s ∧ load s 2 = .ok p ∧ p.num_entries = 3 ∧
      p.entries = [some ⟨true, some [4, 0, 0, 0], Data.rid ⟨2, 5⟩⟩,
        some ⟨true, some [5, 0, 0, 0], Data.rid ⟨2, 7⟩⟩,
        some ⟨true, some [5, 0, 0, 0], Data.rid ⟨2, 8⟩⟩, some zeroEntry] := by
  have h0 := Reachable.create 4096 4 State.init
  have h1 := Reachable.add _ ⟨none, none⟩ (key_of_u32 1) 2 3 true _ h0 (by decide) rfl
  have h2 := Reachable.add _ ⟨none, none⟩ (key_of_u32 2) 2 4 true _ h1 (by decide) rfl
  have h3 := Reachable.add _ ⟨none, none⟩ (key_of_u32 4) 2 5 true _ h2 (by decide) rfl
  have h4 := Reachable.add _ ⟨none, none⟩ (key_of_u32 3) 2 6 true _ h3 (by decide) rfl
  have h5 := Reachable.add _ ⟨none, some ⟨true, some [9, 9, 9, 9], Data.null⟩⟩ (key_of_u32 5)
    2 7 true _ h4 (by decide) rfl
  have h6 := Reachable.add _ ⟨none, none⟩ (key_of_u32 5) 2 8 true _ h5 (by decide) rfl
  exact ⟨_, _, h6, rfl, rfl, rfl⟩

/-! ## The driver scenario and the runs that do not return -/

/-- C1 (round trip), at the driver's five records followed by a sixth record
with the greater key 6 and locator (2, 8): the sixth `idxt_AddRecord` ends in
`exit(EXIT_FAILURE)`, so no tree holds key 6 and `idxt_FindRecord` cannot
return (2, 8) for it. -/
theorem round_trip_sixth_key_exits :
    add_records (main_records ++ [(key_of_u32 6, 2, 8)]) (idxt_Create 4096 4 State.init)
      = .error Fault.exit_failure := by
  rfl

/-- The witness of C1 and of scenario A: after the driver's five records,
`idxt_FindRecord` on key 3 returns the locator (2, 6). -/
theorem main_find_three :
    main_state.bind (idxt_FindRecord (key_of_u32 3)) = .ok (Data.rid ⟨2, 6⟩) := by
  rfl

/-- C2 (lookup of an absent key), at its own witness: after the driver's five
records, `idxt_FindRecord` on the absent key 9 does not return `NULL`; it
takes the `exit(EXIT_FAILURE)` branch of line 93. -/
theorem find_absent_nine_exits :
    main_state.bind (idxt_FindRecord (key_of_u32 9)) = .error Fault.exit_failure := by
  rfl

/-- C3 (order invariant), at the pairwise distinct keys 5, 4, 3, 2, 1: the
fifth `idxt_AddRecord` splits the full root with a key smaller than an
existing one and writes through the unassigned `candidates[isrt_pos].key`
(line 298); no tree holding the five keys results. -/
theorem descending_keys_fault :
    add_records [(key_of_u32 5, 2, 3), (key_of_u32 4, 2, 4), (key_of_u32 3, 2, 5),
        (key_of_u32 2, 2, 6), (key_of_u32 1, 2, 7)] (idxt_Create 4096 4 State.init)
      = .error Fault.indeterminate := by
  rfl

/-- C6 (insertion always reaches a leaf), after the driver's five records:
`idxt_AddRecord` with key 7, greater than every separator of the root, finds
no qualifying child and takes the `exit(EXIT_FAILURE)` branch of line 49. -/
theorem add_greater_key_exits :
    main_state.bind (idxt_AddRecord (key_of_u32 7) 2 9) = .error Fault.exit_failure := by
  rfl

/-- C7 (scenario B), at the pairwise distinct keys 1, 2, 4, 5, 3: the fifth
insertion does not produce the 3 / 2 split; it ends at line 298, in the
branch for a key smaller than an existing key. -/
theorem first_split_middle_key_faults :
    add_records [(key_of_u32 1, 2, 3), (key_of_u32 2, 2, 4), (key_of_u32 4, 2, 5),
        (key_of_u32 5, 2, 6), (key_of_u32 3, 2, 7)] (idxt_Create 4096 4 State.init)
      = .error Fault.indeterminate := by
  rfl

/-- C9 (tree creation): in any prior state `s0`, `idxt_Create page_size key_size`
stores both arguments, leaves `page_counter = 1`, and makes the root a fresh
leaf with `page_id = 0`, no parent, `num_entries = 0`, `max_entries = 4` and
four zeroed (unused, no key, no payload) entry slots. -/
theorem create_empty_tree (page_size key_size : Nat) (s0 : State) :
    (idxt_Create page_size key_size s0).tree.page_size = page_size ∧
    (idxt_Create page_size key_size s0).tree.key_size = key_size ∧
    (idxt_Create page_size key_size s0).tree.page_counter = 1 ∧
    ∃ a p, (idxt_Create page_size key_size s0).tree.root = some a ∧
      load (idxt_Create page_size key_size s0) a = .ok p ∧
      p.page_id = 0 ∧ p.is_leaf = true ∧ p.parent = none ∧ p.num_entries = 0 ∧
      p.max_entries = 4 ∧ p.entries.length = 4 ∧
      ∀ i, i < 4 → slotAt p.entries i = some ⟨false, none, Data.null⟩ := by
  refine ⟨rfl, rfl, rfl, s0.heap.length,
    ⟨0, true, 8, 4, 0, List.replicate 4 (some zeroEntry), none⟩, rfl, ?_, rfl, rfl, rfl, rfl,
    rfl, rfl, ?_⟩
  · simp [load, idxt_Create, CreateEmptyPage]
  · intro i hi
    interval_cases i <;> rfl

/-- C10 (contiguous active prefix), after the driver's five records: the
reused left page (address 0) has `num_entries = 3` while slot 3, outside the
prefix, still has `in_use = true` (the stale entry of key 4), and slot 2 of
the new right page (address 2, `num_entries = 2`) holds what line 334 copied
from beyond the end of `candidates`. -/
theorem split_leaves_stale_in_use :
    ∃ s p q, main_state = .ok s ∧ s.tree.root = some 1 ∧
      InTree s 0 1 ∧ load s 0 = .ok p ∧ p.num_entries = 3 ∧ p.max_entries = 4 ∧
      slotAt p.entries 3 = some ⟨true, some (key_of_u32 4), Data.rid ⟨2, 5⟩⟩ ∧
      InTree s 2 1 ∧ load s 2 = .ok q ∧ q.num_entries = 2 ∧ slotAt q.entries 2 = none := by
  refine ⟨_, _, _, rfl, rfl, ?_, rfl, rfl, rfl, rfl, ?_, rfl, rfl, rfl⟩
  · exact InTree.child 1 0 _ 0 _ 0 (InTree.root 1 rfl) rfl rfl (by decide) rfl rfl
  · exact InTree.child 1 0 _ 1 _ 2 (InTree.root 1 rfl) rfl rfl (by decide) rfl rfl

/-! ## The split procedure -/

/-- C11 (split candidate list), on the full leaf holding keys 1, 2, 4, 5 and
the new key 3, smaller than the existing keys 4 and 5: no candidate list is
built.  Lines 296-297 store the new buffers into `page->entries[isrt_pos]`,
and line 298 copies the key through `candidates[isrt_pos].key`, which nothing
has assigned. -/
theorem candidates_middle_key_faults :
    build_candidates 4 full_leaf_1245 (key_of_u32 3) ⟨2, 7⟩ = .error Fault.indeterminate := by
  rfl

/-- C12 (left separator after a split), on the tree of `main` extended by key
0, so that the left leaf (address 0, parent at address 1) is full, and the new
record (key 3, locator (2, 9)): `link_root` leaves `lower_page_entry`
unassigned because the page has a parent, and the run ends at the test of
line 326.  Were the local `NULL`, `GetNonleafPageEntry` would look in the
parent for the page's new highest key 2, find only the separators 3 and 5,
and return `NULL`, which line 328 dereferences. -/
theorem nonroot_split_loses_separator :
    main_state.bind (idxt_AddRecord (key_of_u32 0) 2 8) = .ok (true, left_full_tree) ∧
    idxt_AddRecord (key_of_u32 3) 2 9 left_full_tree = .error Fault.indeterminate ∧
    ∃ page cands, load left_full_tree 0 = .ok page ∧ page.parent = some 1 ∧
      build_candidates 4 page (key_of_u32 3) ⟨2, 9⟩ = .ok cands ∧
      link_root left_full_tree 0 page = .ok (left_full_tree, none) ∧
      split_low left_full_tree 0 4 cands none = .error Fault.indeterminate ∧
      split_low left_full_tree 0 4 cands (some none) = .error Fault.null_deref :=
  ⟨rfl, rfl, _, _, rfl, rfl, rfl, rfl, rfl, rfl⟩

/-- C13 (right page of a split): for every candidate array of `n = 5` slots,
line 334 copies `page->num_entries = 3` slots starting at index 3 into the new
page, so slot 2 of the new page receives what lies at candidate index 5, one
past the end of the array, instead of staying unused; in the tree built by
`main` the right page (address 2) has `num_entries = 2` and such a slot 2. -/
theorem right_page_copy_overreads (c0 c1 c2 c3 c4 : Slot) :
    memcpy_slots (List.replicate 4 (some zeroEntry)) 0 [c0, c1, c2, c3, c4]
        (lowpage_range_end 4 + 1) ((lowpage_range_end 4 + 1) % 2 ^ 32)
      = .ok [c3, c4, slotAt [c0, c1, c2, c3, c4] 5, some zeroEntry] ∧
    sub32 (highpage_range_end 4) (lowpage_range_end 4) = 2 ∧
    ∃ q, load main_tree 2 = .ok q ∧ q.is_leaf = true ∧ q.parent = some 1 ∧
      q.num_entries = 2 ∧ slotAt q.entries 2 ≠ some zeroEntry :=
  ⟨rfl, rfl, _, rfl, rfl, rfl, rfl, by decide⟩

/-- C14 (cascading overflow), on a non-leaf page that already holds
`max_entries = 4` separators 2, 4, 6, 8: `InsertNonleafPageEntry`, which line
336 calls without a capacity test, does not split the parent.  For a new leaf
with highest key 5 it shifts two entries to the right and writes slot 4,
beyond the array; for a new leaf with highest key 9 the scan finds no
position and `entries[-1]` is inspected. -/
theorem full_parent_not_split :
    InsertNonleafPageEntry full_parent_tree 0 5 = .error Fault.out_of_bounds ∧
    InsertNonleafPageEntry full_parent_tree 0 6 = .error Fault.indeterminate :=
  ⟨rfl, rfl⟩

/-- C15 (leaf search on an absent key): `ProcessLeafPage` starts with
`max = num_entries`, one past the last active entry, and lowers `max` in
unsigned arithmetic.  On the empty leaf of a new tree it reads the `NULL` key
of slot 0; on a leaf holding key 1 the search for 0 wraps `max` to
`2 ^ 32 - 1` and the search for 2 reads the unused slot 1; on a full leaf
holding 1, 2, 4, 5 the search for 9 reads slot 4, beyond the array. -/
theorem leaf_search_absent_key_faults :
    idxt_FindRecord (key_of_u32 3) (idxt_Create 4096 4 State.init) = .error Fault.null_deref ∧
    ProcessLeafPage ⟨0, 4, 4096, some 0⟩ (single_key_leaf 0 (key_of_u32 1) none) (key_of_u32 0)
      = .error Fault.indeterminate ∧
    ProcessLeafPage ⟨0, 4, 4096, some 0⟩ (single_key_leaf 0 (key_of_u32 1) none) (key_of_u32 2)
      = .error Fault.null_deref ∧
    ProcessLeafPage ⟨0, 4, 4096, some 0⟩ full_leaf_1245 (key_of_u32 9)
      = .error Fault.indeterminate :=
  ⟨rfl, rfl, rfl, rfl⟩

/-! ## Ordered insertion -/

/-- C17 (ordered insertion without split): for every page with a free slot
whose in-use slots are exactly `[0, num_entries)` with keys sorted ascending,
and every key of at least `key_size` bytes and locator,
`InsertLeafPageEntry` returns; the new page has `num_entries + 1` entries, its
in-use slots are exactly the new prefix and its keys are sorted; the returned
index `pos` holds the new key and locator, the slots before `pos` are
unchanged and hold keys not greater than the new key, and the old slots from
`pos` on hold keys greater than the new key and are moved one slot to the
right. -/
theorem insert_leaf_entry_ordered (t : IndexTree) (page : IndexPage) (key : Key)
    (page_num slot_num : Nat) (hp : PrefixOK t.key_size page)
    (hroom : page.num_entries < page.max_entries) (hk : t.key_size ≤ key.length) :
    ∃ pos p1, InsertLeafPageEntry t page key page_num slot_num = .ok (p1, pos) ∧
      p1.num_entries = page.num_entries + 1 ∧ PrefixOK t.key_size p1 ∧
      pos ≤ page.num_entries ∧
      slotAt p1.entries pos
        = some ⟨true, some (key.take t.key_size), Data.rid ⟨page_num, slot_num⟩⟩ ∧
      (∀ j, j < pos → slotAt p1.entries j = slotAt page.entries j) ∧
      (∀ j, pos < j → j ≤ page.num_entries →
        slotAt p1.entries j = slotAt page.entries (j - 1)) ∧
      (∀ j kj, j < pos → keyAt page.entries j = some kj → memcmp kj key t.key_size ≤ 0) ∧
      (∀ j kj, pos ≤ j → j < page.num_entries → keyAt page.entries j = some kj →
        memcmp key kj t.key_size < 0) := by
  obtain ⟨pos, p1, hscan, hpl, hpos, hp1, hnum, -, -, -, -, hsl, hle, hgt⟩ :=
    ordered_insert t.key_size page key (Data.rid ⟨page_num, slot_num⟩) hp hroom hk
  refine ⟨pos, p1, ?_, hnum, hp1, hpos, ?_, ?_, ?_, hle, hgt⟩
  · unfold InsertLeafPageEntry
    rw [hscan]
    exact hpl
  · rw [hsl, if_neg (Nat.lt_irrefl _), if_pos rfl]
  · intro j hj
    rw [hsl, if_pos hj]
  · intro j h1 h2
    rw [hsl, if_neg (by omega), if_neg (by omega), if_pos h2]

/-- Witness of C17: key 3 inserted into the leaf holding 1, 2, 4. -/
theorem insert_leaf_entry_ordered_witness :
    PrefixOK 4 leaf_124 ∧
    ∃ pos p1, InsertLeafPageEntry ⟨1, 4, 4096, some 0⟩ leaf_124 (key_of_u32 3) 2 6
        = .ok (p1, pos) ∧
      p1.num_entries = leaf_124.num_entries + 1 ∧ PrefixOK 4 p1 ∧
      pos ≤ leaf_124.num_entries ∧
      slotAt p1.entries pos
        = some ⟨true, some ((key_of_u32 3).take 4), Data.rid ⟨2, 6⟩⟩ ∧
      (∀ j, j < pos → slotAt p1.entries j = slotAt leaf_124.entries j) ∧
      (∀ j, pos < j → j ≤ leaf_124.num_entries →
        slotAt p1.entries j = slotAt leaf_124.entries (j - 1)) ∧
      (∀ j kj, j < pos → keyAt leaf_124.entries j = some kj →
        memcmp kj (key_of_u32 3) 4 ≤ 0) ∧
      (∀ j kj, pos ≤ j → j < leaf_124.num_entries → keyAt leaf_124.entries j = some kj →
        memcmp (key_of_u32 3) kj 4 < 0) :=
  ⟨leaf_124_wf,
    insert_leaf_entry_ordered ⟨1, 4, 4096, some 0⟩ leaf_124 (key_of_u32 3) 2 6 leaf_124_wf
      (by decide) (by decide)⟩

/-- C18 (separator insertion): for every target page with a free slot whose
in-use slots are exactly `[0, num_entries)` with keys sorted ascending, and
every other page `source` with at least one entry whose last active entry
holds a key of at least `key_size` bytes, `InsertNonleafPageEntry` returns
the index `pos` of a new entry of `target` whose key is the copy of that key
and whose payload is `source`; the other entries of `target` keep their key
and payload (those from `pos` on moved one slot to the right), `target` has
one more entry and stays sorted, `source.parent` is `target`, and no other
page changes. -/
theorem insert_separator (s : State) (target source : Nat) (tgt src : IndexPage)
    (last : IndexPageEntry) (k : Key)
    (htgt : load s target = .ok tgt) (hsrc : load s source = .ok src) (hne : target ≠ source)
    (hp : PrefixOK s.tree.key_size tgt) (hroom : tgt.num_entries < tgt.max_entries)
    (hn1 : 1 ≤ src.num_entries) (hn2 : src.num_entries < 2 ^ 32)
    (hlast : slotAt src.entries (src.num_entries - 1) = some last) (hkey : last.key = some k)
    (hk : s.tree.key_size ≤ k.length) :
    ∃ pos tgt1 s1, InsertNonleafPageEntry s target source = .ok (s1, pos) ∧
      load s1 target = .ok tgt1 ∧ load s1 source = .ok { src with parent := some target } ∧
      (∀ x, x ≠ target → x ≠ source → load s1 x = load s x) ∧ s1.tree = s.tree ∧
      tgt1.num_entries = tgt.num_entries + 1 ∧ PrefixOK s.tree.key_size tgt1 ∧
      pos ≤ tgt.num_entries ∧
      slotAt tgt1.entries pos
        = some ⟨true, some (k.take s.tree.key_size), Data.page source⟩ ∧
      (∀ j, j < pos → slotAt tgt1.entries j = slotAt tgt.entries j) ∧
      (∀ j, pos < j → j ≤ tgt.num_entries →
        slotAt tgt1.entries j = slotAt tgt.entries (j - 1)) := by
  obtain ⟨pos, p1, hscan, hpl, hpos, hp1, hnum, -, -, -, -, hsl, -, -⟩ :=
    ordered_insert s.tree.key_size tgt k (Data.page source) hp hroom hk
  have hsub : sub32 src.num_entries 1 = src.num_entries - 1 := by
    unfold sub32
    rw [if_pos hn1]
    exact Nat.mod_eq_of_lt (by omega)
  have hne2 : source ≠ target := fun e => hne e.symm
  have hs := load_lt hsrc
  have ht := load_lt htgt
  refine ⟨pos, p1, store (store s target p1) source { src with parent := some target }, ?_, ?_,
    ?_, ?_, rfl, hnum, hp1, hpos, ?_, ?_, ?_⟩
  · simp only [InsertNonleafPageEntry, hsrc, hsub, hlast, htgt, hkey, hscan, hpl, load_store,
      hne2, if_false]
  · rw [load_store, if_neg hne, load_store, if_pos rfl, if_pos ht]
  · rw [load_store, if_pos rfl, if_pos (by rw [store_length]; exact hs)]
  · intro x hx1 hx2
    rw [load_store, if_neg hx2, load_store, if_neg hx1]
  · rw [hsl, if_neg (Nat.lt_irrefl _), if_pos rfl]
  · intro j hj
    rw [hsl, if_pos hj]
  · intro j h1 h2
    rw [hsl, if_neg (by omega), if_neg (by omega), if_pos h2]

/-- Witness of C18: the leaf with highest key 5 inserted into a root holding
the separators 2 and 8. -/
theorem insert_separator_witness :
    PrefixOK 4 root_28 ∧
    ∃ pos tgt1 s1, InsertNonleafPageEntry two_separator_tree 0 3 = .ok (s1, pos) ∧
      load s1 0 = .ok tgt1 ∧
      load s1 3 = .ok { single_key_leaf 3 [5, 0, 0, 0] none with parent := some 0 } ∧
      (∀ x, x ≠ 0 → x ≠ 3 → load s1 x = load two_separator_tree x) ∧
      s1.tree = two_separator_tree.tree ∧
      tgt1.num_entries = root_28.num_entries + 1 ∧
      PrefixOK two_separator_tree.tree.key_size tgt1 ∧
      pos ≤ root_28.num_entries ∧
      slotAt tgt1.entries pos
        = some ⟨true, some (([5, 0, 0, 0] : Key).take two_separator_tree.tree.key_size),
            Data.page 3⟩ ∧
      (∀ j, j < pos → slotAt tgt1.entries j = slotAt root_28.entries j) ∧
      (∀ j, pos < j → j ≤ root_28.num_entries →
        slotAt tgt1.entries j = slotAt root_28.entries (j - 1)) :=
  ⟨root_28_wf,
    insert_separator two_separator_tree 0 3 root_28 (single_key_leaf 3 [5, 0, 0, 0] none)
      ⟨true, some [5, 0, 0, 0], Data.rid ⟨2, 3⟩⟩ [5, 0, 0, 0] rfl rfl (by decide)
      root_28_wf (by decide) (by decide) (by decide) rfl rfl (by decide)⟩

/-! ## Split sizes -/

/-- C19 (left-biased split sizes): for every `num_entries` from 1 up to the
largest value that the `int` locals `lowpage_range_end` and
`highpage_range_end` hold exactly, with `n = num_entries + 1`, the left
page's `num_entries` is `lowpage_range_end + 1 = ceil(n / 2)` and the right
page's `num_entries` is `highpage_range_end - lowpage_range_end
= floor(n / 2)`; the two sizes sum to `n`, the left size is at least the
right size and exceeds it by at most 1, and both are at least 1. -/
theorem split_sizes_left_biased (num_entries : Nat) (h1 : 1 ≤ num_entries)
    (h2 : num_entries < 2 ^ 31) :
    (lowpage_range_end num_entries + 1) % 2 ^ 32 = (num_entries + 1 + 1) / 2 ∧
    sub32 (highpage_range_end num_entries) (lowpage_range_end num_entries)
      = (num_entries + 1) / 2 ∧
    (lowpage_range_end num_entries + 1) % 2 ^ 32
      + sub32 (highpage_range_end num_entries) (lowpage_range_end num_entries)
      = num_entries + 1 ∧
    sub32 (highpage_range_end num_entries) (lowpage_range_end num_entries)
      ≤ (lowpage_range_end num_entries + 1) % 2 ^ 32 ∧
    (lowpage_range_end num_entries + 1) % 2 ^ 32
      ≤ sub32 (highpage_range_end num_entries) (lowpage_range_end num_entries) + 1 ∧
    1 ≤ (lowpage_range_end num_entries + 1) % 2 ^ 32 ∧
    1 ≤ sub32 (highpage_range_end num_entries) (lowpage_range_end num_entries) := by
  have e1 : (num_entries + 1) % 2 ^ 32 = num_entries + 1 := Nat.mod_eq_of_lt (by omega)
  have hge : 1 ≤ (num_entries + 1) / 2 + (num_entries + 1) % 2 := by omega
  have e2 : lowpage_range_end num_entries
      = (num_entries + 1) / 2 + (num_entries + 1) % 2 - 1 := by
    unfold lowpage_range_end sub32
    rw [e1, if_pos hge]
    exact Nat.mod_eq_of_lt (by omega)
  have e3 : highpage_range_end num_entries
      = (num_entries + 1) / 2 + (num_entries + 1) % 2 - 1 + (num_entries + 1) / 2 := by
    unfold highpage_range_end
    rw [e2, e1]
    exact Nat.mod_eq_of_lt (by omega)
  have e4 : (lowpage_range_end num_entries + 1) % 2 ^ 32 = (num_entries + 1 + 1) / 2 := by
    rw [e2, Nat.mod_eq_of_lt (by omega)]
    omega
  have e5 : sub32 (highpage_range_end num_entries) (lowpage_range_end num_entries)
      = (num_entries + 1) / 2 := by
    unfold sub32
    rw [e3, e2, if_pos (by omega), Nat.mod_eq_of_lt (by omega)]
    omega
  rw [e4, e5]
  refine ⟨rfl, rfl, ?_, ?_, ?_, ?_, ?_⟩ <;> omega

/-- Witness of C19: the split of a full page of 4 entries. -/
theorem split_sizes_left_biased_witness :
    (lowpage_range_end 4 + 1) % 2 ^ 32 = (4 + 1 + 1) / 2 ∧
    sub32 (highpage_range_end 4) (lowpage_range_end 4) = (4 + 1) / 2 ∧
    (lowpage_range_end 4 + 1) % 2 ^ 32
      + sub32 (highpage_range_end 4) (lowpage_range_end 4) = 4 + 1 ∧
    sub32 (highpage_range_end 4) (lowpage_range_end 4)
      ≤ (lowpage_range_end 4 + 1) % 2 ^ 32 ∧
    (lowpage_range_end 4 + 1) % 2 ^ 32
      ≤ sub32 (highpage_range_end 4) (lowpage_range_end 4) + 1 ∧
    1 ≤ (lowpage_range_end 4 + 1) % 2 ^ 32 ∧
    1 ≤ sub32 (highpage_range_end 4) (lowpage_range_end 4) :=
  split_sizes_left_biased 4 (by decide) (by decide)

/-! ## The descent step -/

/-- C20 (descent step): for every page whose entries at indices below
`num_entries` hold a key and a child reference, and every search key,
`ProcessNonleafPage` returns; it returns the child of the lowest-indexed
entry `i < num_entries` whose key is not less than the search key (a key
equal to the search key qualifies), it returns `NULL` if and only if every
active entry's key is strictly less than the search key, and its result does
not depend on the slots at indices `num_entries` and above. -/
theorem descent_step (t : IndexTree) (page : IndexPage) (key : Key)
    (hact : ∀ i, i < page.num_entries →
      ∃ e k c, slotAt page.entries i = some e ∧ e.key = some k ∧ e.data = Data.page c) :
    (∃ d, ProcessNonleafPage t page key = .ok d) ∧
    (∀ i e k, i < page.num_entries → slotAt page.entries i = some e → e.key = some k →
      0 ≤ memcmp k key t.key_size →
      (∀ j kj, j < i → keyAt page.entries j = some kj → memcmp kj key t.key_size < 0) →
      ProcessNonleafPage t page key = .ok e.data) ∧
    (ProcessNonleafPage t page key = .ok Data.null ↔
      ∀ i k, i < page.num_entries → keyAt page.entries i = some k →
        memcmp k key t.key_size < 0) ∧
    (∀ es, (∀ j, j < page.num_entries → slotAt es j = slotAt page.entries j) →
      ProcessNonleafPage t { page with entries := es } key = ProcessNonleafPage t page key) := by
  have hkey : ∀ i e k, slotAt page.entries i = some e → e.key = some k →
      keyAt page.entries i = some k := by
    intro i e k h1 h2
    simp only [keyAt, h1, Option.some_bind, h2]
  have hfound : ∀ i e k, i < page.num_entries → slotAt page.entries i = some e →
      e.key = some k → 0 ≤ memcmp k key t.key_size →
      (∀ j kj, j < i → keyAt page.entries j = some kj → memcmp kj key t.key_size < 0) →
      ProcessNonleafPage t page key = .ok e.data := by
    intro i e k hi hs hk hge hlow
    refine ProcessNonleafPage_loop_found t.key_size page.entries key page.num_entries 0 i e k
      (Nat.zero_le i) (by omega) hs hk hge ?_
    intro j _ hj
    obtain ⟨ej, kj, _, hsj, hkj, _⟩ := hact j (by omega)
    exact ⟨ej, kj, hsj, hkj, hlow j kj hj (hkey j ej kj hsj hkj)⟩
  have hnone : (∀ i k, i < page.num_entries → keyAt page.entries i = some k →
      memcmp k key t.key_size < 0) → ProcessNonleafPage t page key = .ok Data.null := by
    intro hall
    refine ProcessNonleafPage_loop_none t.key_size page.entries key page.num_entries 0 ?_
    intro j _ hj
    obtain ⟨ej, kj, _, hsj, hkj, _⟩ := hact j (by omega)
    exact ⟨ej, kj, hsj, hkj, hall j kj (by omega) (hkey j ej kj hsj hkj)⟩
  have hcases : (∀ i k, i < page.num_entries → keyAt page.entries i = some k →
        memcmp k key t.key_size < 0) ∨
      ∃ i e k c, i < page.num_entries ∧ slotAt page.entries i = some e ∧ e.key = some k ∧
        e.data = Data.page c ∧ ProcessNonleafPage t page key = .ok e.data := by
    by_cases hall : ∀ i k, i < page.num_entries → keyAt page.entries i = some k →
        memcmp k key t.key_size < 0
    · exact Or.inl hall
    · right
      have hex : ∃ i, i < page.num_entries ∧
          ∃ k, keyAt page.entries i = some k ∧ 0 ≤ memcmp k key t.key_size := by
        by_contra hcon
        apply hall
        intro i k hi hk
        by_contra hlt
        exact hcon ⟨i, hi, k, hk, by omega⟩
      classical
      obtain ⟨hm, k, hk, hge⟩ := Nat.find_spec hex
      obtain ⟨e, k2, c, hs, hk2, hc⟩ := hact (Nat.find hex) hm
      have hkk : k2 = k := by
        have h := hkey _ e k2 hs hk2
        rw [hk] at h
        exact (Option.some.inj h).symm
      subst hkk
      refine ⟨Nat.find hex, e, k2, c, hm, hs, hk2, hc, hfound _ e k2 hm hs hk2 hge ?_⟩
      intro j kj hj hkj
      by_contra hlt
      exact Nat.find_min hex hj ⟨by omega, kj, hkj, by omega⟩
  refine ⟨?_, hfound, ⟨?_, hnone⟩, ?_⟩
  · rcases hcases with hall | ⟨i, e, k, c, _, _, _, _, hres⟩
    · exact ⟨_, hnone hall⟩
    · exact ⟨_, hres⟩
  · intro hnull
    rcases hcases with hall | ⟨i, e, k, c, _, _, _, hc, hres⟩
    · exact hall
    · rw [hres, hc] at hnull
      cases hnull
  · intro es hag
    exact ProcessNonleafPage_loop_congr t.key_size page.entries es key page.num_entries 0
      (fun j _ hj => hag j (by omega))

/-- Witness of C20: the search key 5 on a page holding the separators 2
and 8. -/
theorem descent_step_witness :
    (∀ i, i < root_28.num_entries →
      ∃ e k c, slotAt root_28.entries i = some e ∧ e.key = some k ∧ e.data = Data.page c) ∧
    ((∃ d, ProcessNonleafPage ⟨1, 4, 4096, some 0⟩ root_28 (key_of_u32 5) = .ok d) ∧
    (∀ i e k, i < root_28.num_entries → slotAt root_28.entries i = some e → e.key = some k →
      0 ≤ memcmp k (key_of_u32 5) 4 →
      (∀ j kj, j < i → keyAt root_28.entries j = some kj → memcmp kj (key_of_u32 5) 4 < 0) →
      ProcessNonleafPage ⟨1, 4, 4096, some 0⟩ root_28 (key_of_u32 5) = .ok e.data) ∧
    (ProcessNonleafPage ⟨1, 4, 4096, some 0⟩ root_28 (key_of_u32 5) = .ok Data.null ↔
      ∀ i k, i < root_28.num_entries → keyAt root_28.entries i = some k →
        memcmp k (key_of_u32 5) 4 < 0) ∧
    (∀ es, (∀ j, j < root_28.num_entries → slotAt es j = slotAt root_28.entries j) →
      ProcessNonleafPage ⟨1, 4, 4096, some 0⟩ { root_28 with entries := es } (key_of_u32 5)
        = ProcessNonleafPage ⟨1, 4, 4096, some 0⟩ root_28 (key_of_u32 5))) :=
  ⟨root_28_active, descent_step ⟨1, 4, 4096, some 0⟩ root_28 (key_of_u32 5) root_28_active⟩

/-! ## The leaf search -/

/-- C16 (leaf search on a present key): for every page of fewer than `2 ^ 31`
entries whose entries at indices below `num_entries` hold keys of at least
`key_size` bytes sorted ascending (duplicates allowed), and every search key
equal on `key_size` bytes to the key of some active entry, `ProcessLeafPage`
returns the locator of an active entry whose key equals the search key, and
returns the same locator whatever the slots at indices `num_entries` and
above hold. -/
theorem leaf_search_present_key (t : IndexTree) (page : IndexPage) (key : Key) (i0 : Nat)
    (k0 : Key) (hnum : page.num_entries < 2 ^ 31)
    (hact : ∀ i, i < page.num_entries →
      ∃ k, keyAt page.entries i = some k ∧ t.key_size ≤ k.length)
    (hsorted : ∀ i j ki kj, i < j → j < page.num_entries → keyAt page.entries i = some ki →
      keyAt page.entries j = some kj → memcmp ki kj t.key_size ≤ 0)
    (hi0 : i0 < page.num_entries) (hk0 : keyAt page.entries i0 = some k0)
    (heq : memcmp k0 key t.key_size = 0) :
    ∃ i e k, i < page.num_entries ∧ slotAt page.entries i = some e ∧ e.key = some k ∧
      memcmp k key t.key_size = 0 ∧ ProcessLeafPage t page key = .ok e.data ∧
      ∀ es, (∀ j, j < page.num_entries → slotAt es j = slotAt page.entries j) →
        ProcessLeafPage t { page with entries := es } key = .ok e.data := by
  obtain ⟨i, e, k, hi, hs, hk, hc, hr, -⟩ :=
    ProcessLeafPage_loop_found t.key_size page.entries page.entries key page.num_entries hnum
      (fun _ _ => rfl) hact hsorted i0 k0 hi0 hk0 heq (page.num_entries + 3) 0 page.num_entries
      (Nat.zero_le _) (Nat.le_of_lt hi0) (Nat.le_refl _) (by omega)
  refine ⟨i, e, k, hi, hs, hk, hc, hr, ?_⟩
  intro es hag
  obtain ⟨i2, e2, k2, -, -, -, -, hr1, hr2⟩ :=
    ProcessLeafPage_loop_found t.key_size page.entries es key page.num_entries hnum
      hag hact hsorted i0 k0 hi0 hk0 heq (page.num_entries + 3) 0 page.num_entries
      (Nat.zero_le _) (Nat.le_of_lt hi0) (Nat.le_refl _) (by omega)
  have hr3 : ProcessLeafPage.loop t.key_size page.entries key (page.num_entries + 3) 0
      page.num_entries = .ok e.data := hr
  rw [hr1] at hr3
  have hr4 : ProcessLeafPage t { page with entries := es } key = .ok e2.data := hr2
  rw [hr4]
  exact hr3

/-- Witness of C16: the search for key 2 in the leaf holding 1, 2, 4. -/
theorem leaf_search_present_key_witness :
    PrefixOK 4 leaf_124 ∧
    ∃ i e k, i < leaf_124.num_entries ∧ slotAt leaf_124.entries i = some e ∧ e.key = some k ∧
      memcmp k (key_of_u32 2) 4 = 0 ∧
      ProcessLeafPage ⟨1, 4, 4096, some 0⟩ leaf_124 (key_of_u32 2) = .ok e.data ∧
      ∀ es, (∀ j, j < leaf_124.num_entries → slotAt es j = slotAt leaf_124.entries j) →
        ProcessLeafPage ⟨1, 4, 4096, some 0⟩ { leaf_124 with entries := es } (key_of_u32 2)
          = .ok e.data :=
  ⟨leaf_124_wf,
    leaf_search_present_key ⟨1, 4, 4096, some 0⟩ leaf_124 (key_of_u32 2) 1 [2, 0, 0, 0]
      (by decide) leaf_124_wf.keys leaf_124_wf.sorted (by decide) rfl (by decide)⟩

/-! ## The split of the leaf root -/

/-- C21 (root split when the new key is the greatest): for a tree whose only
page is a full leaf root with page id 0 holding four `key_size`-byte keys
`k0 <= k1 <= k2 <= k3` (`page_counter = 1`), and a fifth key `k4 >= k3` of at
least `key_size` bytes, `idxt_AddRecord(k4)` returns true and leaves: a new
non-leaf root with page id 1 and exactly two active entries, `k2` over page 0
and `k4` over the new leaf, in that order; page 0 with `num_entries = 3` and
active keys `k0, k1, k2` with their locators; a new leaf with page id 2,
`num_entries = 2` and active keys `k3, k4` with their locators; both leaves'
parent is the new root; `page_counter = 3`.  The stored `k4` is the copy of
its first `key_size` bytes. -/
theorem root_split_greatest_key (s : State) (a : Nat) (k0 k1 k2 k3 k4 : Key)
    (r0 r1 r2 r3 : RecordID) (page_num slot_num : Nat)
    (hroot : s.tree.root = some a) (hpc : s.tree.page_counter = 1)
    (hload : load s a = .ok ⟨0, true, 8, 4, 4,
      [some ⟨true, some k0, Data.rid r0⟩, some ⟨true, some k1, Data.rid r1⟩,
       some ⟨true, some k2, Data.rid r2⟩, some ⟨true, some k3, Data.rid r3⟩], none⟩)
    (hl1 : k1.length = s.tree.key_size) (hl2 : k2.length = s.tree.key_size)
    (hl3 : k3.length = s.tree.key_size) (hl4 : s.tree.key_size ≤ k4.length)
    (h01 : memcmp k0 k1 s.tree.key_size ≤ 0) (h12 : memcmp k1 k2 s.tree.key_size ≤ 0)
    (h23 : memcmp k2 k3 s.tree.key_size ≤ 0) (h34 : memcmp k3 k4 s.tree.key_size ≤ 0) :
    (k4.take s.tree.key_size).length = s.tree.key_size ∧
    ∃ s1, idxt_AddRecord k4 page_num slot_num s = .ok (true, s1) ∧
      s1.tree.root = some s.heap.length ∧ s1.tree.page_counter = 3 ∧
      load s1 s.heap.length = .ok ⟨1, false, 8, 4, 2,
        [some ⟨true, some k2, Data.page a⟩,
         some ⟨true, some (k4.take s.tree.key_size), Data.page (s.heap.length + 1)⟩,
         some zeroEntry, some zeroEntry], none⟩ ∧
      load s1 a = .ok ⟨0, true, 8, 4, 3,
        [some ⟨true, some k0, Data.rid r0⟩, some ⟨true, some k1, Data.rid r1⟩,
         some ⟨true, some k2, Data.rid r2⟩, some ⟨true, some k3, Data.rid r3⟩],
        some s.heap.length⟩ ∧
      load s1 (s.heap.length + 1) = .ok ⟨2, true, 8, 4, 2,
        [some ⟨true, some k3, Data.rid r3⟩,
         some ⟨true, some (k4.take s.tree.key_size), Data.rid ⟨page_num, slot_num⟩⟩,
         none, some zeroEntry], some s.heap.length⟩ := by
  have h24 := memcmp_trans_le k2 k3 k4 s.tree.key_size (by omega) h23 h34
  have h14 := memcmp_trans_le k1 k2 k4 s.tree.key_size (by omega) h12 h24
  have h04 := memcmp_trans_le k0 k1 k4 s.tree.key_size (by omega) h01 h14
  have c0 : 0 ≤ memcmp k4 k0 s.tree.key_size := by
    rw [memcmp_antisymm]
    omega
  have c1 : 0 ≤ memcmp k4 k1 s.tree.key_size := by
    rw [memcmp_antisymm]
    omega
  have c2 : 0 ≤ memcmp k4 k2 s.tree.key_size := by
    rw [memcmp_antisymm]
    omega
  have c3 : 0 ≤ memcmp k4 k3 s.tree.key_size := by
    rw [memcmp_antisymm]
    omega
  have hdesc := descend_leaf s k4 s.heap.length a _ hload rfl
  obtain ⟨s1, ret, hB, ht, hr, ha, hn⟩ :=
    Balance_root_run s a _ k4 page_num slot_num k0 k1 k2 k3 r0 r1 r2 r3 hload rfl rfl rfl hl2
      c0 c1 c2 c3
  rw [hpc] at ht hr hn
  refine ⟨by simp [hl4], s1, ?_, ?_, ?_, hr, ha, hn⟩
  · simp only [idxt_AddRecord, hroot, hdesc, hload, Nat.lt_irrefl, if_false, hB]
  · rw [ht]
  · rw [ht]
    rfl

/-- Witness of C21: the fifth call of `main`, key 5 with locator (2, 7), on
the tree holding the keys 1, 2, 3, 4. -/
theorem root_split_greatest_key_witness :
    add_records (main_records.take 4) (idxt_Create 4096 4 State.init) = .ok four_key_tree ∧
    ((key_of_u32 5).take four_key_tree.tree.key_size).length = four_key_tree.tree.key_size ∧
    ∃ s1, idxt_AddRecord (key_of_u32 5) 2 7 four_key_tree = .ok (true, s1) ∧
      s1.tree.root = some four_key_tree.heap.length ∧ s1.tree.page_counter = 3 ∧
      load s1 four_key_tree.heap.length = .ok ⟨1, false, 8, 4, 2,
        [some ⟨true, some [3, 0, 0, 0], Data.page 0⟩,
         some ⟨true, some ((key_of_u32 5).take four_key_tree.tree.key_size),
           Data.page (four_key_tree.heap.length + 1)⟩,
         some zeroEntry, some zeroEntry], none⟩ ∧
      load s1 0 = .ok ⟨0, true, 8, 4, 3,
        [some ⟨true, some [1, 0, 0, 0], Data.rid ⟨2, 3⟩⟩,
         some ⟨true, some [2, 0, 0, 0], Data.rid ⟨2, 4⟩⟩,
         some ⟨true, some [3, 0, 0, 0], Data.rid ⟨2, 6⟩⟩,
         some ⟨true, some [4, 0, 0, 0], Data.rid ⟨2, 5⟩⟩],
        some four_key_tree.heap.length⟩ ∧
      load s1 (four_key_tree.heap.length + 1) = .ok ⟨2, true, 8, 4, 2,
        [some ⟨true, some [4, 0, 0, 0], Data.rid ⟨2, 5⟩⟩,
         some ⟨true, some ((key_of_u32 5).take four_key_tree.tree.key_size),
           Data.rid ⟨2, 7⟩⟩,
         none, some zeroEntry], some four_key_tree.heap.length⟩ :=
  ⟨four_key_tree_eq,
    root_split_greatest_key four_key_tree 0 [1, 0, 0, 0] [2, 0, 0, 0] [3, 0, 0, 0] [4, 0, 0, 0]
      (key_of_u32 5) ⟨2, 3⟩ ⟨2, 4⟩ ⟨2, 6⟩ ⟨2, 5⟩ 2 7 rfl rfl rfl rfl rfl rfl (by decide)
      (by decide) (by decide) (by decide) (by decide)⟩

/-! ## Trees with more than two leaves -/

/-- C4 (separator correctness), on the tree of `main` extended by the keys 4
and 5, a reachable state whose right leaf is full: the call
`idxt_AddRecord(key 5, 2, 10)` splits that leaf, which has a parent, so no
statement assigns `lower_page_entry` (line 313).  When the local holds the
address of the root's first entry, the value that the split of the leaf root
assigned to it, line 328 writes the right leaf's highest key 5 into the entry
of the left leaf, and the call returns true: in the reachable tree it leaves,
the root's first entry has the key 5 over a leaf whose active keys are 1, 2,
3.  The separators 3, 5, 5 are right only when the local holds `NULL`; and
with `NULL` the split of the full left leaf of `left_full_tree`, also
reachable, does not return. -/
theorem separator_wrong_after_nonroot_split :
    Reachable right_full_tree ∧
    idxt_AddRecord_with ⟨some (1, 0), none⟩ (key_of_u32 5) 2 10 right_full_tree
      = .ok (true, wrong_separator_tree) ∧
    Reachable wrong_separator_tree ∧ InTree wrong_separator_tree 1 0 ∧
    (∃ p e, load wrong_separator_tree 1 = .ok p ∧ p.is_leaf = false ∧ 0 < p.num_entries ∧
      slotAt p.entries 0 = some e ∧ e.key = some [5, 0, 0, 0] ∧ e.data = Data.page 0 ∧
      ¬ SubtreeKey wrong_separator_tree 0 [5, 0, 0, 0]) ∧
    (∃ s1 pr, idxt_AddRecord_with ⟨none, none⟩ (key_of_u32 5) 2 10 right_full_tree
        = .ok (true, s1) ∧ load s1 1 = .ok pr ∧
      pr.entries = [some ⟨true, some [3, 0, 0, 0], Data.page 0⟩,
        some ⟨true, some [5, 0, 0, 0], Data.page 2⟩,
        some ⟨true, some [5, 0, 0, 0], Data.page 3⟩, some zeroEntry]) ∧
    Reachable left_full_tree ∧
    (∀ junk, idxt_AddRecord_with ⟨none, junk⟩ (key_of_u32 3) 2 9 left_full_tree
      = .error Fault.null_deref) := by
  have hadd : idxt_AddRecord_with ⟨some (1, 0), none⟩ (key_of_u32 5) 2 10 right_full_tree
      = .ok (true, wrong_separator_tree) := rfl
  refine ⟨right_full_reachable, hadd,
    Reachable.add right_full_tree ⟨some (1, 0), none⟩ (key_of_u32 5) 2 10 true _
      right_full_reachable (by decide) hadd,
    InTree.root 1 rfl, ⟨_, _, rfl, rfl, by decide, rfl, rfl, rfl, ?_⟩,
    ⟨_, _, rfl, rfl, rfl⟩, left_full_reachable, fun _ => rfl⟩
  have hp : load wrong_separator_tree 0 = .ok ⟨0, true, 8, 4, 3,
      [some ⟨true, some [1, 0, 0, 0], Data.rid ⟨2, 3⟩⟩,
       some ⟨true, some [2, 0, 0, 0], Data.rid ⟨2, 4⟩⟩,
       some ⟨true, some [3, 0, 0, 0], Data.rid ⟨2, 6⟩⟩,
       some ⟨true, some [4, 0, 0, 0], Data.rid ⟨2, 5⟩⟩], some 1⟩ := rfl
  intro hk
  cases hk with
  | own _ p i e _ hl hi he hek =>
    rw [hp] at hl
    simp only [Except.ok.injEq] at hl
    subst hl
    have hi3 : i < 3 := hi
    interval_cases i
    · simp only [slotAt_cons_zero, Option.some.injEq] at he
      subst he
      exact absurd hek (by decide)
    · simp only [slotAt_cons_one, Option.some.injEq] at he
      subst he
      exact absurd hek (by decide)
    · simp only [slotAt_cons_two, Option.some.injEq] at he
      subst he
      exact absurd hek (by decide)
  | sub _ p i e c _ hl hn _ _ _ _ =>
    rw [hp] at hl
    simp only [Except.ok.injEq] at hl
    subst hl
    cases hn

/-- C5 (capacity respected): ten `idxt_AddRecord` calls with repeated keys,
the unassigned local holding `NULL` or the address of the root's first entry,
split leaves three times and fill the root with `max_entries = 4` separators;
this state is reachable.  The next call, key 3, splits the full leaf at
address 0 again: no statement tests the root for room,
`InsertNonleafPageEntry` (line 336) finds position 3 for the new separator,
and the `memmove` of lines 385-386 moves the entry of slot 3 to `entries[4]`,
beyond the array, before line 394 raises `num_entries` to 5. -/
theorem root_overflow_through_api :
    add_records_with ⟨none, none⟩ dup_records (idxt_Create 4096 4 State.init)
      = .ok api_full_root_tree ∧
    add_records_with ⟨some (1, 0), none⟩ dup_records (idxt_Create 4096 4 State.init)
      = .ok api_full_root_tree ∧
    Reachable api_full_root_tree ∧
    api_full_root_tree.tree.root = some 1 ∧ load api_full_root_tree 1 = .ok api_full_root ∧
    api_full_root.num_entries = api_full_root.max_entries ∧
    (∀ junk, idxt_AddRecord_with ⟨none, junk⟩ (key_of_u32 3) 2 13 api_full_root_tree
      = .error Fault.out_of_bounds) ∧
    (∀ junk, idxt_AddRecord_with ⟨some (1, 0), junk⟩ (key_of_u32 3) 2 13 api_full_root_tree
      = .error Fault.out_of_bounds) ∧
    scan_isrt_pos 4 (some [3, 0, 0, 0]) api_full_root.entries 0 api_full_root.max_entries
      = .ok (some 3) ∧
    place_entry 4 api_full_root (some 3) (some [3, 0, 0, 0]) (Data.page 5)
      = .error Fault.out_of_bounds :=
  ⟨rfl, rfl, api_full_root_reachable, rfl, rfl, rfl, fun _ => rfl, fun _ => rfl, rfl, rfl⟩

/-! ## Invariants of every reachable tree -/

/-- C8 (depth balance): in every state reachable from `idxt_Create` by
`idxt_AddRecord` calls that return, whatever the calls find in the places they
read without their having been written, any two leaf pages of the tree are at
the same number of child edges from the root. -/
theorem depth_balance (s : State) (h : Reachable s) (a d : Nat) (p : IndexPage)
    (a' d' : Nat) (p' : IndexPage)
    (ht : InTree s a d) (hl : load s a = .ok p) (hleaf : p.is_leaf = true)
    (ht' : InTree s a' d') (hl' : load s a' = .ok p') (hleaf' : p'.is_leaf = true) :
    d = d' := by
  rcases reachable_shape s h with ⟨r, q, hroot, hload, hok, -⟩ | ⟨r, pr, hR⟩
  · obtain ⟨-, hd⟩ := InTree_PhaseA s r q hroot hload hok.leaf a d ht
    obtain ⟨-, hd'⟩ := InTree_PhaseA s r q hroot hload hok.leaf a' d' ht'
    rw [hd, hd']
  · have key : ∀ x dx px, InTree s x dx → load s x = .ok px → px.is_leaf = true → dx = 1 := by
      intro x dx px hx hlx hleafx
      rcases InTree_RootOK s r pr hR x dx hx with ⟨hxr, -⟩ | ⟨hdx, -⟩
      · exfalso
        rw [hxr, hR.load_r] at hlx
        simp only [Except.ok.injEq] at hlx
        rw [← hlx, hR.nonleaf] at hleafx
        cases hleafx
      · exact hdx
    rw [key a d p ht hl hleaf, key a' d' p' ht' hl' hleaf']

/-- Witness of C8: in a tree with three leaves, built by seven calls with
repeated keys, the first and the last leaf are both one edge below the
root. -/
theorem depth_balance_witness :
    Reachable three_leaf_tree ∧ InTree three_leaf_tree 0 1 ∧ InTree three_leaf_tree 2 1 ∧
    (1 : Nat) = 1 :=
  ⟨three_leaf_reachable, three_leaf_first, three_leaf_third,
    depth_balance three_leaf_tree three_leaf_reachable 0 1 _ 2 1 _ three_leaf_first rfl rfl
      three_leaf_third rfl rfl⟩

/-- C22 (height bound): in every state reachable from `idxt_Create` by
`idxt_AddRecord` calls that return, whatever the calls find in the places they
read without their having been written, no page of the tree is more than one
child edge below the root, and either the root is a leaf, or the root is the
only non-leaf page of the tree and the child of each of its active entries is
a leaf whose parent pointer is the root.  A further call that returns keeps a
non-leaf root as the root and makes no page a non-leaf page that was not one
before; it keeps a leaf root with a free slot as the root and allocates no
page: a non-leaf page is created only by the split of the leaf root. -/
theorem height_bound (s : State) (h : Reachable s) :
    ∃ r pr, s.tree.root = some r ∧ load s r = .ok pr ∧
      (∀ a d, InTree s a d → d ≤ 1) ∧
      (pr.is_leaf = true ∨
        (pr.is_leaf = false ∧
         (∀ a d p, InTree s a d → load s a = .ok p → p.is_leaf = false → a = r) ∧
         (∀ i e, i < pr.num_entries → slotAt pr.entries i = some e →
            ∃ c pc, e.data = Data.page c ∧ load s c = .ok pc ∧ pc.is_leaf = true ∧
              pc.parent = some r))) ∧
      (∀ g key page_num slot_num b s1, s.tree.key_size ≤ key.length →
         idxt_AddRecord_with g key page_num slot_num s = .ok (b, s1) →
         (pr.is_leaf = false →
            s1.tree.root = some r ∧
            ∀ x p1, load s1 x = .ok p1 → p1.is_leaf = false →
              ∃ p0, load s x = .ok p0 ∧ p0.is_leaf = false) ∧
         (pr.is_leaf = true → pr.num_entries < pr.max_entries →
            s1.tree.root = some r ∧ s1.heap.length = s.heap.length)) := by
  rcases reachable_shape s h with ⟨r, q, hroot, hload, hok, hpar⟩ | ⟨r, pr, hR⟩
  · refine ⟨r, q, hroot, hload, ?_, Or.inl hok.leaf, ?_⟩
    · intro a d ht
      obtain ⟨-, hd⟩ := InTree_PhaseA s r q hroot hload hok.leaf a d ht
      omega
    · intro g key page_num slot_num b s1 hk hadd
      refine ⟨?_, ?_⟩
      · intro hnl
        rw [hok.leaf] at hnl
        cases hnl
      · intro _ hroom
        rcases AddRecord_with_PhaseA g s key page_num slot_num b s1 r q hroot hload hok hpar hk
            hadd with ⟨-, h1, h2, -⟩ | ⟨hfull, -⟩
        · exact ⟨h1, h2⟩
        · exact absurd hroom hfull
  · refine ⟨r, pr, hR.root, hR.load_r, ?_, Or.inr ⟨hR.nonleaf, ?_, ?_⟩, ?_⟩
    · intro a d ht
      rcases InTree_RootOK s r pr hR a d ht with ⟨-, hd⟩ | ⟨hd, -⟩ <;> omega
    · intro a d p ht hl hnl
      rcases InTree_RootOK s r pr hR a d ht with ⟨ha, -⟩ | ⟨-, -, pa, hpa, hleaf, -⟩
      · exact ha
      · exfalso
        rw [hl] at hpa
        simp only [Except.ok.injEq] at hpa
        rw [← hpa, hnl] at hleaf
        cases hleaf
    · intro i e hi he
      obtain ⟨c, hc, -, pc, hpc, hleaf, hparent⟩ := hR.child i e hi he
      exact ⟨c, pc, hc, hpc, hleaf, hparent⟩
    · intro g key page_num slot_num b s1 _ hadd
      obtain ⟨⟨pr1, hR1⟩, hN⟩ :=
        AddRecord_with_RootOK g s key page_num slot_num b s1 r pr hR hadd
      refine ⟨fun _ => ⟨hR1.root, hN⟩, ?_⟩
      intro hl
      rw [hR.nonleaf] at hl
      cases hl

/-- Witness of C22: the tree with three leaves built by seven calls with
repeated keys. -/
theorem height_bound_witness :
    Reachable three_leaf_tree ∧
    ∃ r pr, three_leaf_tree.tree.root = some r ∧ load three_leaf_tree r = .ok pr ∧
      (∀ a d, InTree three_leaf_tree a d → d ≤ 1) ∧
      (pr.is_leaf = true ∨
        (pr.is_leaf = false ∧
         (∀ a d p, InTree three_leaf_tree a d → load three_leaf_tree a = .ok p →
            p.is_leaf = false → a = r) ∧
         (∀ i e, i < pr.num_entries → slotAt pr.entries i = some e →
            ∃ c pc, e.data = Data.page c ∧ load three_leaf_tree c = .ok pc ∧
              pc.is_leaf = true ∧ pc.parent = some r))) ∧
      (∀ g key page_num slot_num b s1, three_leaf_tree.tree.key_size ≤ key.length →
         idxt_AddRecord_with g key page_num slot_num three_leaf_tree = .ok (b, s1) →
         (pr.is_leaf = false →
            s1.tree.root = some r ∧
            ∀ x p1, load s1 x = .ok p1 → p1.is_leaf = false →
              ∃ p0, load three_leaf_tree x = .ok p0 ∧ p0.is_leaf = false) ∧
         (pr.is_leaf = true → pr.num_entries < pr.max_entries →
            s1.tree.root = some r ∧ s1.heap.length = three_leaf_tree.heap.length)) :=
  ⟨three_leaf_reachable, height_bound three_leaf_tree three_leaf_reachable⟩


end DB2Emu
